import Mathlib

/-!
# ImpromptuModular: ChordKey

A shallow embedding of `src/ChordKey.cpp` (the chord-memory keyboard module)
and proofs of properties of its voltage encoding, transposition, control
phase, output phase, interop import and persistence, followed by the expander
link of `src/ClockedExpander.cpp`.

Conventions of the embedding.

* C `int`/`long` values are `Int`; the arrays `octs[25][4]`, `keys[25][4]`,
  `params[]`, `inputs[]`, `outputs[]` are total functions on `Int` indices and
  every statement about them is restricted to the indices the program uses.
* C `float` values are rationals (`ℚ`). Where the result of float arithmetic is
  converted to an integer (`getIndex`, `setCV`, the theme read by the expander)
  the arithmetic is rounded to single precision with `f32` and the conversion to
  `int` is `cInt`, as is the conversion of the numbers read by `dataFromJson`;
  elsewhere float arithmetic is exact, and the position of a key press and the
  warning duration, whose operands the widget and the sample rate bound, are
  truncated with `cTrunc`. The function `std::round` keeps its C meaning (half
  away from zero).
* Helpers that are declared outside `src/` (`clamp`, `eucDiv`, `eucMod`, the
  trigger and refresh-counter types, the port registers) are modelled from the
  specification and marked as such.
-/

/-! ## Library helpers -/

/-- Modelled from the spec: `std::round` of the C library, which the spec
writes `round`: the nearest integer, halfway cases away from zero. -/
def cRound (x : ℚ) : Int :=
  if 0 ≤ x then ⌊x + 1 / 2⌋ else -⌊-x + 1 / 2⌋

/-- The C cast `(int) x` / `(long) x` of a float: truncation toward zero. -/
def cTrunc (x : ℚ) : Int :=
  if 0 ≤ x then ⌊x⌋ else -⌊-x⌋

/-- Rounding to the nearest integer, halfway cases to the even integer. -/
def roundEven (y : ℚ) : Int :=
  if y - ⌊y⌋ < 1 / 2 then ⌊y⌋
  else if 1 / 2 < y - ⌊y⌋ then ⌊y⌋ + 1
  else if ⌊y⌋ % 2 = 0 then ⌊y⌋ else ⌊y⌋ + 1

/-- The `float` that an arithmetic operation of exact result `x` returns (IEEE
754 single precision, round to nearest, ties to even): `x` rounded to a multiple
of `2 ^ (e - 23)`, where `2 ^ e ≤ |x| < 2 ^ (e + 1)` and `e` is at least -126.
A result of magnitude `2 ^ 128` or more, which is an infinity in C, is kept as
a finite value: every use below converts the result to `int` next, and the
conversion treats both alike. -/
def f32 (x : ℚ) : ℚ :=
  if x = 0 then 0
  else (roundEven (x / 2 ^ (max (Int.log 2 |x|) (-126) - 23)) : ℚ)
    * 2 ^ (max (Int.log 2 |x|) (-126) - 23)

/-- The conversion `(int) x` of a `float` or `double`: truncation toward zero
when the result is a value of `int` (32 bits). Outside that range C leaves the
conversion undefined; the compiled code (the x86-64 conversion instruction)
returns `INT_MIN`, which is what the model returns. -/
def cInt (x : ℚ) : Int :=
  if -2147483648 ≤ cTrunc x ∧ cTrunc x ≤ 2147483647 then cTrunc x else -2147483648

/-- Modelled from the spec: `clamp(x, a, b)` of the host SDK (not under
`src/`), "clamped to [a, b]": `max(min(x, b), a)`. -/
def clamp (x a b : Int) : Int := max (min x b) a

/-- Modelled from the spec: the float overload of `clamp` (not under `src/`). -/
def clampF (x a b : ℚ) : ℚ := max (min x b) a

/-- Modelled from the spec: `eucDiv` is declared outside `src/`; the spec calls
it `floorDiv`, division rounding toward minus infinity. -/
def eucDiv (a b : Int) : Int := Int.fdiv a b

/-- Modelled from the spec: `eucMod` is declared outside `src/`; the spec calls
it `floorMod`, the remainder of floor division. -/
def eucMod (a b : Int) : Int := Int.fmod a b

/-- Writing one cell of a two-dimensional `int` array: `a[i][j] = v`. -/
def set2 (a : Int → Int → Int) (i j : Int) (v : Int) : Int → Int → Int :=
  fun i2 j2 => if i2 = i ∧ j2 = j then v else a i2 j2

/-- The loop `for (int i = lo; i < hi; i++) body`, threading the state. -/
def forLoop {σ : Type} (lo hi : Nat) (body : σ → Int → σ) (s : σ) : σ :=
  (List.range' lo (hi - lo)).foldl (fun st (i : Nat) => body st (Int.ofNat i)) s

/-! ## Host registers -/

/-- Modelled from the spec: an input port register of the host
(`isConnected()`, `getChannels()`, `getVoltage(channel)`). -/
structure Input where
  connected : Bool
  channels : Int
  voltages : Int → ℚ

/-- Modelled from the spec: an output port register of the host
(`setChannels(n)`, `setVoltage(value, channel)`). -/
structure Output where
  channels : Int
  voltages : Int → ℚ

/-- Modelled from the spec: `Input::getVoltage()` reads channel 0. -/
def Input.getVoltage (i : Input) : ℚ := i.voltages 0

/-- Modelled from the spec: `Output::setChannels(n)` stores the channel count. -/
def Output.setChannels (o : Output) (n : Int) : Output :=
  { o with channels := n }

/-- Modelled from the spec: `Output::setVoltage(v, channel)` stores the voltage
of one channel; the one-argument call of the source is channel 0. -/
def Output.setVoltage (o : Output) (v : ℚ) (channel : Int) : Output :=
  { o with voltages := fun c => if c = channel then v else o.voltages c }

/-- The fields of `PianoKeyInfo` (declared in `comp/PianoKey.hpp`) that
`ChordKey.cpp` reads. -/
structure PianoKeyInfo where
  gate : Bool
  isRightClick : Bool
  key : Int
  vel : ℚ

/-- The fields of an interop note (`IoNote`, declared in `Interop.hpp`). -/
structure IoNote where
  start : ℚ
  length : ℚ
  pitch : ℚ
  vel : ℚ
  prob : ℚ

/-- The argument of `process`. -/
structure ProcessArgs where
  sampleRate : ℚ

/-- Results, during one call of `process`, of the members whose types are
declared outside `src/`: the refresh counter (`refresh.processInputs()`,
`refresh.processLights()`, `RefreshCounter::displayRefreshStepSkips`) and the
Schmitt triggers of the buttons (`octIncTriggers[cni].process(..)`, ...). -/
structure Refresh where
  processInputs : Bool
  processLights : Bool
  displayRefreshStepSkips : Nat
  octInc : Int → Bool
  octDec : Int → Bool
  transposeUp : Bool
  transposeDown : Bool

/-! ## Persistence documents -/

/-- Modelled from the spec: a document of the host's persistence library
(jansson `json_t`), "opaque key-value document with integer/array fields". -/
inductive Json where
  | null : Json
  | bool (b : Bool) : Json
  | integer (n : Int) : Json
  | real (x : ℚ) : Json
  | string (s : String) : Json
  | array (elems : List Json) : Json
  | object (members : List (String × Json)) : Json

/-- Modelled from the spec: `json_object_get(json, key)`, the member of an object
under a key, `NULL` when the document is not an object or has no such key. -/
def json_object_get (j : Json) (key : String) : Option Json :=
  match j with
  | Json.object members => members.lookup key
  | _ => none

/-- Modelled from the spec: `json_array_get(json, index)`, the element of an
array, `NULL` when the document is not an array or the index is out of range. -/
def json_array_get (j : Json) (index : Int) : Option Json :=
  match j with
  | Json.array elems => if index < 0 then none else elems.get? index.toNat
  | _ => none

/-- Modelled from the spec: `json_integer_value(json)`, the value of an integer
document and 0 for any other document. -/
def json_integer_value (j : Json) : Int :=
  match j with
  | Json.integer n => n
  | _ => 0

/-- Modelled from the spec: `json_number_value(json)`, the value of an integer
or real document as a floating-point number and 0 for any other document. -/
def json_number_value (j : Json) : ℚ :=
  match j with
  | Json.integer n => (n : ℚ)
  | Json.real x => x
  | _ => 0

/-- The conversion of a 64-bit `json_int_t` to `int`: the low 32 bits. -/
def toInt32 (x : Int) : Int :=
  (x + 2147483648) % 4294967296 - 2147483648

/-- Modelled from the spec: `json_object()`, a new empty object. -/
def json_object : Json := Json.object []

/-- Modelled from the spec: `json_array()`, a new empty array. -/
def json_array : Json := Json.array []

/-- Modelled from the spec: `json_integer(value)`, a new integer document. -/
def json_integer (value : Int) : Json := Json.integer value

/-- Modelled from the spec: `json_object_set_new(object, key, value)`: the value
under `key` is replaced when the object has the key, the member is added
otherwise; a document that is not an object is left as it is. -/
def json_object_set_new (obj : Json) (key : String) (value : Json) : Json :=
  match obj with
  | Json.object members =>
    if members.any (fun kv => kv.1 == key) then
      Json.object (members.map (fun kv => if kv.1 == key then (key, value) else kv))
    else Json.object (members ++ [(key, value)])
  | _ => obj

/-- Modelled from the spec: `json_array_insert_new(array, index, value)`: the
value is inserted before position `index` (at the end when `index` is the
size); an index past the size, or a document that is not an array, is an error
and leaves the document as it is. -/
def json_array_insert_new (arr : Json) (index : Int) (value : Json) : Json :=
  match arr with
  | Json.array elems =>
    if 0 ≤ index ∧ index ≤ (elems.length : Int) then
      Json.array (elems.take index.toNat ++ value :: elems.drop index.toNat)
    else arr
  | _ => arr

/-- Writing one cell of a one-dimensional `int` array: `a[i] = v`. -/
def set1 (a : Int → Int) (i : Int) (v : Int) : Int → Int :=
  fun i2 => if i2 = i then v else a i2

/-! ## The module -/

/-- The state of `struct ChordKey : Module`. -/
structure ChordKey where
  params : Int → ℚ
  inputs : Int → Input
  outputs : Int → Output
  lights : Int → ℚ
  panelTheme : Int
  octs : Int → Int → Int
  keys : Int → Int → Int
  mergeOutputs : Int
  keypressEmitGate : Int
  autostepPaste : Int
  noteLightCounter : Int
  octsCP : Int → Int
  keysCP : Int → Int
  offWarning : Int
  keyTrigger : Bool
  pkInfo : PianoKeyInfo
  offWarningChan : Int

namespace ChordKey

/-! enum ParamIds, InputIds, OutputIds, LightIds -/

def OCTINC_PARAMS : Int := 0
def OCTDEC_PARAMS : Int := 4
def INDEX_PARAM : Int := 8
def FORCE_PARAM : Int := 9
def TRANSPOSEUP_PARAM : Int := 10
def TRANSPOSEDOWN_PARAM : Int := 11
def INDEX_INPUT : Int := 0
def GATE_INPUT : Int := 1
def CV_OUTPUTS : Int := 0
def GATE_OUTPUTS : Int := 4
def KEY_LIGHTS : Int := 0

def NUM_CHORDS : Int := 25

/-- The constant `warningTime = 0.7f` (seconds). -/
def warningTime : ℚ := 7 / 10

/-- `int getIndex()`: the product and the sum are single-precision operations,
`std::round` returns an integer-valued `float` and `(int)` converts it. -/
def getIndex (m : ChordKey) : Int :=
  let index := cInt (cRound
    (f32 (m.params INDEX_PARAM + f32 ((m.inputs INDEX_INPUT).getVoltage * 12))))
  clamp index 0 (NUM_CHORDS - 1)

/-- `float calcCV(int index, int cni)`. -/
def calcCV (m : ChordKey) (index cni : Int) : ℚ :=
  if m.octs index cni ≥ 0 then
    ((m.octs index cni - 4 : Int) : ℚ) + ((m.keys index cni : Int) : ℚ) / 12
  else 0

/-- `void setCV(int index, int cni, float cv)`: the product is a single-precision
operation, `std::round` returns an integer-valued `float` and `(int)` converts
it. -/
def setCV (m : ChordKey) (index cni : Int) (cv : ℚ) : ChordKey :=
  let note := cInt (cRound (f32 (cv * 12)))
  let m1 := { m with octs := set2 m.octs index cni (clamp (eucDiv note 12 + 4) 0 9) }
  { m1 with keys := set2 m1.keys index cni (eucMod note 12) }

/-- `void applyDelta(int index, int cni, int delta)`. -/
def applyDelta (m : ChordKey) (index cni : Int) (delta : Int) : ChordKey :=
  let newKey := m.keys index cni + delta
  let m1 := { m with keys := set2 m.keys index cni (eucMod newKey 12) }
  let newOct := m1.octs index cni + eucDiv newKey 12
  { m1 with octs := set2 m1.octs index cni (clamp newOct 0 9) }

/-- `void resetNonJson()`. -/
def resetNonJson (m : ChordKey) : ChordKey :=
  { m with
    noteLightCounter := 0
    keysCP := fun cni => if cni = 0 then 0 else if cni = 1 then 4 else if cni = 2 then 7
      else if cni = 3 then 0 else m.keysCP cni
    octsCP := fun cni => if cni = 0 then 4 else if cni = 1 then 4 else if cni = 2 then 4
      else if cni = 3 then -1 else m.octsCP cni
    offWarning := 0 }

/-- The body of the loop of `onReset` for the chord `ci`. -/
def resetChord (m : ChordKey) (ci : Int) : ChordKey :=
  let m1 := { m with keys := set2 m.keys ci 0 0 }
  let m2 := { m1 with keys := set2 m1.keys ci 1 4 }
  let m3 := { m2 with keys := set2 m2.keys ci 2 7 }
  let m4 := { m3 with keys := set2 m3.keys ci 3 0 }
  let m5 := { m4 with octs := set2 m4.octs ci 0 4 }
  let m6 := { m5 with octs := set2 m5.octs ci 1 4 }
  let m7 := { m6 with octs := set2 m6.octs ci 2 4 }
  { m7 with octs := set2 m7.octs ci 3 (-1) }

/-- `void onReset()`: every chord is the C-major triad on C4 with the fourth
note turned off. -/
def onReset (m : ChordKey) : ChordKey :=
  let m1 := forLoop 0 25 resetChord m
  resetNonJson { m1 with mergeOutputs := 0, keypressEmitGate := 1, autostepPaste := 0 }

/-- The module as the host hands it to the constructor body: every parameter
at its configured default 0, ports unconnected mono registers at 0 V, lights
off, triggers released, no key held. -/
def blank : ChordKey where
  params := fun _ => 0
  inputs := fun _ => { connected := false, channels := 0, voltages := fun _ => 0 }
  outputs := fun _ => { channels := 1, voltages := fun _ => 0 }
  lights := fun _ => 0
  panelTheme := 0
  octs := fun _ _ => 0
  keys := fun _ _ => 0
  mergeOutputs := 0
  keypressEmitGate := 0
  autostepPaste := 0
  noteLightCounter := 0
  octsCP := fun _ => 0
  keysCP := fun _ => 0
  offWarning := 0
  keyTrigger := false
  pkInfo := { gate := false, isRightClick := false, key := 0, vel := 0 }
  offWarningChan := 0

/-- The constructor `ChordKey()`: `onReset()` then the panel theme
(`loadDarkAsDefault() ? 1 : 0`). -/
def init (dark : Bool) : ChordKey :=
  { onReset blank with panelTheme := if dark then 1 else 0 }

/-! ### `process`: buttons, knobs, switches and inputs -/

/-- Body of the loop "oct inc/dec" for the chord note `cni`. -/
def octIncDecStep (t : Refresh) (index : Int) (m : ChordKey) (cni : Int) : ChordKey :=
  let m1 := if t.octInc cni then
      { m with octs := set2 m.octs index cni (clamp (m.octs index cni + 1) (-1) 9) }
    else m
  if t.octDec cni then
    { m1 with octs := set2 m1.octs index cni (clamp (m1.octs index cni - 1) (-1) 9) }
  else m1

/-- The loop "oct inc/dec". -/
def octIncDec (m : ChordKey) (t : Refresh) (index : Int) : ChordKey :=
  forLoop 0 4 (octIncDecStep t index) m

/-- The section "Transpose buttons". -/
def transposeButtons (m : ChordKey) (t : Refresh) (index : Int) : ChordKey :=
  let delta0 : Int := 0
  let delta1 : Int := if t.transposeUp then 1 else delta0
  let delta : Int := if t.transposeDown then -1 else delta1
  if delta ≠ 0 then
    forLoop 0 4 (fun st cni => if st.octs index cni ≥ 0 then st.applyDelta index cni delta else st) m
  else m

/-- Modelled from the spec: `dsp::BooleanTrigger::process(state)` of the host
SDK, a rising-edge detector: it fires when the gate is high and was low at the
previous call, and remembers the gate. -/
def keyTriggerProcess (m : ChordKey) (gate : Bool) : Bool × ChordKey :=
  (gate && !m.keyTrigger, { m with keyTrigger := gate })

/-- The position a key press targets: `clamp((int)(pkInfo.vel * 4.0f), 0, 3)`. -/
def pressedPosition (m : ChordKey) : Int :=
  clamp (cTrunc (m.pkInfo.vel * 4)) 0 3

/-- The value the warning timer is armed with:
`(long)(warningTime * args.sampleRate / RefreshCounter::displayRefreshStepSkips)`. -/
def warningSteps (args : ProcessArgs) (t : Refresh) : Int :=
  cTrunc (warningTime * args.sampleRate / (t.displayRefreshStepSkips : ℚ))

/-- The section "piano keys". -/
def pianoKeys (m : ChordKey) (args : ProcessArgs) (t : Refresh) (index : Int) : ChordKey :=
  let r := keyTriggerProcess m m.pkInfo.gate
  let m0 := r.2
  if r.1 then
    let cni := pressedPosition m0
    if m0.octs index cni ≥ 0 then
      { m0 with keys := set2 m0.keys index cni m0.pkInfo.key }
    else
      { m0 with offWarning := warningSteps args t, offWarningChan := cni }
  else m0

/-- The call `outputs[port].setChannels(n)`. -/
def setOutChannels (m : ChordKey) (port n : Int) : ChordKey :=
  { m with outputs := fun p => if p = port then (m.outputs port).setChannels n else m.outputs p }

/-- The call `outputs[port].setVoltage(v, channel)`. -/
def setOutVoltage (m : ChordKey) (port : Int) (v : ℚ) (channel : Int) : ChordKey :=
  { m with outputs := fun p =>
      if p = port then (m.outputs port).setVoltage v channel else m.outputs p }

/-- The section "Top output channels". -/
def topOutputChannels (m : ChordKey) : ChordKey :=
  if m.mergeOutputs = 0 then
    setOutChannels (setOutChannels m (GATE_OUTPUTS + 0) 1) (CV_OUTPUTS + 0) 1
  else if m.mergeOutputs = 1 then
    setOutChannels (setOutChannels m (GATE_OUTPUTS + 0) 2) (CV_OUTPUTS + 0) 2
  else if m.mergeOutputs = 2 then
    setOutChannels (setOutChannels m (GATE_OUTPUTS + 0) 3) (CV_OUTPUTS + 0) 3
  else
    setOutChannels (setOutChannels m (GATE_OUTPUTS + 0) 4) (CV_OUTPUTS + 0) 4

/-- The block guarded by the first `refresh.processInputs()`. -/
def controlPhase (m : ChordKey) (args : ProcessArgs) (t : Refresh) (index : Int) : ChordKey :=
  topOutputChannels (pianoKeys (transposeButtons (octIncDec m t index) t index) args t index)

/-! ### `process`: outputs and lights -/

/-- The local `forcedGate`. -/
def forcedGate (m : ChordKey) : Bool :=
  decide (m.params FORCE_PARAM ≥ 1 / 2)

/-- The local `extGateWithForce` of the chord note `cni`: external (poly) gate
with force. -/
def extGateWithForce (m : ChordKey) (cni : Int) : Bool :=
  let ext := forcedGate m
  if !forcedGate m && (m.inputs GATE_INPUT).connected then
    let numGateChan := (m.inputs GATE_INPUT).channels
    ext || decide ((m.inputs GATE_INPUT).voltages (min (numGateChan - 1) cni) ≥ 1)
  else ext

/-- The local `keypressGate` of the chord note `cni`: keypress (with mouse gate). -/
def keypressGate (m : ChordKey) (index cni : Int) : Bool :=
  if m.pkInfo.gate && decide (m.keypressEmitGate ≠ 0) then
    let keyPressed := clamp (cTrunc (m.pkInfo.vel * 4)) 0 3
    if m.pkInfo.isRightClick then
      decide (m.octs index keyPressed ≥ 0) && decide (keyPressed = cni)
    else
      decide (m.octs index keyPressed ≥ 0)
  else false

/-- The local array `gateOuts`. -/
def gateOuts (m : ChordKey) (index cni : Int) : ℚ :=
  if decide (m.octs index cni ≥ 0) && (extGateWithForce m cni || keypressGate m index cni)
  then 10 else 0

/-- The local array `cvOuts`. -/
def cvOuts (m : ChordKey) (index cni : Int) : ℚ :=
  m.calcCV index cni

/-- Writing the note `cni` on its own output pair (one-argument `setVoltage`). -/
def writeOwn (g c : Int → ℚ) (st : ChordKey) (cni : Int) : ChordKey :=
  setOutVoltage (setOutVoltage st (GATE_OUTPUTS + cni) (g cni) 0) (CV_OUTPUTS + cni) (c cni) 0

/-- Writing the note `cni` on channel `cni` of output pair 0. -/
def writeMerged (g c : Int → ℚ) (st : ChordKey) (cni : Int) : ChordKey :=
  setOutVoltage (setOutVoltage st (GATE_OUTPUTS + 0) (g cni) cni) (CV_OUTPUTS + 0) (c cni) cni

/-- Forcing the output pair `cni` to 0 V. -/
def writeZero (st : ChordKey) (cni : Int) : ChordKey :=
  setOutVoltage (setOutVoltage st (GATE_OUTPUTS + cni) 0 0) (CV_OUTPUTS + cni) 0 0

/-- The section "gate and cv outputs" with its four-way switch on
`mergeOutputs`. -/
def outputPhase (m : ChordKey) (index : Int) : ChordKey :=
  let g := gateOuts m index
  let c := cvOuts m index
  if m.mergeOutputs = 0 then
    forLoop 0 4 (writeOwn g c) m
  else if m.mergeOutputs = 1 then
    let m1 := writeZero m 1
    let m2 := forLoop 0 2 (writeMerged g c) m1
    forLoop 2 4 (writeOwn g c) m2
  else if m.mergeOutputs = 2 then
    let m1 := forLoop 1 3 writeZero m
    let m2 := forLoop 0 3 (writeMerged g c) m1
    writeOwn g c m2 3
  else
    let m1 := forLoop 1 4 writeZero m
    forLoop 0 4 (writeMerged g c) m1

/-- The call `lights[i].setBrightness(b)`. -/
def setBrightness (m : ChordKey) (i : Int) (b : ℚ) : ChordKey :=
  { m with lights := fun j => if j = i then b else m.lights j }

/-- Body of the inner loop of the lights: the light of key `ki` for the chord
note `cni`. -/
def lightNote (index ki : Int) (st : ChordKey) (cni : Int) : ChordKey :=
  setBrightness st (KEY_LIGHTS + ki * 4 + cni)
    (if ki = st.keys index cni ∧ st.octs index cni ≥ 0 then 1 else 0)

/-- Body of the outer loop of the lights: the four lights of key `ki`. -/
def lightKey (index : Int) (st : ChordKey) (ki : Int) : ChordKey :=
  forLoop 0 4 (lightNote index ki) st

/-- The block guarded by `refresh.processLights()`. -/
def lightsPhase (m : ChordKey) (index : Int) : ChordKey :=
  let m1 := forLoop 0 12 (lightKey index) m
  if m1.offWarning > 0 then { m1 with offWarning := m1.offWarning - 1 } else m1

/-- `void process(const ProcessArgs &args)`. The final block "To Expander"
writes only into the buffer of the module on the right and is left out. -/
def process (m : ChordKey) (args : ProcessArgs) (t : Refresh) : ChordKey :=
  let index := m.getIndex
  let m1 := if t.processInputs then controlPhase m args t index else m
  let m2 := outputPhase m1 index
  if t.processLights then lightsPhase m2 index else m2

/-! ### Interop -/

/-- The element `(*ioNotes)[i]`. -/
def noteAt (ioNotes : List IoNote) (i : Int) : IoNote :=
  ioNotes.getD i.toNat { start := 0, length := 0, pitch := 0, vel := 0, prob := 0 }

/-- `void emptyIoNotesSeq(std::vector<IoNote> *ioNotes)`: grabs the first four
notes it sees, regardless of start time. -/
def emptyIoNotesSeq (m : ChordKey) (ioNotes : List IoNote) : ChordKey :=
  let index := m.getIndex
  let stop : Int := min 4 (ioNotes.length : Int)
  let m1 := forLoop 0 stop.toNat (fun st i => st.setCV index i (noteAt ioNotes i).pitch) m
  forLoop stop.toNat 4 (fun st i =>
    let st1 := { st with octs := set2 st.octs index i (-1) }
    { st1 with keys := set2 st1.keys index i 0 }) m1

/-- Body of the first loop of `emptyIoNotesChord`: the note `i` is written at
the write head `j` (second component) when it starts with the first note. -/
def chordNote (ioNotes : List IoNote) (index : Int) (firstTime : ℚ) (st : ChordKey × Int)
    (i : Int) : ChordKey × Int :=
  if (noteAt ioNotes i).start = firstTime then
    (st.1.setCV index st.2 (noteAt ioNotes i).pitch, st.2 + 1)
  else st

/-- Body of the loop "set rest of chord notes as unused". -/
def clearNote (index : Int) (st : ChordKey) (j : Int) : ChordKey :=
  let st1 := { st with octs := set2 st.octs index j (-1) }
  { st1 with keys := set2 st1.keys index j 0 }

/-- `void emptyIoNotesChord(std::vector<IoNote> *ioNotes)`: grabs only the notes
with the same start time as the first note seen. -/
def emptyIoNotesChord (m : ChordKey) (ioNotes : List IoNote) : ChordKey :=
  let index := m.getIndex
  let r : ChordKey × Int :=
    if ioNotes.length > 0 then
      let firstTime := (noteAt ioNotes 0).start
      forLoop 0 (min 4 (ioNotes.length : Int)).toNat (chordNote ioNotes index firstTime) (m, 0)
    else (m, 0)
  forLoop r.2.toNat 4 (clearNote index) r.1

/-- Body of the loop of `fillIoNotes`: the vector built so far and the write
head `j`. -/
def fillNote (m : ChordKey) (index : Int) (st : List IoNote × Int) (i : Int) :
    List IoNote × Int :=
  if m.octs index i ≥ 0 then
    (st.1 ++ [{ start := 0, length := 1 / 2, pitch := m.calcCV index i, vel := -1, prob := -1 }],
      st.2 + 1)
  else st

/-- `std::vector<IoNote>* fillIoNotes(int *seqLenPtr)`: the vector returned and
the length stored through `seqLenPtr`. -/
def fillIoNotes (m : ChordKey) : List IoNote × Int :=
  let index := m.getIndex
  forLoop 0 4 (fillNote m index) ([], 0)

/-- The call `params[i].setValue(v)`. -/
def setParam (m : ChordKey) (i : Int) (v : ℚ) : ChordKey :=
  { m with params := fun k => if k = i then v else m.params k }

/-- The step shared by both interop pastes: advance the index knob when
`autostepPaste` is set. -/
def autostep (m : ChordKey) : ChordKey :=
  if m.autostepPaste ≠ 0 then
    setParam m INDEX_PARAM (clampF (m.params INDEX_PARAM + 1) 0 24)
  else m

/-- `void interopPasteSeq()`; `pasted` is what `interopPasteSequenceNotes`
(declared in `Interop.hpp`) returns, `none` for a null pointer. -/
def interopPasteSeq (m : ChordKey) (pasted : Option (List IoNote)) : ChordKey :=
  match pasted with
  | some ioNotes => autostep (emptyIoNotesSeq m ioNotes)
  | none => m

/-- `void interopPasteChord()`; `pasted` is what `interopPasteSequenceNotes`
returns, `none` for a null pointer. -/
def interopPasteChord (m : ChordKey) (pasted : Option (List IoNote)) : ChordKey :=
  match pasted with
  | some ioNotes => autostep (emptyIoNotesChord m ioNotes)
  | none => m

/-- Body of the inner loop of `onRandomize`; the second component counts the
values drawn from `random::u32()`, whose `k`-th value is `rnd k` (32 bits). -/
def randomizeNote (rnd : Nat → Nat) (ci : Int) (st : ChordKey × Nat) (cni : Int) :
    ChordKey × Nat :=
  let m1 := { st.1 with octs := set2 st.1.octs ci cni ((rnd st.2 % 4294967296 % 10 : Nat) : Int) }
  let m2 := { m1 with
    keys := set2 m1.keys ci cni ((rnd (st.2 + 1) % 4294967296 % 12 : Nat) : Int) }
  (m2, st.2 + 2)

/-- Body of the outer loop of `onRandomize`. -/
def randomizeChord (rnd : Nat → Nat) (st : ChordKey × Nat) (ci : Int) : ChordKey × Nat :=
  forLoop 0 4 (randomizeNote rnd ci) st

/-- `void onRandomize()`, for the sequence `rnd` of values drawn. -/
def onRandomize (m : ChordKey) (rnd : Nat → Nat) : ChordKey :=
  (forLoop 0 25 (randomizeChord rnd) (m, 0)).1

/-! ### Persistence -/

/-- Body of the inner loop of the section "octs" of `dataToJson`. -/
def dumpOct (m : ChordKey) (ci : Int) (octJ : Json) (cni : Int) : Json :=
  json_array_insert_new octJ (cni + ci * 4) (json_integer (m.octs ci cni))

/-- Body of the inner loop of the section "keys" of `dataToJson`. -/
def dumpKey (m : ChordKey) (ci : Int) (keyJ : Json) (cni : Int) : Json :=
  json_array_insert_new keyJ (cni + ci * 4) (json_integer (m.keys ci cni))

/-- Body of the outer loop of the section "octs" of `dataToJson`. -/
def dumpOctChord (m : ChordKey) (octJ : Json) (ci : Int) : Json :=
  forLoop 0 4 (dumpOct m ci) octJ

/-- Body of the outer loop of the section "keys" of `dataToJson`. -/
def dumpKeyChord (m : ChordKey) (keyJ : Json) (ci : Int) : Json :=
  forLoop 0 4 (dumpKey m ci) keyJ

/-- `json_t *dataToJson()`. -/
def dataToJson (m : ChordKey) : Json :=
  let rootJ := json_object
  let rootJ1 := json_object_set_new rootJ "panelTheme" (json_integer m.panelTheme)
  let octJ := forLoop 0 25 (dumpOctChord m) json_array
  let rootJ2 := json_object_set_new rootJ1 "octs" octJ
  let keyJ := forLoop 0 25 (dumpKeyChord m) json_array
  let rootJ3 := json_object_set_new rootJ2 "keys" keyJ
  let rootJ4 := json_object_set_new rootJ3 "mergeOutputs" (json_integer m.mergeOutputs)
  let rootJ5 := json_object_set_new rootJ4 "keypressEmitGate" (json_integer m.keypressEmitGate)
  json_object_set_new rootJ5 "autostepPaste" (json_integer m.autostepPaste)

/-- Body of the inner loop of the section "octs" of `dataFromJson`; the
assignment converts the `double` to `int`. -/
def loadOct (octJ : Json) (ci : Int) (st : ChordKey) (cni : Int) : ChordKey :=
  match json_array_get octJ (cni + ci * 4) with
  | some octArrayJ => { st with octs := set2 st.octs ci cni (cInt (json_number_value octArrayJ)) }
  | none => st

/-- Body of the inner loop of the section "keys" of `dataFromJson`; the
assignment converts the `double` to `int`. -/
def loadKey (keyJ : Json) (ci : Int) (st : ChordKey) (cni : Int) : ChordKey :=
  match json_array_get keyJ (cni + ci * 4) with
  | some keyArrayJ => { st with keys := set2 st.keys ci cni (cInt (json_number_value keyArrayJ)) }
  | none => st

/-- Body of the outer loop of the section "octs" of `dataFromJson`. -/
def loadOctChord (octJ : Json) (st : ChordKey) (ci : Int) : ChordKey :=
  forLoop 0 4 (loadOct octJ ci) st

/-- Body of the outer loop of the section "keys" of `dataFromJson`. -/
def loadKeyChord (keyJ : Json) (st : ChordKey) (ci : Int) : ChordKey :=
  forLoop 0 4 (loadKey keyJ ci) st

/-- The section "octs" of `dataFromJson`. -/
def loadOcts (m : ChordKey) (rootJ : Json) : ChordKey :=
  match json_object_get rootJ "octs" with
  | some octJ => forLoop 0 25 (loadOctChord octJ) m
  | none => m

/-- The section "keys" of `dataFromJson`. -/
def loadKeys (m : ChordKey) (rootJ : Json) : ChordKey :=
  match json_object_get rootJ "keys" with
  | some keyJ => forLoop 0 25 (loadKeyChord keyJ) m
  | none => m

/-- The section "panelTheme" of `dataFromJson`. -/
def loadPanelTheme (m : ChordKey) (rootJ : Json) : ChordKey :=
  match json_object_get rootJ "panelTheme" with
  | some panelThemeJ => { m with panelTheme := toInt32 (json_integer_value panelThemeJ) }
  | none => m

/-- The section "mergeOutputs" of `dataFromJson`. -/
def loadMergeOutputs (m : ChordKey) (rootJ : Json) : ChordKey :=
  match json_object_get rootJ "mergeOutputs" with
  | some mergeOutputsJ => { m with mergeOutputs := toInt32 (json_integer_value mergeOutputsJ) }
  | none => m

/-- The section "keypressEmitGate" of `dataFromJson`. -/
def loadKeypressEmitGate (m : ChordKey) (rootJ : Json) : ChordKey :=
  match json_object_get rootJ "keypressEmitGate" with
  | some keypressEmitGateJ =>
    { m with keypressEmitGate := toInt32 (json_integer_value keypressEmitGateJ) }
  | none => m

/-- The section "autostepPaste" of `dataFromJson`. -/
def loadAutostepPaste (m : ChordKey) (rootJ : Json) : ChordKey :=
  match json_object_get rootJ "autostepPaste" with
  | some autostepPasteJ => { m with autostepPaste := toInt32 (json_integer_value autostepPasteJ) }
  | none => m

/-- `void dataFromJson(json_t *rootJ)`: the six sections in order, then
`resetNonJson()`. -/
def dataFromJson (m : ChordKey) (rootJ : Json) : ChordKey :=
  let m1 := loadPanelTheme m rootJ
  let m2 := loadOcts m1 rootJ
  let m3 := loadKeys m2 rootJ
  let m4 := loadMergeOutputs m3 rootJ
  let m5 := loadKeypressEmitGate m4 rootJ
  let m6 := loadAutostepPaste m5 rootJ
  resetNonJson m6

/-! ### Menu actions of `ChordKeyWidget` -/

/-- `CopyChordItem::onAction`: the active slot is copied to the clipboard. -/
def copyChord (m : ChordKey) : ChordKey :=
  let index := m.getIndex
  forLoop 0 4 (fun st cni =>
    let st1 := { st with octsCP := set1 st.octsCP cni (st.octs index cni) }
    { st1 with keysCP := set1 st1.keysCP cni (st1.keys index cni) }) m

/-- `PasteChordItem::onAction`: the clipboard is copied to the active slot. -/
def pasteChord (m : ChordKey) : ChordKey :=
  let index := m.getIndex
  forLoop 0 4 (fun st cni =>
    let st1 := { st with octs := set2 st.octs index cni (st.octsCP cni) }
    { st1 with keys := set2 st1.keys index cni (st1.keysCP cni) }) m

/-- The loop of `TransposeQuantity::setValue` (and of the section "Transpose
buttons"): `applyDelta` on every chord note of the active slot that is not
turned off. -/
def transposeNotes (m : ChordKey) (index delta : Int) : ChordKey :=
  forLoop 0 4 (fun st cni => if st.octs index cni ≥ 0 then st.applyDelta index cni delta else st) m

end ChordKey

/-- The fields of `ChordKeyWidget::TransposeQuantity`. -/
structure TransposeQuantity where
  valueLocal : ℚ
  valueIntLocal : Int
  valueIntLocalLast : Int

/-- `void TransposeQuantity::setValue(float value)`: the slider state and the
module after the call (`getMinValue()` is -60, `getMaxValue()` is 60). -/
def TransposeQuantity.setValue (q : TransposeQuantity) (m : ChordKey) (value : ℚ) :
    TransposeQuantity × ChordKey :=
  let valueLocal := clampF value (-60) 60
  let valueIntLocal := cRound valueLocal
  let q1 := { q with valueLocal := valueLocal, valueIntLocal := valueIntLocal }
  let delta := valueIntLocal - q1.valueIntLocalLast
  if delta ≠ 0 then
    let index := m.getIndex
    ({ q1 with valueIntLocalLast := valueIntLocal }, m.transposeNotes index delta)
  else (q1, m)

/-! ## The expander of Clocked -/

/-- Modelled from the spec: what `ClockedExpander::process` reaches of the module
on its left (`leftExpander.module`): its model (the identity of the `Model`
object it was created from) and, of its right-hand expander record, the producer
buffer and the flip flag. -/
structure LeftModule where
  model : Int
  producerMessage : Int → ℚ
  messageFlipRequested : Bool

/-- The state of `struct ClockedExpander : Module`. `leftModule` is
`leftExpander.module` (`none` for a null pointer); `producerMessage` and
`consumerMessage` are the rows of `leftMessages` that the pointers
`leftExpander.producerMessage` and `leftExpander.consumerMessage` designate
(rows 0 and 1 at construction, exchanged by the host at a flip). -/
structure ClockedExpander where
  inputs : Int → Input
  leftModule : Option LeftModule
  leftMessages : Int → Int → ℚ
  producerMessage : Int
  consumerMessage : Int
  panelTheme : Int
  panelContrast : ℚ
  expanderRefreshCounter : Nat

namespace ClockedExpander

/-- Body of the loop "To Mother": `messagesToMother[i] = inputs[i].getVoltage()`. -/
def toMother (m : ClockedExpander) (mother : LeftModule) (i : Int) : LeftModule :=
  { mother with
    producerMessage := fun k => if k = i then (m.inputs i).getVoltage else mother.producerMessage k }

/-- The local `motherPresent`; `modelClocked` is the model of Clocked (declared
outside `src/`). -/
def motherPresent (m : ClockedExpander) (modelClocked : Int) : Bool :=
  match m.leftModule with
  | some mother => decide (mother.model = modelClocked)
  | none => false

/-- `void process(const ProcessArgs &args)`; the constant
`expanderRefreshStepSkips` and the model `modelClocked` are declared outside
`src/` and are parameters. The counter is an `unsigned int`; the sum
`messagesFromMother[0] + 0.5f` is a single-precision operation and `(int)`
converts it. -/
def process (m : ClockedExpander) (expanderRefreshStepSkips : Nat) (modelClocked : Int) :
    ClockedExpander :=
  let m1 := { m with expanderRefreshCounter := (m.expanderRefreshCounter + 1) % 4294967296 }
  if m1.expanderRefreshCounter ≥ expanderRefreshStepSkips then
    let m2 := { m1 with expanderRefreshCounter := 0 }
    match m2.leftModule with
    | some mother =>
      if mother.model = modelClocked then
        let mother1 := forLoop 0 8 (toMother m2) mother
        let mother2 := { mother1 with messageFlipRequested := true }
        let m3 := { m2 with leftModule := some mother2 }
        let m4 := { m3 with
          panelTheme := clamp (cInt (f32 (m3.leftMessages m3.consumerMessage 0 + 1 / 2))) 0 1 }
        { m4 with panelContrast := clampF (m4.leftMessages m4.consumerMessage 1) 0 255 }
      else m2
    | none => m2
  else m1

/-- The call of `process` is a refresh tick: the incremented counter has reached
`expanderRefreshStepSkips`. -/
def refreshDue (m : ClockedExpander) (expanderRefreshStepSkips : Nat) : Bool :=
  decide ((m.expanderRefreshCounter + 1) % 4294967296 ≥ expanderRefreshStepSkips)

/-- An expander next to a Clocked (model 7), one call before its refresh tick
(every 4 calls), with theme 0.6 and contrast 300 in its inbox (row 1). -/
def linked : ClockedExpander where
  inputs := fun i => { connected := true, channels := 1, voltages := fun _ => (i : ℚ) }
  leftModule := some { model := 7, producerMessage := fun _ => 0, messageFlipRequested := false }
  leftMessages := fun row k => if row = 1 then (if k = 0 then 6 / 10 else 300) else 0
  producerMessage := 0
  consumerMessage := 1
  panelTheme := 0
  panelContrast := 220
  expanderRefreshCounter := 3

/-- The expander `linked` with the theme `theme` in its inbox. -/
def linkedTheme (theme : ℚ) : ClockedExpander :=
  { linked with leftMessages := fun row k => if row = 1 then (if k = 0 then theme else 300) else 0 }

/-- The `float` just below 0.5 (0.49999997). -/
def belowHalf : ℚ := 16777215 / 33554432

/-- The same expander next to a module of another model (8). -/
def unlinked : ClockedExpander :=
  { linked with
    leftModule := some { model := 8, producerMessage := fun _ => 0, messageFlipRequested := false } }

end ClockedExpander

/-! ## Frame predicate and sample inputs -/

namespace ChordKey

/-- The state `b` differs from `a` at most in the note arrays `octs` and `keys`. -/
structure NotesOnly (a b : ChordKey) : Prop where
  params : b.params = a.params
  inputs : b.inputs = a.inputs
  outputs : b.outputs = a.outputs
  lights : b.lights = a.lights
  panelTheme : b.panelTheme = a.panelTheme
  mergeOutputs : b.mergeOutputs = a.mergeOutputs
  keypressEmitGate : b.keypressEmitGate = a.keypressEmitGate
  autostepPaste : b.autostepPaste = a.autostepPaste
  noteLightCounter : b.noteLightCounter = a.noteLightCounter
  octsCP : b.octsCP = a.octsCP
  keysCP : b.keysCP = a.keysCP
  offWarning : b.offWarning = a.offWarning
  keyTrigger : b.keyTrigger = a.keyTrigger
  pkInfo : b.pkInfo = a.pkInfo
  offWarningChan : b.offWarningChan = a.offWarningChan

/-- The state of the module when `process` reaches the section "piano keys" of
a control tick: the sections "oct inc/dec" and "Transpose buttons" have run. -/
def beforeKeys (m : ChordKey) (t : Refresh) : ChordKey :=
  transposeButtons (octIncDec m t m.getIndex) t m.getIndex

/-- The part of the state that the computed gates and CVs of the output phase
read. -/
def gateView (m : ChordKey) :
    (Int → Int → Int) × (Int → Int → Int) × (Int → ℚ) × (Int → Input) × PianoKeyInfo × Int :=
  (m.octs, m.keys, m.params, m.inputs, m.pkInfo, m.keypressEmitGate)

/-- What the output phase must leave alone: the part of the state read by the
gates and CVs, and the channel count of every output port. -/
def portView (m : ChordKey) :
    ((Int → Int → Int) × (Int → Int → Int) × (Int → ℚ) × (Int → Input) × PianoKeyInfo × Int)
      × (Int → Int) :=
  (gateView m, fun p => (m.outputs p).channels)

/-- What the lights phase must leave alone: the part of the state read by the
gates and CVs, and the output ports. -/
def lightView (m : ChordKey) :
    ((Int → Int → Int) × (Int → Int → Int) × (Int → ℚ) × (Int → Input) × PianoKeyInfo × Int)
      × (Int → Output) :=
  (gateView m, m.outputs)

/-- The constructed module with `mergeOutputs = 1` and the force-gate switch on. -/
def forcedMerge1 : ChordKey :=
  { init false with
    mergeOutputs := 1
    params := fun i => if i = FORCE_PARAM then 1 else (init false).params i }

/-- Five incoming notes (pitches 0, 1/12, 2/12, 1 and -1 V). -/
def fiveNotes : List IoNote :=
  [{ start := 0, length := 1 / 2, pitch := 0, vel := -1, prob := -1 },
   { start := 0, length := 1 / 2, pitch := 1 / 12, vel := -1, prob := -1 },
   { start := 1, length := 1 / 2, pitch := 2 / 12, vel := -1, prob := -1 },
   { start := 1, length := 1 / 2, pitch := 1, vel := -1, prob := -1 },
   { start := 2, length := 1 / 2, pitch := -1, vel := -1, prob := -1 }]

/-- Two incoming notes (pitches 1/12 and -1 V). -/
def twoNotes : List IoNote :=
  [{ start := 0, length := 1 / 2, pitch := 1 / 12, vel := -1, prob := -1 },
   { start := 1, length := 1 / 2, pitch := -1, vel := -1, prob := -1 }]

/-- A refresh tick on which no button trigger fires (44.1 kHz host, light
refresh every 256 samples). -/
def quietTick : Refresh where
  processInputs := true
  processLights := false
  displayRefreshStepSkips := 256
  octInc := fun _ => false
  octDec := fun _ => false
  transposeUp := false
  transposeDown := false

/-- The constructed module with the key D (semitone 2) held by a left click at
the vertical position `vel` of the key. -/
def pressD (vel : ℚ) : ChordKey :=
  { init false with pkInfo := { gate := true, isRightClick := false, key := 2, vel := vel } }

/-! ### Specification predicates and operations -/

/-- The note number `setCV` computes for a voltage: `(int) std::round(cv * 12.0f)`. -/
def cvNote (cv : ℚ) : Int :=
  cInt (cRound (f32 (cv * 12)))

/-- The state `r` is the state `m` with the chord `index` transposed by `delta`:
every chord note that is not turned off went through `applyDelta` and is still
not turned off, every chord note that is turned off kept its octave and
semitone, and no other chord changed. -/
def TransposedBy (m r : ChordKey) (index delta : Int) : Prop :=
  (∀ p : Int, 0 ≤ p → p < 4 → 0 ≤ m.octs index p →
      r.octs index p = (m.applyDelta index p delta).octs index p ∧
      r.keys index p = (m.applyDelta index p delta).keys index p ∧
      0 ≤ r.octs index p) ∧
    (∀ p : Int, m.octs index p < 0 →
      r.octs index p = m.octs index p ∧ r.keys index p = m.keys index p) ∧
    (∀ ci cni : Int, ci ≠ index →
      r.octs ci cni = m.octs ci cni ∧ r.keys ci cni = m.keys ci cni)

/-- The body of the first loop of `emptyIoNotesChord` as a function of the note
it reads: `chordNote ioNotes index firstTime st i` is this step at the note
`(*ioNotes)[i]`. -/
def chordStep (index : Int) (firstTime : ℚ) (s : ChordKey × Int) (n : IoNote) :
    ChordKey × Int :=
  if n.start = firstTime then (s.1.setCV index s.2 n.pitch, s.2 + 1) else s

/-- The value a cell of `octs` or `keys` holds after its section of
`dataFromJson`: the element `cni + ci * 4` of the array, converted to `int`, when
the array has one, the old value otherwise. -/
def loadedValue (arrJ : Json) (ci cni old : Int) : Int :=
  match json_array_get arrJ (cni + ci * 4) with
  | some e => cInt (json_number_value e)
  | none => old

/-- The simultaneity group of the specification: the incoming notes whose start
time equals the start time of the first note. -/
def simultaneityGroup (ioNotes : List IoNote) : List IoNote :=
  match ioNotes with
  | [] => []
  | first :: rest => (first :: rest).filter (fun n => decide (n.start = first.start))

/-- The range invariant of the specification: every octave of the 25 chords and
of the clipboard is in [-1, 9] and every semitone is in [0, 11]. -/
def InRange (m : ChordKey) : Prop :=
  (∀ ci cni : Int, 0 ≤ ci → ci < 25 → 0 ≤ cni → cni < 4 →
      -1 ≤ m.octs ci cni ∧ m.octs ci cni ≤ 9 ∧ 0 ≤ m.keys ci cni ∧ m.keys ci cni ≤ 11) ∧
    (∀ cni : Int, 0 ≤ cni → cni < 4 →
      -1 ≤ m.octsCP cni ∧ m.octsCP cni ≤ 9 ∧ 0 ≤ m.keysCP cni ∧ m.keysCP cni ≤ 11)

/-- A step that keeps the range invariant: every note of `b` is the note of `a`
or is in range, and the clipboard is the same. -/
def RangeStep (a b : ChordKey) : Prop :=
  (∀ ci cni : Int, b.octs ci cni = a.octs ci cni ∨ (-1 ≤ b.octs ci cni ∧ b.octs ci cni ≤ 9)) ∧
    (∀ ci cni : Int, b.keys ci cni = a.keys ci cni ∨ (0 ≤ b.keys ci cni ∧ b.keys ci cni ≤ 11)) ∧
    b.octsCP = a.octsCP ∧ b.keysCP = a.keysCP

/-- The arrays the range invariant reads. -/
def noteView (m : ChordKey) :
    (Int → Int → Int) × (Int → Int → Int) × (Int → Int) × (Int → Int) :=
  (m.octs, m.keys, m.octsCP, m.keysCP)

/-- The runtime operations on the module: the host moving knobs and cables, a
call of `process` (octave buttons, transpose buttons, key press) with the state
of the piano keys, the menu transpose slider, a transposition by any number of
semitones, the two interop pastes, internal copy and paste, randomize and
reset. -/
inductive Op where
  | host (params : Int → ℚ) (inputs : Int → Input) : Op
  | tick (args : ProcessArgs) (t : Refresh) (pk : PianoKeyInfo) : Op
  | slider (q : TransposeQuantity) (value : ℚ) : Op
  | transpose (delta : Int) : Op
  | pasteSeq (pasted : Option (List IoNote)) : Op
  | pasteChord (pasted : Option (List IoNote)) : Op
  | copy : Op
  | paste : Op
  | randomize (rnd : Nat → Nat) : Op
  | reset : Op

/-- The piano keys hand over a key in 0..11. -/
def Op.Valid (op : Op) : Prop :=
  match op with
  | Op.tick _ _ pk => 0 ≤ pk.key ∧ pk.key ≤ 11
  | _ => True

/-- The effect of one operation. -/
def applyOp (m : ChordKey) (op : Op) : ChordKey :=
  match op with
  | Op.host params inputs => { m with params := params, inputs := inputs }
  | Op.tick args t pk => process { m with pkInfo := pk } args t
  | Op.slider q value => (q.setValue m value).2
  | Op.transpose delta => m.transposeNotes m.getIndex delta
  | Op.pasteSeq pasted => m.interopPasteSeq pasted
  | Op.pasteChord pasted => m.interopPasteChord pasted
  | Op.copy => m.copyChord
  | Op.paste => m.pasteChord
  | Op.randomize rnd => m.onRandomize rnd
  | Op.reset => m.onReset

/-- The state `b` differs from `a` at most in the notes of the chord `index`. -/
def SlotOnly (index : Int) (a b : ChordKey) : Prop :=
  NotesOnly a b ∧
    ∀ ci cni : Int, ci ≠ index → b.octs ci cni = a.octs ci cni ∧ b.keys ci cni = a.keys ci cni

/-- The positions of the active slot that are not turned off, in increasing
order. -/
def nonOffPositions (m : ChordKey) : List Int :=
  ([0, 1, 2, 3] : List Int).filter (fun i => decide (m.octs m.getIndex i ≥ 0))

/-- The note number of a chord note: twelve times the octave plus the semitone. -/
def noteNumber (m : ChordKey) (index cni : Int) : Int :=
  12 * m.octs index cni + m.keys index cni

/-- A run of the menu slider: `setValue` is called with each value in turn. -/
def slide (q : TransposeQuantity) (m : ChordKey) (values : List ℚ) : TransposeQuantity × ChordKey :=
  values.foldl (fun s value => s.1.setValue s.2 value) (q, m)

/-- The increments `delta = valueIntLocal - valueIntLocalLast` of a run of the
menu slider that starts with `valueIntLocalLast = last`. -/
def sliderDeltas (last : Int) (values : List ℚ) : List Int :=
  match values with
  | [] => []
  | value :: rest =>
    (cRound (clampF value (-60) 60) - last) :: sliderDeltas (cRound (clampF value (-60) 60)) rest

/-- Moving every chord note of the chord `index` that is not turned off by `d`
semitones keeps its note number within the ten octaves 0..119. -/
def StaysInRange (m : ChordKey) (index d : Int) : Prop :=
  ∀ cni : Int, 0 ≤ cni → cni < 4 → 0 ≤ m.octs index cni →
    0 ≤ noteNumber m index cni + d ∧ noteNumber m index cni + d ≤ 119

/-- The state `r` holds the notes of `m` with every chord note of the chord
`index` that is not turned off moved by `d` semitones: its octave and semitone
are the quotient and remainder by twelve of the note number plus `d`; the knobs
and cables are those of `m`. -/
def ShiftedBy (m r : ChordKey) (index d : Int) : Prop :=
  (∀ ci cni : Int, 0 ≤ cni → cni < 4 →
      r.octs ci cni = (if ci = index ∧ 0 ≤ m.octs index cni then
          (noteNumber m index cni + d) / 12 else m.octs ci cni) ∧
        r.keys ci cni = (if ci = index ∧ 0 ≤ m.octs index cni then
          (noteNumber m index cni + d) % 12 else m.keys ci cni)) ∧
    r.params = m.params ∧ r.inputs = m.inputs

/-- The values of the C type `int` (32 bits). -/
def IsInt32 (x : Int) : Prop := -2147483648 ≤ x ∧ x ≤ 2147483647

/-! ### More sample inputs -/

/-- Five incoming notes with start times 0, 1, 1, 1, 0: the fifth starts with
the first. -/
def unsortedNotes : List IoNote :=
  [{ start := 0, length := 1 / 2, pitch := 0, vel := -1, prob := -1 },
   { start := 1, length := 1 / 2, pitch := 1 / 12, vel := -1, prob := -1 },
   { start := 1, length := 1 / 2, pitch := 2 / 12, vel := -1, prob := -1 },
   { start := 1, length := 1 / 2, pitch := 3 / 12, vel := -1, prob := -1 },
   { start := 0, length := 1 / 2, pitch := 1, vel := -1, prob := -1 }]

/-- Four incoming notes with start times 0, 0, 1/2, 1/2. -/
def chordNotes : List IoNote :=
  [{ start := 0, length := 1 / 2, pitch := 0, vel := -1, prob := -1 },
   { start := 0, length := 1 / 2, pitch := 1, vel := -1, prob := -1 },
   { start := 1 / 2, length := 1 / 2, pitch := 2 / 12, vel := -1, prob := -1 },
   { start := 1 / 2, length := 1 / 2, pitch := 3 / 12, vel := -1, prob := -1 }]

/-- A document with an octave 42, a semitone -3 and a merge mode 7. -/
def outOfRangeDoc : Json :=
  Json.object [("octs", Json.array [Json.integer 42]),
    ("keys", Json.array [Json.integer (-3)]),
    ("mergeOutputs", Json.integer 7)]

/-- A document whose first octave is the number 1e10, outside the range of `int`. -/
def hugeDoc : Json :=
  Json.object [("octs", Json.array [Json.real 10000000000])]

/-- A document that holds only a merge mode and the first two octaves. -/
def partialDoc : Json :=
  Json.object [("mergeOutputs", Json.integer 2),
    ("octs", Json.array [Json.integer 5, Json.integer (-1)])]

/-- The constructed module with `autostepPaste` on and the index knob on the
last slot. -/
def lastSlotAutostep : ChordKey :=
  { init false with
    autostepPaste := 1
    params := fun i => if i = INDEX_PARAM then 24 else (init false).params i }

/-- A run of operations: a tick that presses B (11) while two octave buttons
fire, a transposition by 100 semitones, a copy, a randomize, a paste, an import
as chord and a reset. -/
def sampleOps : List Op :=
  [Op.tick { sampleRate := 44100 }
      { processInputs := true, processLights := true, displayRefreshStepSkips := 256,
        octInc := fun cni => decide (cni = 3), octDec := fun cni => decide (cni = 0),
        transposeUp := false, transposeDown := true }
      { gate := true, isRightClick := false, key := 11, vel := 0 },
    Op.transpose 100, Op.copy, Op.randomize (fun k => k), Op.paste,
    Op.pasteChord (some chordNotes), Op.reset]

/-- The constructed module with position 1 of the default slot turned off. -/
def gappedChord : ChordKey :=
  { init false with octs := set2 (init false).octs 0 1 (-1) }

/-- A run of the menu slider: 1.5, then -7, then 5.4. -/
def sliderRun : List ℚ := [3 / 2, -7, 27 / 5]

/-- The `float` nearest to 2.5/12 V (it lies below 2.5/12). -/
def halfSemitone : ℚ := 13981013 / 67108864

/-- The `float` nearest to -97/24 V (it lies above -97/24). -/
def aboveClamp : ℚ := -8475989 / 2097152

/-- The constructed module with the voltage `v` on the index input. -/
def withIndexInput (v : ℚ) : ChordKey :=
  { init false with
    inputs := fun i =>
      if i = INDEX_INPUT then { connected := true, channels := 1, voltages := fun _ => v }
      else (init false).inputs i }

/-- The constructed module with position 0 of the default slot at octave 9. -/
def topOctave : ChordKey :=
  { init false with octs := set2 (init false).octs 0 0 9 }

/-- A refresh tick on which both octave buttons of every position fire. -/
def bothTick : Refresh where
  processInputs := true
  processLights := false
  displayRefreshStepSkips := 256
  octInc := fun _ => true
  octDec := fun _ => true
  transposeUp := false
  transposeDown := false

/-- A refresh tick on which the transpose-up button fires. -/
def transposeUpTick : Refresh where
  processInputs := true
  processLights := false
  displayRefreshStepSkips := 256
  octInc := fun _ => false
  octDec := fun _ => false
  transposeUp := true
  transposeDown := false

/-- A refresh tick on which the octave-down button of position 0 and the
octave-up button of position 3 fire. -/
def octaveTick : Refresh where
  processInputs := true
  processLights := false
  displayRefreshStepSkips := 256
  octInc := fun cni => decide (cni = 3)
  octDec := fun cni => decide (cni = 0)
  transposeUp := false
  transposeDown := false

end ChordKey

/-! ## Lemmas on the helpers -/

theorem eucDiv_twelve (a : Int) : eucDiv a 12 = a / 12 :=
  Int.fdiv_eq_ediv a (by norm_num)

theorem eucMod_twelve (a : Int) : eucMod a 12 = a % 12 :=
  Int.fmod_eq_emod a (by norm_num)

theorem floor_div_twelve (n : Int) : ⌊(n : ℚ) / 12⌋ = n / 12 := by
  have h := Rat.floor_intCast_div_natCast n 12
  simpa using h

theorem cRound_of_nonneg {x : ℚ} (hx : 0 ≤ x) :
    x - 1 / 2 < (cRound x : ℚ) ∧ (cRound x : ℚ) ≤ x + 1 / 2 := by
  have h1 := Int.floor_le (x + 1 / 2)
  have h2 := Int.lt_floor_add_one (x + 1 / 2)
  simp only [cRound, if_pos hx]
  constructor <;> linarith

theorem cRound_of_neg {x : ℚ} (hx : x < 0) :
    x - 1 / 2 ≤ (cRound x : ℚ) ∧ (cRound x : ℚ) < x + 1 / 2 := by
  have h1 := Int.floor_le (-x + 1 / 2)
  have h2 := Int.lt_floor_add_one (-x + 1 / 2)
  have hx2 : ¬ (0 ≤ x) := not_le.mpr hx
  simp only [cRound, if_neg hx2, Int.cast_neg]
  constructor <;> linarith

theorem cRound_near (x : ℚ) :
    x - 1 / 2 ≤ (cRound x : ℚ) ∧ (cRound x : ℚ) ≤ x + 1 / 2 := by
  rcases le_or_lt 0 x with hx | hx
  · have h := cRound_of_nonneg hx
    exact ⟨le_of_lt h.1, h.2⟩
  · have h := cRound_of_neg hx
    exact ⟨h.1, le_of_lt h.2⟩

/-! ### Single precision -/

theorem roundEven_near (y : ℚ) :
    y - 1 / 2 ≤ (roundEven y : ℚ) ∧ (roundEven y : ℚ) ≤ y + 1 / 2 := by
  have h1 := Int.floor_le y
  have h2 := Int.lt_floor_add_one y
  unfold roundEven
  split_ifs with a b c
  · constructor <;> linarith
  · push_cast; constructor <;> linarith
  · push_neg at a b
    constructor <;> linarith
  · push_neg at a b
    push_cast
    constructor <;> linarith

theorem roundEven_intCast (n : Int) : roundEven (n : ℚ) = n := by
  unfold roundEven
  rw [Int.floor_intCast, sub_self, if_pos (by norm_num)]

theorem roundEven_le_of_le (y : ℚ) (n : Int) (h : y ≤ n) : roundEven y ≤ n := by
  have h1 := (roundEven_near y).2
  have h2 : (roundEven y : ℚ) < (n : ℚ) + 1 := by linarith
  have h3 : roundEven y < n + 1 := by exact_mod_cast h2
  omega

theorem le_roundEven_of_le (y : ℚ) (n : Int) (h : (n : ℚ) ≤ y) : n ≤ roundEven y := by
  have h1 := (roundEven_near y).1
  have h2 : (n : ℚ) - 1 < (roundEven y : ℚ) := by linarith
  have h3 : n - 1 < roundEven y := by exact_mod_cast h2
  omega

/-- A value at or above the midpoint below an even integer rounds to it or
higher. -/
theorem le_roundEven_of_tie (y : ℚ) (n : Int) (hn : n % 2 = 0) (h : (n : ℚ) - 1 / 2 ≤ y) :
    n ≤ roundEven y := by
  rcases lt_or_eq_of_le h with hlt | heq
  · have h1 := (roundEven_near y).1
    have h2 : (n : ℚ) - 1 < (roundEven y : ℚ) := by linarith
    have h3 : n - 1 < roundEven y := by exact_mod_cast h2
    omega
  · have hf : ⌊y⌋ = n - 1 := by
      rw [Int.floor_eq_iff]
      push_cast
      constructor <;> linarith
    unfold roundEven
    rw [hf]
    have e : y - ((n - 1 : Int) : ℚ) = 1 / 2 := by push_cast; linarith
    rw [e, if_neg (lt_irrefl _), if_neg (lt_irrefl _), if_neg (by omega)]
    omega

theorem roundEven_lt_of_lt (y : ℚ) (n : Int) (h : y < (n : ℚ) - 1 / 2) : roundEven y < n := by
  have h1 := (roundEven_near y).2
  have h2 : (roundEven y : ℚ) < (n : ℚ) := by linarith
  exact_mod_cast h2

theorem log_two_eq (x : ℚ) (e : Int) (h1 : (2 : ℚ) ^ e ≤ x) (h2 : x < (2 : ℚ) ^ (e + 1)) :
    Int.log 2 x = e := by
  have hx : 0 < x := lt_of_lt_of_le (by positivity) h1
  have a : e ≤ Int.log 2 x := (Int.zpow_le_iff_le_log (by decide) hx).mp (by exact_mod_cast h1)
  have b : Int.log 2 x < e + 1 := (Int.lt_zpow_iff_log_lt (by decide) hx).mp (by exact_mod_cast h2)
  omega

theorem f32_zero : f32 0 = 0 := by
  unfold f32
  rw [if_pos rfl]

theorem f32_of_binade (x : ℚ) (e : Int) (h1 : (2 : ℚ) ^ e ≤ |x|) (h2 : |x| < (2 : ℚ) ^ (e + 1))
    (he : -126 ≤ e) :
    f32 x = (roundEven (x / 2 ^ (e - 23)) : ℚ) * 2 ^ (e - 23) := by
  have hx : x ≠ 0 := by
    intro h
    rw [h, abs_zero] at h1
    exact absurd h1 (not_le.mpr (by positivity))
  unfold f32
  rw [if_neg hx, log_two_eq |x| e h1 h2, max_eq_left he]

theorem f32_of_subnormal (x : ℚ) (h : |x| < (2 : ℚ) ^ (-126 : Int)) :
    f32 x = (roundEven (x / 2 ^ (-149 : Int)) : ℚ) * 2 ^ (-149 : Int) := by
  by_cases hx : x = 0
  · subst hx
    rw [f32_zero, zero_div]
    have : roundEven 0 = 0 := by simpa using roundEven_intCast 0
    rw [this]; simp
  · have hpos : 0 < |x| := abs_pos.mpr hx
    have hl : Int.log 2 |x| < -126 :=
      (Int.lt_zpow_iff_log_lt (by decide) hpos).mp (by exact_mod_cast h)
    unfold f32
    rw [if_neg hx, max_eq_right (by omega)]
    norm_num

/-- The exponent of the spacing of the floats around `x`. -/
theorem f32_quantum (x : ℚ) (hx : x ≠ 0) :
    ∃ e : Int, -126 ≤ e ∧ f32 x = (roundEven (x / 2 ^ (e - 23)) : ℚ) * 2 ^ (e - 23) ∧
      |x| < (2 : ℚ) ^ (e + 1) ∧ ((2 : ℚ) ^ e ≤ |x| ∨ e = -126) := by
  have hpos : 0 < |x| := abs_pos.mpr hx
  refine ⟨max (Int.log 2 |x|) (-126), le_max_right _ _, ?_, ?_, ?_⟩
  · unfold f32
    rw [if_neg hx]
  · have h := Int.lt_zpow_succ_log_self (b := 2) (by decide) |x|
    have h2 : ((2 : ℕ) : ℚ) ^ (Int.log 2 |x| + 1) ≤ (2 : ℚ) ^ (max (Int.log 2 |x|) (-126) + 1) := by
      push_cast
      exact zpow_le_zpow_right₀ (by norm_num) (by omega)
    exact lt_of_lt_of_le h h2
  · rcases le_total (-126) (Int.log 2 |x|) with h | h
    · left
      rw [max_eq_left h]
      have := Int.zpow_log_le_self (b := 2) (by decide) hpos
      exact_mod_cast this
    · right
      exact max_eq_right h

theorem f32_error (x : ℚ) : |f32 x - x| ≤ |x| / 16777216 + 1 / 2 ^ 150 := by
  by_cases hx : x = 0
  · subst hx
    rw [f32_zero]
    norm_num
  · obtain ⟨e, he, hf, _, hlo⟩ := f32_quantum x hx
    have hq : (0 : ℚ) < 2 ^ (e - 23) := by positivity
    have hn := roundEven_near (x / 2 ^ (e - 23))
    have hxq : x / 2 ^ (e - 23) * 2 ^ (e - 23) = x := div_mul_cancel₀ x (ne_of_gt hq)
    have herr : |f32 x - x| ≤ 2 ^ (e - 23) / 2 := by
      rw [hf, abs_le]
      constructor <;> nlinarith [hn.1, hn.2]
    have hsplit : (2 : ℚ) ^ (e - 23) / 2 = 2 ^ e / 16777216 := by
      rw [zpow_sub₀ (by norm_num : (2 : ℚ) ≠ 0)]
      norm_num
      ring
    rw [hsplit] at herr
    rcases hlo with h | h
    · have : (2 : ℚ) ^ e / 16777216 ≤ |x| / 16777216 := by
        apply div_le_div_of_nonneg_right h (by norm_num)
      have : (0 : ℚ) ≤ 1 / 2 ^ 150 := by positivity
      linarith
    · subst h
      have h2 : (2 : ℚ) ^ (-126 : Int) / 16777216 = 1 / 2 ^ 150 := by norm_num
      rw [h2] at herr
      have : (0 : ℚ) ≤ |x| / 16777216 := by positivity
      linarith

theorem f32_nonneg (x : ℚ) (h : 0 ≤ x) : 0 ≤ f32 x := by
  by_cases hx : x = 0
  · rw [hx, f32_zero]
  · obtain ⟨e, _, hf, _, _⟩ := f32_quantum x hx
    rw [hf]
    have hq : (0 : ℚ) < 2 ^ (e - 23) := by positivity
    have h0 : (0 : Int) ≤ roundEven (x / 2 ^ (e - 23)) :=
      le_roundEven_of_le _ 0 (by push_cast; positivity)
    have h1 : (0 : ℚ) ≤ (roundEven (x / 2 ^ (e - 23)) : ℚ) := by exact_mod_cast h0
    positivity

theorem f32_nonpos (x : ℚ) (h : x ≤ 0) : f32 x ≤ 0 := by
  by_cases hx : x = 0
  · rw [hx, f32_zero]
  · obtain ⟨e, _, hf, _, _⟩ := f32_quantum x hx
    rw [hf]
    have hq : (0 : ℚ) < 2 ^ (e - 23) := by positivity
    have h0 : roundEven (x / 2 ^ (e - 23)) ≤ (0 : Int) :=
      roundEven_le_of_le _ 0 (by push_cast; exact div_nonpos_of_nonpos_of_nonneg h hq.le)
    have h1 : (roundEven (x / 2 ^ (e - 23)) : ℚ) ≤ 0 := by exact_mod_cast h0
    exact mul_nonpos_of_nonpos_of_nonneg h1 hq.le

theorem zpow_two_natCast_diff (a b : Int) (h : b ≤ a) :
    (2 : ℚ) ^ a / 2 ^ b = (((2 : Int) ^ (a - b).toNat : Int) : ℚ) := by
  rw [← zpow_sub₀ (by norm_num : (2 : ℚ) ≠ 0)]
  have e : a - b = (((a - b).toNat : Nat) : Int) := (Int.toNat_of_nonneg (by omega)).symm
  rw [e, zpow_natCast]
  push_cast
  rw [← e]

/-- Integers of magnitude below 2^24 are floats. -/
theorem f32_intCast (n : Int) (h : |n| < 16777216) : f32 (n : ℚ) = n := by
  by_cases hn : n = 0
  · subst hn
    simpa using f32_zero
  · have hx : (n : ℚ) ≠ 0 := by exact_mod_cast hn
    obtain ⟨e, he, hf, hup, hlo⟩ := f32_quantum (n : ℚ) hx
    have habs : (1 : ℚ) ≤ |(n : ℚ)| := by
      have : (1 : Int) ≤ |n| := Int.one_le_abs hn
      exact_mod_cast this
    have hlt : |(n : ℚ)| < 16777216 := by exact_mod_cast h
    have he0 : 0 ≤ e := by
      by_contra hneg
      have h1 : (2 : ℚ) ^ (e + 1) ≤ 2 ^ (0 : Int) :=
        zpow_le_zpow_right₀ (by norm_num) (by omega)
      rw [zpow_zero] at h1
      linarith
    have he23 : e ≤ 23 := by
      by_contra hbig
      rcases hlo with h2 | h2
      · have h1 : (2 : ℚ) ^ (24 : Int) ≤ 2 ^ e := zpow_le_zpow_right₀ (by norm_num) (by omega)
        norm_num at h1
        linarith
      · omega
    have hq : (0 : ℚ) < 2 ^ (e - 23) := by positivity
    have hdiv : (n : ℚ) / 2 ^ (e - 23) = ((n * (2 : Int) ^ (23 - e).toNat : Int) : ℚ) := by
      have h1 := zpow_two_natCast_diff 23 e he23
      have h2 : (2 : ℚ) ^ (e - 23) = 2 ^ e / 2 ^ (23 : Int) :=
        zpow_sub₀ (by norm_num : (2 : ℚ) ≠ 0) e 23
      have hpe : (0 : ℚ) < 2 ^ e := by positivity
      have hp23 : (0 : ℚ) < 2 ^ (23 : Int) := by positivity
      push_cast at h1 ⊢
      rw [← h1, h2]
      field_simp
    rw [hf, hdiv, roundEven_intCast, ← hdiv]
    exact div_mul_cancel₀ _ (ne_of_gt hq)

/-- Rounding to `float` does not cross a power of two from above. -/
theorem le_f32_of_pow_le (x : ℚ) (k : Int) (hk : -126 ≤ k) (h : (2 : ℚ) ^ k ≤ x) :
    (2 : ℚ) ^ k ≤ f32 x := by
  have hpk : (0 : ℚ) < 2 ^ k := by positivity
  have hxpos : 0 < x := lt_of_lt_of_le hpk h
  obtain ⟨e, he, hf, hup, hlo⟩ := f32_quantum x (ne_of_gt hxpos)
  rw [abs_of_pos hxpos] at hup hlo
  have hke : k ≤ e := by
    by_contra hlt
    have h1 : (2 : ℚ) ^ (e + 1) ≤ 2 ^ k := zpow_le_zpow_right₀ (by norm_num) (by omega)
    linarith
  have hex : (2 : ℚ) ^ e ≤ x := by
    rcases hlo with h2 | h2
    · exact h2
    · have : k = e := by omega
      subst this
      exact h
  have hq : (0 : ℚ) < 2 ^ (e - 23) := by positivity
  have hd := zpow_two_natCast_diff e (e - 23) (by omega)
  have hge : (((2 : Int) ^ (e - (e - 23)).toNat : Int) : ℚ) ≤ x / 2 ^ (e - 23) := by
    rw [← hd]
    exact div_le_div_of_nonneg_right hex hq.le
  have hr := le_roundEven_of_le _ _ hge
  have hr2 : (((2 : Int) ^ (e - (e - 23)).toNat : Int) : ℚ) ≤ (roundEven (x / 2 ^ (e - 23)) : ℚ) := by
    exact_mod_cast hr
  rw [← hd] at hr2
  rw [hf]
  have h3 : (2 : ℚ) ^ e ≤ (roundEven (x / 2 ^ (e - 23)) : ℚ) * 2 ^ (e - 23) := by
    have := mul_le_mul_of_nonneg_right hr2 hq.le
    rwa [div_mul_cancel₀ _ (ne_of_gt hq)] at this
  exact le_trans (zpow_le_zpow_right₀ (by norm_num) hke) h3

/-- Rounding to `float` does not cross a power of two from below. -/
theorem f32_le_of_le_pow (x : ℚ) (k : Int) (hk : -126 ≤ k) (h0 : 0 ≤ x) (h : x ≤ (2 : ℚ) ^ k) :
    f32 x ≤ (2 : ℚ) ^ k := by
  by_cases hx : x = 0
  · rw [hx, f32_zero]; positivity
  · have hxpos : 0 < x := lt_of_le_of_ne h0 (Ne.symm hx)
    obtain ⟨e, he, hf, hup, hlo⟩ := f32_quantum x hx
    rw [abs_of_pos hxpos] at hup hlo
    have hek : e ≤ k := by
      rcases hlo with h2 | h2
      · by_contra hlt
        have h1 : (2 : ℚ) ^ (k + 1) ≤ 2 ^ e := zpow_le_zpow_right₀ (by norm_num) (by omega)
        have h3 : (2 : ℚ) ^ k < 2 ^ (k + 1) := zpow_lt_zpow_right₀ (by norm_num) (by omega)
        linarith
      · omega
    have hq : (0 : ℚ) < 2 ^ (e - 23) := by positivity
    have hd := zpow_two_natCast_diff k (e - 23) (by omega)
    have hle : x / 2 ^ (e - 23) ≤ (((2 : Int) ^ (k - (e - 23)).toNat : Int) : ℚ) := by
      rw [← hd]
      exact div_le_div_of_nonneg_right h hq.le
    have hr := roundEven_le_of_le _ _ hle
    have hr2 : (roundEven (x / 2 ^ (e - 23)) : ℚ) ≤ (((2 : Int) ^ (k - (e - 23)).toNat : Int) : ℚ) := by
      exact_mod_cast hr
    rw [← hd] at hr2
    rw [hf]
    have := mul_le_mul_of_nonneg_right hr2 hq.le
    rwa [div_mul_cancel₀ _ (ne_of_gt hq)] at this

theorem cTrunc_intCast (n : Int) : cTrunc (n : ℚ) = n := by
  unfold cTrunc
  by_cases h : (0 : ℚ) ≤ (n : ℚ)
  · rw [if_pos h, Int.floor_intCast]
  · rw [if_neg h]
    have h1 : ⌊-(n : ℚ)⌋ = -n := by
      rw [← Int.cast_neg, Int.floor_intCast]
    rw [h1, neg_neg]

theorem cRound_intCast (n : Int) : cRound (n : ℚ) = n := by
  unfold cRound
  by_cases h : (0 : ℚ) ≤ (n : ℚ)
  · rw [if_pos h]
    have h1 : ⌊(n : ℚ) + 1 / 2⌋ = n := by
      rw [Int.floor_eq_iff]
      constructor <;> linarith
    exact h1
  · rw [if_neg h]
    have h1 : ⌊-(n : ℚ) + 1 / 2⌋ = -n := by
      rw [Int.floor_eq_iff]
      push_cast
      constructor <;> linarith
    rw [h1]; ring

theorem cInt_intCast (n : Int) (h1 : -2147483648 ≤ n) (h2 : n ≤ 2147483647) :
    cInt (n : ℚ) = n := by
  unfold cInt
  rw [cTrunc_intCast, if_pos ⟨h1, h2⟩]

theorem cInt_bounds (x : ℚ) : -2147483648 ≤ cInt x ∧ cInt x ≤ 2147483647 := by
  unfold cInt
  split_ifs with h
  · exact h
  · decide

theorem cTrunc_near (x : ℚ) : |(cTrunc x : ℚ) - x| < 1 ∧ (0 ≤ x → 0 ≤ cTrunc x) ∧
    (x ≤ 0 → cTrunc x ≤ 0) := by
  unfold cTrunc
  split_ifs with h
  · have h1 := Int.floor_le x
    have h2 := Int.lt_floor_add_one x
    refine ⟨abs_lt.mpr ⟨by linarith, by linarith⟩, fun _ => Int.floor_nonneg.mpr h, fun h3 => ?_⟩
    have : x = 0 := le_antisymm h3 h
    rw [this]; simp
  · have h1 := Int.floor_le (-x)
    have h2 := Int.lt_floor_add_one (-x)
    push_neg at h
    have h3 : 0 ≤ ⌊-x⌋ := Int.floor_nonneg.mpr (by linarith)
    refine ⟨abs_lt.mpr ⟨by push_cast; linarith, by push_cast; linarith⟩, fun h4 => by linarith,
      fun _ => by omega⟩

theorem cRound_eq_of_mem (y : ℚ) (n : Int) (h1 : (n : ℚ) - 1 / 2 < y) (h2 : y < (n : ℚ) + 1 / 2) :
    cRound y = n := by
  have h := cRound_near y
  have a : (n : ℚ) - 1 < (cRound y : ℚ) := by linarith [h.1]
  have b : (cRound y : ℚ) < (n : ℚ) + 1 := by linarith [h.2]
  have a2 : n - 1 < cRound y := by exact_mod_cast a
  have b2 : cRound y < n + 1 := by exact_mod_cast b
  omega

/-- Two values closer to each other than either is to a half-integer round to
the same integer. -/
theorem cRound_eq_of_close (x y d : ℚ) (hxy : |y - x| ≤ d)
    (hfar : ∀ n : Int, d < |x - ((n : ℚ) + 1 / 2)|) : cRound y = cRound x := by
  have h := cRound_near x
  have hd : 0 ≤ d := le_trans (abs_nonneg _) hxy
  have f1 := hfar (cRound x)
  have f2 := hfar (cRound x - 1)
  push_cast at f2
  have hy := abs_le.mp hxy
  have g1 : x - ((cRound x : ℚ) + 1 / 2) ≤ 0 := by linarith [h.1]
  have g2 : 0 ≤ x - ((cRound x : ℚ) - 1 + 1 / 2) := by linarith [h.2]
  rw [abs_of_nonpos g1] at f1
  rw [abs_of_nonneg g2] at f2
  exact cRound_eq_of_mem y (cRound x) (by linarith) (by linarith)

/-- The value of `clamp((int)(x), 0, 1)` when `x` is the single-precision sum
`theme + 0.5f`. -/
theorem clamp_cInt_f32 (x : ℚ) :
    clamp (cInt (f32 x)) 0 1
      = if 1 - 1 / 33554432 ≤ x ∧ x < 2147483584 then 1 else 0 := by
  have hclamp0 : ∀ t : Int, t ≤ 0 → clamp t 0 1 = 0 := by
    intro t ht; unfold clamp; omega
  have hclamp1 : ∀ t : Int, 1 ≤ t → clamp t 0 1 = 1 := by
    intro t ht; unfold clamp; omega
  have hcast0 : ∀ y : ℚ, y < 1 → clamp (cInt y) 0 1 = 0 := by
    intro y hy
    apply hclamp0
    unfold cInt
    split_ifs with hr
    · have ht := cTrunc_near y
      rcases le_or_lt 0 y with h0 | h0
      · have a : (cTrunc y : ℚ) < 1 + 1 := by linarith [(abs_lt.mp ht.1).2]
        have : cTrunc y < 2 := by exact_mod_cast a
        have b := ht.2.1 h0
        -- cTrunc y is 0 or 1; it is ≤ y < 1
        have c : (cTrunc y : ℚ) ≤ y := by
          unfold cTrunc; rw [if_pos h0]; exact Int.floor_le y
        have d : (cTrunc y : ℚ) < 1 := by linarith
        have : cTrunc y < 1 := by exact_mod_cast d
        omega
      · exact ht.2.2 h0.le
    · decide
  by_cases hx : 1 - 1 / 33554432 ≤ x ∧ x < 2147483584
  · rw [if_pos hx]
    obtain ⟨h1, h2⟩ := hx
    -- f32 x is at least 1 and below 2^31
    have hlow : (1 : ℚ) ≤ f32 x := by
      rcases lt_or_le x 1 with hlt | hge
      · have hb := f32_of_binade x (-1) (by rw [abs_of_pos (by linarith)]; norm_num; linarith)
          (by rw [abs_of_pos (by linarith)]; norm_num; linarith) (by decide)
        have hr := le_roundEven_of_tie (x / 2 ^ ((-1 : Int) - 23)) 16777216 (by decide)
          (by norm_num; linarith)
        have hr2 : ((16777216 : Int) : ℚ) ≤ (roundEven (x / 2 ^ ((-1 : Int) - 23)) : ℚ) := by
          exact_mod_cast hr
        rw [hb]
        have hq : (0 : ℚ) < 2 ^ ((-1 : Int) - 23) := by positivity
        have := mul_le_mul_of_nonneg_right hr2 hq.le
        norm_num at this ⊢
        linarith
      · have := le_f32_of_pow_le x 0 (by decide) (by simpa using hge)
        simpa using this
    have hhigh : f32 x < 2147483648 := by
      rcases lt_or_le x 1073741824 with hlt | hge
      · have := f32_le_of_le_pow x 30 (by decide) (by linarith) (by norm_num; linarith)
        norm_num at this
        linarith
      · have hb := f32_of_binade x 30 (by rw [abs_of_pos (by linarith)]; norm_num; linarith)
          (by rw [abs_of_pos (by linarith)]; norm_num; linarith) (by decide)
        have hr := roundEven_lt_of_lt (x / 2 ^ ((30 : Int) - 23)) 16777216
          (by norm_num; linarith)
        have hr1 : roundEven (x / 2 ^ ((30 : Int) - 23)) ≤ 16777215 := by omega
        have hr2 : (roundEven (x / 2 ^ ((30 : Int) - 23)) : ℚ) ≤ ((16777215 : Int) : ℚ) := by
          exact_mod_cast hr1
        rw [hb]
        have hq : (0 : ℚ) < 2 ^ ((30 : Int) - 23) := by positivity
        have := mul_le_mul_of_nonneg_right hr2 hq.le
        norm_num at this ⊢
        linarith
    apply hclamp1
    have ht := cTrunc_near (f32 x)
    have hfl : (cTrunc (f32 x) : ℚ) ≤ f32 x := by
      unfold cTrunc; rw [if_pos (by linarith)]; exact Int.floor_le _
    have hfl1 : 1 ≤ cTrunc (f32 x) := by
      unfold cTrunc; rw [if_pos (by linarith)]; exact Int.le_floor.mpr (by simpa using hlow)
    have hup : cTrunc (f32 x) ≤ 2147483647 := by
      have : (cTrunc (f32 x) : ℚ) < 2147483648 := by linarith
      have : cTrunc (f32 x) < 2147483648 := by exact_mod_cast this
      omega
    unfold cInt
    rw [if_pos ⟨by omega, hup⟩]
    exact hfl1
  · rw [if_neg hx]
    rcases lt_or_le x (1 - 1 / 33554432) with hlt | hge
    · -- f32 x < 1
      apply hcast0
      rcases le_or_lt x 0 with hneg | hpos
      · linarith [f32_nonpos x hneg]
      · rcases lt_or_le x (1 / 2) with hs | hs
        · have := f32_le_of_le_pow x (-1) (by decide) hpos.le (by norm_num; linarith)
          norm_num at this
          linarith
        · have hb := f32_of_binade x (-1) (by rw [abs_of_pos hpos]; norm_num; linarith)
            (by rw [abs_of_pos hpos]; norm_num; linarith) (by decide)
          have hr := roundEven_lt_of_lt (x / 2 ^ ((-1 : Int) - 23)) 16777216
            (by norm_num; linarith)
          have hr1 : roundEven (x / 2 ^ ((-1 : Int) - 23)) ≤ 16777215 := by omega
          have hr2 : (roundEven (x / 2 ^ ((-1 : Int) - 23)) : ℚ) ≤ ((16777215 : Int) : ℚ) := by
            exact_mod_cast hr1
          rw [hb]
          have hq : (0 : ℚ) < 2 ^ ((-1 : Int) - 23) := by positivity
          have := mul_le_mul_of_nonneg_right hr2 hq.le
          norm_num at this ⊢
          linarith
    · have hbig : 2147483584 ≤ x := by
        by_contra hc
        exact hx ⟨hge, not_le.mp hc⟩
      -- f32 x ≥ 2^31: the conversion gives INT_MIN
      have hfx : (2147483648 : ℚ) ≤ f32 x := by
        rcases lt_or_le x 2147483648 with hlt | hge2
        · have hb := f32_of_binade x 30 (by rw [abs_of_pos (by linarith)]; norm_num; linarith)
            (by rw [abs_of_pos (by linarith)]; norm_num; linarith) (by decide)
          have hr := le_roundEven_of_tie (x / 2 ^ ((30 : Int) - 23)) 16777216 (by decide)
            (by norm_num; linarith)
          have hr2 : ((16777216 : Int) : ℚ) ≤ (roundEven (x / 2 ^ ((30 : Int) - 23)) : ℚ) := by
            exact_mod_cast hr
          rw [hb]
          have hq : (0 : ℚ) < 2 ^ ((30 : Int) - 23) := by positivity
          have := mul_le_mul_of_nonneg_right hr2 hq.le
          norm_num at this ⊢
          linarith
        · have := le_f32_of_pow_le x 31 (by decide) (by norm_num; linarith)
          norm_num at this
          linarith
      apply hclamp0
      have hfl : (2147483648 : Int) ≤ cTrunc (f32 x) := by
        unfold cTrunc; rw [if_pos (by linarith)]
        exact Int.le_floor.mpr (by simpa using hfx)
      unfold cInt
      rw [if_neg (by omega)]
      decide

/-! ### Clamping and arrays -/

theorem clamp_bounds (x a b : Int) (hab : a ≤ b) : a ≤ clamp x a b ∧ clamp x a b ≤ b := by
  unfold clamp
  constructor
  · exact le_max_right _ _
  · exact max_le (min_le_right _ _) hab

theorem clamp_of_mem {x a b : Int} (h1 : a ≤ x) (h2 : x ≤ b) : clamp x a b = x := by
  unfold clamp
  rw [min_eq_left h2, max_eq_left h1]

theorem set2_same (a : Int → Int → Int) (i j v : Int) : set2 a i j v i j = v := by
  simp [set2]

theorem set2_other (a : Int → Int → Int) (i j v i2 j2 : Int) (h : ¬ (i2 = i ∧ j2 = j)) :
    set2 a i j v i2 j2 = a i2 j2 := by
  simp only [set2, if_neg h]

/-! ## Voltage encoding -/

theorem cInt_cRound_of_abs_le (y : ℚ) (h : |y| ≤ 2147483647) : cInt (cRound y) = cRound y := by
  have hn := cRound_near y
  have ha := abs_le.mp h
  have a : (-2147483649 : ℚ) < (cRound y : ℚ) := by linarith [hn.1]
  have b : (cRound y : ℚ) < 2147483648 := by linarith [hn.2]
  have a2 : (-2147483649 : Int) < cRound y := by exact_mod_cast a
  have b2 : cRound y < (2147483648 : Int) := by exact_mod_cast b
  exact cInt_intCast _ (by omega) (by omega)

/-- The single-precision product `x` of a voltage by 12 and its error, for
voltages of magnitude at most 1000 V. -/
theorem f32_error_small (x : ℚ) (h : |x| ≤ 25000) :
    |f32 x - x| ≤ 3 / 2000 ∧ |f32 x| ≤ 25001 := by
  have he := f32_error x
  have h1 : |x| / 16777216 + 1 / 2 ^ 150 ≤ 3 / 2000 := by
    have : |x| / 16777216 ≤ 25000 / 16777216 := div_le_div_of_nonneg_right h (by norm_num)
    have t : (1 : ℚ) / 2 ^ 150 ≤ 1 / 1000000 := by
      apply one_div_le_one_div_of_le (by norm_num)
      calc (1000000 : ℚ) ≤ 2 ^ 20 := by norm_num
        _ ≤ 2 ^ 150 := pow_le_pow_right₀ (by norm_num) (by norm_num)
    norm_num at this ⊢
    linarith
  have h2 : |f32 x - x| ≤ 3 / 2000 := le_trans he h1
  refine ⟨h2, ?_⟩
  have := abs_le.mp h2
  have hx := abs_le.mp h
  rw [abs_le]
  constructor <;> linarith

namespace ChordKey

theorem setCV_octs (m : ChordKey) (index cni : Int) (cv : ℚ) :
    (m.setCV index cni cv).octs index cni = clamp (cvNote cv / 12 + 4) 0 9 := by
  simp [setCV, set2, eucDiv_twelve, cvNote]

theorem setCV_keys (m : ChordKey) (index cni : Int) (cv : ℚ) :
    (m.setCV index cni cv).keys index cni = cvNote cv % 12 := by
  simp [setCV, set2, eucMod_twelve, cvNote]

/-- The note number of a voltage of magnitude at most 1000 V is the rounded
single-precision product. -/
theorem cvNote_eq (cv : ℚ) (h : |cv| ≤ 1000) : cvNote cv = cRound (f32 (cv * 12)) := by
  have hx : |cv * 12| ≤ 25000 := by
    rw [abs_mul]
    have : |(12 : ℚ)| = 12 := abs_of_pos (by norm_num)
    rw [this]
    linarith
  have hb := (f32_error_small (cv * 12) hx).2
  unfold cvNote
  exact cInt_cRound_of_abs_le _ (by linarith)

/-- The note number of an integer number of semitones. -/
theorem cvNote_of_int (cv : ℚ) (n : Int) (h : cv * 12 = (n : ℚ)) (hn : |n| < 16777216) :
    cvNote cv = n := by
  unfold cvNote
  rw [h, f32_intCast n hn, cRound_intCast]
  have := abs_lt.mp hn
  exact cInt_intCast n (by omega) (by omega)

end ChordKey

namespace ChordKey

theorem calcCV_setCV_inRange (m : ChordKey) (index cni : Int) (cv : ℚ)
    (h1 : -48 ≤ cvNote cv) (h2 : cvNote cv ≤ 71) :
    (m.setCV index cni cv).calcCV index cni = (cvNote cv : ℚ) / 12 := by
  have ho := setCV_octs m index cni cv
  have hk := setCV_keys m index cni cv
  have hc : clamp (cvNote cv / 12 + 4) 0 9 = cvNote cv / 12 + 4 :=
    clamp_of_mem (by omega) (by omega)
  have hpos : (m.setCV index cni cv).octs index cni ≥ 0 := by
    rw [ho, hc]; omega
  have hsplit : ((cvNote cv % 12 : Int) : ℚ) + 12 * ((cvNote cv / 12 : Int) : ℚ)
      = (cvNote cv : ℚ) := by
    exact_mod_cast Int.emod_add_ediv (cvNote cv) 12
  unfold calcCV
  rw [if_pos hpos, ho, hk, hc]
  push_cast
  linarith

theorem calcCV_setCV_below (m : ChordKey) (index cni : Int) (cv : ℚ)
    (h1 : -60 ≤ cvNote cv) (h2 : cvNote cv ≤ -49) :
    (m.setCV index cni cv).calcCV index cni = (cvNote cv : ℚ) / 12 + 1 := by
  have ho := setCV_octs m index cni cv
  have hk := setCV_keys m index cni cv
  have hc : clamp (cvNote cv / 12 + 4) 0 9 = 0 := by
    unfold clamp
    have : cvNote cv / 12 + 4 = -1 := by omega
    rw [this]; decide
  have hpos : (m.setCV index cni cv).octs index cni ≥ 0 := by
    rw [ho, hc]
  have hmod : cvNote cv % 12 = cvNote cv + 60 := by omega
  unfold calcCV
  rw [if_pos hpos, ho, hk, hc, hmod]
  push_cast
  linarith

/-- The single-precision product of a voltage at or below -97/24 V by 12 is at
most -48.5. -/
theorem f32_mul_twelve_le (v : ℚ) (hlo : -5 ≤ v) (h : v ≤ -97 / 24) :
    f32 (v * 12) ≤ -97 / 2 := by
  have hneg : v * 12 < 0 := by linarith
  have hb := f32_of_binade (v * 12) 5 (by rw [abs_of_neg hneg]; norm_num; linarith)
    (by rw [abs_of_neg hneg]; norm_num; linarith) (by decide)
  have hr := roundEven_le_of_le (v * 12 / 2 ^ ((5 : Int) - 23)) (-12713984)
    (by norm_num; linarith)
  have hr2 : (roundEven (v * 12 / 2 ^ ((5 : Int) - 23)) : ℚ) ≤ ((-12713984 : Int) : ℚ) := by
    exact_mod_cast hr
  rw [hb]
  have hq : (0 : ℚ) < 2 ^ ((5 : Int) - 23) := by positivity
  have := mul_le_mul_of_nonneg_right hr2 hq.le
  norm_num at this ⊢
  linarith

/-- C1 (as amended). For every control voltage `v` with `-5 ≤ v ≤ 5`, writing `v`
with `setCV` and reading it back with `calcCV` gives a voltage within 1/12 V of
`v` exactly when the single-precision product `v * 12.0f` is above -48.5, that
is when `v` rounds to a note of octave 0 or above; in particular the round trip
holds on `-4 ≤ v ≤ 5`, and fails on `-5 ≤ v ≤ -97/24`, where `setCV` clamps the
octave to 0. -/
theorem calcCV_setCV_roundTrip (m : ChordKey) (index cni : Int) (v : ℚ)
    (hlo : -5 ≤ v) (hhi : v ≤ 5) :
    (|(m.setCV index cni v).calcCV index cni - v| ≤ 1 / 12 ↔ -97 / 2 < f32 (v * 12)) ∧
      (-4 ≤ v → |(m.setCV index cni v).calcCV index cni - v| ≤ 1 / 12) ∧
      (v ≤ -97 / 24 → ¬ |(m.setCV index cni v).calcCV index cni - v| ≤ 1 / 12) := by
  have hx : |v * 12| ≤ 25000 := by
    rw [abs_le]; constructor <;> linarith
  have herr := abs_le.mp (f32_error_small (v * 12) hx).1
  have hnote : cvNote v = cRound (f32 (v * 12)) :=
    cvNote_eq v (by rw [abs_le]; constructor <;> linarith)
  have hnear := cRound_near (f32 (v * 12))
  have hup : cvNote v ≤ 60 := by
    rw [hnote]
    have : (cRound (f32 (v * 12)) : ℚ) < 61 := by linarith [hnear.2]
    exact_mod_cast Int.lt_add_one_iff.mp (by exact_mod_cast this)
  have hdown : -60 ≤ cvNote v := by
    rw [hnote]
    have : (-61 : ℚ) < (cRound (f32 (v * 12)) : ℚ) := by linarith [hnear.1]
    have h2 : (-61 : Int) < cRound (f32 (v * 12)) := by exact_mod_cast this
    omega
  have hiff : |(m.setCV index cni v).calcCV index cni - v| ≤ 1 / 12 ↔ -97 / 2 < f32 (v * 12) := by
    constructor
    · intro habs
      by_contra hv
      have hv2 : f32 (v * 12) ≤ -97 / 2 := not_lt.mp hv
      have hneg : f32 (v * 12) < 0 := by linarith
      have hr := cRound_of_neg hneg
      have hlt : (cRound (f32 (v * 12)) : ℚ) < -48 := by linarith [hr.2]
      have hle : cvNote v ≤ -49 := by
        rw [hnote]
        have h2 : cRound (f32 (v * 12)) < (-48 : Int) := by exact_mod_cast hlt
        omega
      rw [calcCV_setCV_below m index cni v hdown hle, hnote] at habs
      have := (abs_le.mp habs).2
      linarith [hnear.1]
    · intro hv
      have hge : -48 ≤ cvNote v := by
        rw [hnote]
        have : (-49 : ℚ) < (cRound (f32 (v * 12)) : ℚ) := by linarith [hnear.1]
        have h2 : (-49 : Int) < cRound (f32 (v * 12)) := by exact_mod_cast this
        omega
      rw [calcCV_setCV_inRange m index cni v hge (by omega), hnote]
      rw [abs_le]
      constructor <;> linarith [hnear.1, hnear.2]
  refine ⟨hiff, fun h4 => hiff.mpr (by linarith), fun hv habs => ?_⟩
  have := hiff.mp habs
  linarith [f32_mul_twelve_le v hlo hv]

theorem f32_aboveClamp : f32 (aboveClamp * 12) = -97 / 2 := by
  have hb := f32_of_binade (aboveClamp * 12) 5 (by norm_num [aboveClamp, abs_of_neg])
    (by norm_num [aboveClamp, abs_of_neg]) (by decide)
  rw [hb]
  norm_num [aboveClamp, roundEven]

/-- Witness of C1 (as amended): the round trip holds at `v = -4`; at the `float`
next above -97/24 V the product rounds to -48.5, the note is -49 and the round
trip fails. -/
theorem calcCV_setCV_roundTrip_witness :
    ((-5 : ℚ) ≤ -4 ∧ (-4 : ℚ) ≤ 5 ∧
        |((init false).setCV 0 0 (-4)).calcCV 0 0 - (-4)| ≤ 1 / 12) ∧
      (-5 ≤ aboveClamp ∧ aboveClamp ≤ 5 ∧ -97 / 24 < aboveClamp ∧
        ¬ |((init false).setCV 0 0 aboveClamp).calcCV 0 0 - aboveClamp| ≤ 1 / 12) := by
  have a := calcCV_setCV_roundTrip (init false) 0 0 (-4) (by norm_num) (by norm_num)
  have b := calcCV_setCV_roundTrip (init false) 0 0 aboveClamp (by norm_num [aboveClamp])
    (by norm_num [aboveClamp])
  refine ⟨⟨by norm_num, by norm_num, a.2.1 (le_refl _)⟩,
    ⟨by norm_num [aboveClamp], by norm_num [aboveClamp], by norm_num [aboveClamp], ?_⟩⟩
  intro h
  have := b.1.mp h
  rw [f32_aboveClamp] at this
  exact lt_irrefl _ this

/-- Counterexample to C1 as stated: `v = -5` lies in `-5 ≤ v ≤ 5`, `setCV` stores
octave 0 / semitone 0 for it, `calcCV` reads back `-4` V, one volt away. -/
theorem calcCV_setCV_minus_five :
    (-5 : ℚ) ≤ -5 ∧ (-5 : ℚ) ≤ 5 ∧
      ((init false).setCV 0 0 (-5)).octs 0 0 = 0 ∧
      ((init false).setCV 0 0 (-5)).keys 0 0 = 0 ∧
      ((init false).setCV 0 0 (-5)).calcCV 0 0 = -4 ∧
      ¬ (|((init false).setCV 0 0 (-5)).calcCV 0 0 - (-5)| ≤ 1 / 12) := by
  have hn : cvNote (-5) = -60 := cvNote_of_int (-5) (-60) (by norm_num) (by decide)
  have ho : ((init false).setCV 0 0 (-5)).octs 0 0 = 0 := by
    rw [setCV_octs, hn]; decide
  have hk : ((init false).setCV 0 0 (-5)).keys 0 0 = 0 := by
    rw [setCV_keys, hn]; decide
  have hc : ((init false).setCV 0 0 (-5)).calcCV 0 0 = -4 := by
    rw [calcCV_setCV_below _ 0 0 (-5) (le_of_eq hn.symm) (le_trans (le_of_eq hn) (by decide)), hn]
    norm_num
  refine ⟨by norm_num, by norm_num, ho, hk, hc, ?_⟩
  rw [hc]
  norm_num

end ChordKey

theorem far_from_half_of_int (k n : Int) (d : ℚ) (hd : d ≤ 1 / 2) :
    d ≤ |(k : ℚ) - ((n : ℚ) + 1 / 2)| := by
  rcases le_or_lt k n with h | h
  · have : (k : ℚ) ≤ (n : ℚ) := by exact_mod_cast h
    rw [abs_of_nonpos (by linarith)]
    linarith
  · have h1 : n + 1 ≤ k := h
    have : (n : ℚ) + 1 ≤ (k : ℚ) := by exact_mod_cast h1
    rw [abs_of_nonneg (by linarith)]
    linarith

theorem clamp_cRound_eq_round (x : ℚ) : clamp (cRound x) 0 24 = clamp (round x) 0 24 := by
  rcases le_or_lt 0 x with hx | hx
  · simp only [cRound, if_pos hx, round_eq]
  · have hx2 : ¬ (0 ≤ x) := not_le.mpr hx
    have hc : cRound x ≤ 0 := by
      simp only [cRound, if_neg hx2]
      have : 0 ≤ ⌊-x + 1 / 2⌋ := Int.floor_nonneg.mpr (by linarith)
      omega
    have hr : round x ≤ 0 := by
      rw [round_eq]
      have h2 : ⌊x + 1 / 2⌋ < 1 := Int.floor_lt.mpr (by push_cast; linarith)
      omega
    simp only [clamp]
    rw [min_eq_left (by omega), min_eq_left (by omega), max_eq_right hc, max_eq_right hr]

namespace ChordKey

/-- C2 (as amended). For every control voltage `cv`, negative ones included,
`setCV` stores octave `clamp(floorDiv(note,12) + 4, 0, 9)` and semitone
`floorMod(note,12)` (floor division written with the rational floor), where
`note = (int) std::round(cv * 12.0f)` is computed in single precision; hence the
stored semitone is in 0..11, the stored octave is in 0..9, and the position is
never OFF (-1). The note is `round(cv*12)` whenever `|cv| ≤ 1000` V and `cv*12`
is at least 1/500 away from every half-integer. -/
theorem setCV_stores (m : ChordKey) (index cni : Int) (cv : ℚ) :
    cvNote cv = cInt (cRound (f32 (cv * 12))) ∧
      (m.setCV index cni cv).octs index cni = clamp (⌊(cvNote cv : ℚ) / 12⌋ + 4) 0 9 ∧
      (m.setCV index cni cv).keys index cni = cvNote cv - 12 * ⌊(cvNote cv : ℚ) / 12⌋ ∧
      0 ≤ (m.setCV index cni cv).keys index cni ∧
      (m.setCV index cni cv).keys index cni ≤ 11 ∧
      0 ≤ (m.setCV index cni cv).octs index cni ∧
      (m.setCV index cni cv).octs index cni ≤ 9 ∧
      (m.setCV index cni cv).octs index cni ≠ -1 ∧
      (|cv| ≤ 1000 → (∀ n : Int, 1 / 500 ≤ |cv * 12 - ((n : ℚ) + 1 / 2)|) →
        cvNote cv = cRound (cv * 12)) := by
  have hb := clamp_bounds (cvNote cv / 12 + 4) 0 9 (by decide)
  rw [setCV_octs, setCV_keys, floor_div_twelve]
  refine ⟨rfl, rfl, by omega, by omega, by omega, hb.1, hb.2, by omega, fun hcv hfar => ?_⟩
  have hx : |cv * 12| ≤ 25000 := by
    rw [abs_mul]
    have : |(12 : ℚ)| = 12 := abs_of_pos (by norm_num)
    rw [this]
    linarith
  rw [cvNote_eq cv hcv]
  exact cRound_eq_of_close (cv * 12) (f32 (cv * 12)) (3 / 2000) (f32_error_small _ hx).1
    (fun n => lt_of_lt_of_le (by norm_num) (hfar n))

theorem f32_halfSemitone : f32 (halfSemitone * 12) = 5 / 2 := by
  have hb := f32_of_binade (halfSemitone * 12) 1 (by norm_num [halfSemitone, abs_of_pos])
    (by norm_num [halfSemitone, abs_of_pos]) (by decide)
  rw [hb]
  norm_num [halfSemitone, roundEven]

theorem cvNote_halfSemitone : cvNote halfSemitone = 3 := by
  unfold cvNote
  rw [f32_halfSemitone]
  have h : cRound (5 / 2 : ℚ) = 3 := by norm_num [cRound]
  rw [h]
  exact cInt_intCast 3 (by decide) (by decide)

theorem cRound_halfSemitone : cRound (halfSemitone * 12) = 2 := by
  norm_num [halfSemitone, cRound]

/-- Counterexample to C2 as stated: at the `float` nearest to 2.5/12 V,
`round(cv*12)` is 2 but the single-precision product is exactly 2.5 and `setCV`
stores semitone 3. -/
theorem setCV_halfSemitone :
    cRound (halfSemitone * 12) = 2 ∧
      ((init false).setCV 0 0 halfSemitone).keys 0 0 = 3 ∧
      ((init false).setCV 0 0 halfSemitone).keys 0 0
        ≠ eucMod (cRound (halfSemitone * 12)) 12 := by
  have hk : ((init false).setCV 0 0 halfSemitone).keys 0 0 = 3 := by
    rw [setCV_keys, cvNote_halfSemitone]; decide
  refine ⟨cRound_halfSemitone, hk, ?_⟩
  rw [hk, cRound_halfSemitone, eucMod_twelve]
  decide

/-- Witness of C2 (as amended): 1/12 V is one semitone. -/
theorem setCV_stores_witness :
    |(1 / 12 : ℚ)| ≤ 1000 ∧ (∀ n : Int, 1 / 500 ≤ |(1 / 12 : ℚ) * 12 - ((n : ℚ) + 1 / 2)|) ∧
      cvNote (1 / 12) = cRound ((1 / 12 : ℚ) * 12) ∧ cRound ((1 / 12 : ℚ) * 12) = 1 := by
  have h1 : |(1 / 12 : ℚ)| ≤ 1000 := by norm_num [abs_of_pos]
  have h2 : ∀ n : Int, 1 / 500 ≤ |(1 / 12 : ℚ) * 12 - ((n : ℚ) + 1 / 2)| := by
    intro n
    have := far_from_half_of_int 1 n (1 / 500) (by norm_num)
    norm_num at this ⊢
    exact this
  exact ⟨h1, h2, (setCV_stores (init false) 0 0 (1 / 12)).2.2.2.2.2.2.2.2 h1 h2,
    by norm_num [cRound]⟩

/-- The single-precision sum `p + v * 12` and its distance to the exact one. -/
theorem getIndex_error (p v : ℚ) (hp : |p| ≤ 1000) (hv : |v| ≤ 1000) :
    |f32 (p + f32 (v * 12)) - (p + 12 * v)| ≤ 3 / 1000 ∧ |f32 (p + f32 (v * 12))| ≤ 25001 := by
  have hx : |v * 12| ≤ 25000 := by
    rw [abs_mul]
    have : |(12 : ℚ)| = 12 := abs_of_pos (by norm_num)
    rw [this]
    linarith
  have hx2 : |v * 12| ≤ 12000 := by
    rw [abs_mul]
    have : |(12 : ℚ)| = 12 := abs_of_pos (by norm_num)
    rw [this]
    linarith
  have e1 := abs_le.mp (f32_error_small (v * 12) hx).1
  have a1 := abs_le.mp hx2
  have ap := abs_le.mp hp
  have hs : |p + f32 (v * 12)| ≤ 25000 := by
    rw [abs_le]; constructor <;> linarith
  have e2 := f32_error_small (p + f32 (v * 12)) hs
  have e2a := abs_le.mp e2.1
  refine ⟨?_, e2.2⟩
  rw [abs_le]
  constructor <;> linarith

/-- C4 (as amended). For every index-knob value `p` and index-input voltage `v`,
`getIndex` returns `(int) std::round(p + v * 12.0f)`, computed in single
precision, clamped to [0, 24]; the result is never outside 0..24. It is
`round(p + 12*v)` clamped to [0, 24] (with the C rounding and equally with
rounding half up) whenever `|p| ≤ 1000`, `|v| ≤ 1000` V and `p + 12*v` is at
least 1/250 away from every half-integer. -/
theorem getIndex_spec (m : ChordKey) :
    m.getIndex = clamp (cInt (cRound (f32 (m.params INDEX_PARAM
        + f32 ((m.inputs INDEX_INPUT).voltages 0 * 12))))) 0 24 ∧
      0 ≤ m.getIndex ∧ m.getIndex ≤ 24 ∧
      (|m.params INDEX_PARAM| ≤ 1000 → |(m.inputs INDEX_INPUT).voltages 0| ≤ 1000 →
        (∀ n : Int, 1 / 250 ≤ |m.params INDEX_PARAM + 12 * (m.inputs INDEX_INPUT).voltages 0
          - ((n : ℚ) + 1 / 2)|) →
        m.getIndex
            = clamp (cRound (m.params INDEX_PARAM + 12 * (m.inputs INDEX_INPUT).voltages 0)) 0 24 ∧
          m.getIndex
            = clamp (round (m.params INDEX_PARAM + 12 * (m.inputs INDEX_INPUT).voltages 0)) 0 24) := by
  have h1 : m.getIndex = clamp (cInt (cRound (f32 (m.params INDEX_PARAM
      + f32 ((m.inputs INDEX_INPUT).voltages 0 * 12))))) 0 24 := rfl
  have hb := clamp_bounds (cInt (cRound (f32 (m.params INDEX_PARAM
      + f32 ((m.inputs INDEX_INPUT).voltages 0 * 12))))) 0 24 (by decide)
  refine ⟨h1, h1 ▸ hb.1, h1 ▸ hb.2, fun hp hv hfar => ?_⟩
  have he := getIndex_error _ _ hp hv
  have hc : cInt (cRound (f32 (m.params INDEX_PARAM + f32 ((m.inputs INDEX_INPUT).voltages 0 * 12))))
      = cRound (m.params INDEX_PARAM + 12 * (m.inputs INDEX_INPUT).voltages 0) := by
    rw [cInt_cRound_of_abs_le _ (by linarith [he.2])]
    exact cRound_eq_of_close _ _ (3 / 1000) he.1 (fun n => lt_of_lt_of_le (by norm_num) (hfar n))
  have h2 : m.getIndex
      = clamp (cRound (m.params INDEX_PARAM + 12 * (m.inputs INDEX_INPUT).voltages 0)) 0 24 := by
    rw [h1, hc]
  exact ⟨h2, h2.trans (clamp_cRound_eq_round _)⟩

/-- The index of a module whose index input is at 0 V and whose knob is on an
integer. -/
theorem getIndex_of_knob (m : ChordKey) (n : Int) (hv : (m.inputs INDEX_INPUT).voltages 0 = 0)
    (hp : m.params INDEX_PARAM = (n : ℚ)) (hn : |n| < 16777216) :
    m.getIndex = clamp n 0 24 := by
  have h1 : m.getIndex = clamp (cInt (cRound (f32 (m.params INDEX_PARAM
      + f32 ((m.inputs INDEX_INPUT).voltages 0 * 12))))) 0 24 := rfl
  have := abs_lt.mp hn
  rw [h1, hv, hp, zero_mul, f32_zero, add_zero, f32_intCast n hn, cRound_intCast,
    cInt_intCast n (by omega) (by omega)]

end ChordKey

namespace ChordKey

theorem applyDelta_octs (m : ChordKey) (index cni delta : Int) :
    (m.applyDelta index cni delta).octs index cni
      = clamp (m.octs index cni + (m.keys index cni + delta) / 12) 0 9 := by
  simp [applyDelta, set2, eucDiv_twelve]

theorem applyDelta_keys (m : ChordKey) (index cni delta : Int) :
    (m.applyDelta index cni delta).keys index cni = (m.keys index cni + delta) % 12 := by
  simp [applyDelta, set2, eucMod_twelve]

/-- C3. For every slot and position, `calcCV` returns
`(octave - 4) + semitone/12` when the position's octave is not OFF
(`octave ≥ 0`), and returns 0 when the position is OFF (octave -1, or any
negative octave). -/
theorem calcCV_spec (m : ChordKey) (index cni : Int) :
    (m.octs index cni ≥ 0 →
        m.calcCV index cni = ((m.octs index cni : ℚ) - 4) + (m.keys index cni : ℚ) / 12) ∧
      (m.octs index cni = -1 → m.calcCV index cni = 0) ∧
      (m.octs index cni < 0 → m.calcCV index cni = 0) := by
  refine ⟨fun h => ?_, fun h => ?_, fun h => ?_⟩
  · unfold calcCV
    rw [if_pos h]
    push_cast
    ring
  · unfold calcCV
    rw [if_neg (by omega)]
  · unfold calcCV
    rw [if_neg (by omega)]

end ChordKey

/-! ## Lemmas on loops and on the reset state -/

theorem forLoop_zero_succ {σ : Type} (n : Nat) (body : σ → Int → σ) (s : σ) :
    forLoop 0 (n + 1) body s = body (forLoop 0 n body s) (n : Int) := by
  unfold forLoop
  simp [List.range'_1_concat, List.foldl_append]

theorem forLoop_preserves {σ α : Type} (f : σ → α) (lo hi : Nat) (body : σ → Int → σ)
    (h : ∀ s i, f (body s i) = f s) (s : σ) : f (forLoop lo hi body s) = f s := by
  unfold forLoop
  generalize List.range' lo (hi - lo) = l
  induction l generalizing s with
  | nil => rfl
  | cons a l ih =>
    rw [List.foldl_cons, ih, h]

theorem forLoop_zero_four {σ : Type} (body : σ → Int → σ) (s : σ) :
    forLoop 0 4 body s = body (body (body (body s 0) 1) 2) 3 := rfl

namespace ChordKey

theorem forLoop_resetChord_octs (n : Nat) (m : ChordKey) (ci cni : Int) :
    (forLoop 0 n resetChord m).octs ci cni =
      if 0 ≤ ci ∧ ci < n ∧ 0 ≤ cni ∧ cni < 4 then (if cni = 3 then -1 else 4)
      else m.octs ci cni := by
  induction n with
  | zero =>
    have h : ¬ (0 ≤ ci ∧ ci < ((0 : Nat) : Int) ∧ 0 ≤ cni ∧ cni < 4) := by
      intro h; have := h.2.1; simp at this; omega
    rw [if_neg h]; rfl
  | succ k ih =>
    rw [forLoop_zero_succ]
    simp only [resetChord, set2, ih]
    push_cast
    split_ifs <;> first | rfl | omega

theorem forLoop_resetChord_keys (n : Nat) (m : ChordKey) (ci cni : Int) :
    (forLoop 0 n resetChord m).keys ci cni =
      if 0 ≤ ci ∧ ci < n ∧ 0 ≤ cni ∧ cni < 4 then
        (if cni = 0 then 0 else if cni = 1 then 4 else if cni = 2 then 7 else 0)
      else m.keys ci cni := by
  induction n with
  | zero =>
    have h : ¬ (0 ≤ ci ∧ ci < ((0 : Nat) : Int) ∧ 0 ≤ cni ∧ cni < 4) := by
      intro h; have := h.2.1; simp at this; omega
    rw [if_neg h]; rfl
  | succ k ih =>
    rw [forLoop_zero_succ]
    simp only [resetChord, set2, ih]
    push_cast
    split_ifs <;> first | rfl | omega

/-- After `onReset` every chord holds octaves 4, 4, 4, OFF. -/
theorem onReset_octs (m : ChordKey) (ci cni : Int)
    (h1 : 0 ≤ ci) (h2 : ci < 25) (h3 : 0 ≤ cni) (h4 : cni < 4) :
    (onReset m).octs ci cni = if cni = 3 then -1 else 4 := by
  have h := forLoop_resetChord_octs 25 m ci cni
  have hc : 0 ≤ ci ∧ ci < ((25 : Nat) : Int) ∧ 0 ≤ cni ∧ cni < 4 := ⟨h1, by simpa using h2, h3, h4⟩
  rw [if_pos hc] at h
  simpa [onReset, resetNonJson] using h

/-- After `onReset` every chord holds semitones 0, 4, 7, 0. -/
theorem onReset_keys (m : ChordKey) (ci cni : Int)
    (h1 : 0 ≤ ci) (h2 : ci < 25) (h3 : 0 ≤ cni) (h4 : cni < 4) :
    (onReset m).keys ci cni
      = if cni = 0 then 0 else if cni = 1 then 4 else if cni = 2 then 7 else 0 := by
  have h := forLoop_resetChord_keys 25 m ci cni
  have hc : 0 ≤ ci ∧ ci < ((25 : Nat) : Int) ∧ 0 ≤ cni ∧ cni < 4 := ⟨h1, by simpa using h2, h3, h4⟩
  rw [if_pos hc] at h
  simpa [onReset, resetNonJson] using h

theorem onReset_params (m : ChordKey) : (onReset m).params = m.params := by
  have h := forLoop_preserves (fun s : ChordKey => s.params) 0 25 resetChord (fun _ _ => rfl) m
  simpa [onReset, resetNonJson] using h

theorem onReset_inputs (m : ChordKey) : (onReset m).inputs = m.inputs := by
  have h := forLoop_preserves (fun s : ChordKey => s.inputs) 0 25 resetChord (fun _ _ => rfl) m
  simpa [onReset, resetNonJson] using h

theorem onReset_outputs (m : ChordKey) : (onReset m).outputs = m.outputs := by
  have h := forLoop_preserves (fun s : ChordKey => s.outputs) 0 25 resetChord (fun _ _ => rfl) m
  simpa [onReset, resetNonJson] using h

theorem onReset_pkInfo (m : ChordKey) : (onReset m).pkInfo = m.pkInfo := by
  have h := forLoop_preserves (fun s : ChordKey => s.pkInfo) 0 25 resetChord (fun _ _ => rfl) m
  simpa [onReset, resetNonJson] using h

theorem onReset_keyTrigger (m : ChordKey) : (onReset m).keyTrigger = m.keyTrigger := by
  have h := forLoop_preserves (fun s : ChordKey => s.keyTrigger) 0 25 resetChord
    (fun _ _ => rfl) m
  simpa [onReset, resetNonJson] using h

theorem init_getIndex (dark : Bool) : (init dark).getIndex = 0 := by
  have hp : (init dark).params = blank.params := onReset_params blank
  have hi : (init dark).inputs = blank.inputs := onReset_inputs blank
  have h := getIndex_of_knob (init dark) 0 (by rw [hi]; rfl) (by rw [hp]; simp [blank])
    (by decide)
  rw [h]
  decide

theorem init_octs (dark : Bool) (cni : Int) (h3 : 0 ≤ cni) (h4 : cni < 4) :
    (init dark).octs 0 cni = if cni = 3 then -1 else 4 := by
  have h := onReset_octs blank 0 cni (by decide) (by decide) h3 h4
  simpa only [init] using h

theorem init_keys (dark : Bool) (cni : Int) (h3 : 0 ≤ cni) (h4 : cni < 4) :
    (init dark).keys 0 cni
      = if cni = 0 then 0 else if cni = 1 then 4 else if cni = 2 then 7 else 0 := by
  have h := onReset_keys blank 0 cni (by decide) (by decide) h3 h4
  simpa only [init] using h

end ChordKey

/-! ## The index at extreme and at boundary voltages -/

namespace ChordKey

theorem withIndexInput_index (v : ℚ) :
    (withIndexInput v).params INDEX_PARAM = 0 ∧
      ((withIndexInput v).inputs INDEX_INPUT).voltages 0 = v := by
  have hp : (init false).params = blank.params := onReset_params blank
  constructor
  · show (init false).params INDEX_PARAM = 0
    rw [hp]; rfl
  · simp [withIndexInput]

theorem f32_five_halves : f32 (5 / 2) = 5 / 2 := by
  have hb := f32_of_binade (5 / 2) 1 (by norm_num [abs_of_pos]) (by norm_num [abs_of_pos])
    (by decide)
  rw [hb]
  norm_num [roundEven]

theorem f32_twelve_billion : f32 12000000000 = 12000000000 := by
  have hb := f32_of_binade 12000000000 33 (by norm_num [abs_of_pos]) (by norm_num [abs_of_pos])
    (by decide)
  rw [hb]
  norm_num [roundEven]

/-- Counterexample to C4 as stated: with the knob at 0 and the `float` nearest to
2.5/12 V on the index input, `round(p + 12*v)` is 2 but the single-precision
product is exactly 2.5 and `getIndex` returns 3; with 1e9 V on the input the
formula gives 24 but the conversion to `int` is out of range and `getIndex`
returns 0. -/
theorem getIndex_halfSemitone :
    (withIndexInput halfSemitone).getIndex = 3 ∧
      clamp (cRound ((withIndexInput halfSemitone).params INDEX_PARAM
        + 12 * ((withIndexInput halfSemitone).inputs INDEX_INPUT).voltages 0)) 0 24 = 2 ∧
      (withIndexInput 1000000000).getIndex = 0 ∧
      clamp (cRound ((withIndexInput 1000000000).params INDEX_PARAM
        + 12 * ((withIndexInput 1000000000).inputs INDEX_INPUT).voltages 0)) 0 24 = 24 := by
  have a := withIndexInput_index halfSemitone
  have b := withIndexInput_index 1000000000
  have g1 : (withIndexInput halfSemitone).getIndex = clamp (cInt (cRound (f32
      ((withIndexInput halfSemitone).params INDEX_PARAM
        + f32 (((withIndexInput halfSemitone).inputs INDEX_INPUT).voltages 0 * 12))))) 0 24 := rfl
  have g2 : (withIndexInput 1000000000).getIndex = clamp (cInt (cRound (f32
      ((withIndexInput 1000000000).params INDEX_PARAM
        + f32 (((withIndexInput 1000000000).inputs INDEX_INPUT).voltages 0 * 12))))) 0 24 := rfl
  have r1 : cRound (5 / 2 : ℚ) = 3 := by norm_num [cRound]
  have r2 : cRound (12000000000 : ℚ) = 12000000000 := by norm_num [cRound]
  have c2 : cInt ((12000000000 : Int) : ℚ) = -2147483648 := by
    unfold cInt
    rw [cTrunc_intCast, if_neg (by decide)]
  refine ⟨?_, ?_, ?_, ?_⟩
  · rw [g1, a.1, a.2, f32_halfSemitone, zero_add, f32_five_halves, r1,
      cInt_intCast 3 (by decide) (by decide)]
    decide
  · rw [a.1, a.2]
    norm_num [halfSemitone, cRound, clamp]
  · have e : (1000000000 : ℚ) * 12 = 12000000000 := by norm_num
    rw [g2, b.1, b.2, e, f32_twelve_billion, zero_add, f32_twelve_billion, r2, c2]
    decide
  · rw [b.1, b.2]
    norm_num [cRound, clamp]

/-- Witness of C4 (as amended): +100 V selects slot 24 and -100 V slot 0. -/
theorem getIndex_spec_witness :
    (withIndexInput 100).getIndex = 24 ∧ (withIndexInput (-100)).getIndex = 0 := by
  have a := withIndexInput_index 100
  have b := withIndexInput_index (-100)
  have ha := (getIndex_spec (withIndexInput 100)).2.2.2
    (by rw [a.1]; norm_num) (by rw [a.2]; norm_num [abs_of_pos])
    (by
      intro n
      rw [a.1, a.2]
      have := far_from_half_of_int 1200 n (1 / 250) (by norm_num)
      norm_num at this ⊢
      exact this)
  have hb := (getIndex_spec (withIndexInput (-100))).2.2.2
    (by rw [b.1]; norm_num) (by rw [b.2]; norm_num [abs_of_neg])
    (by
      intro n
      rw [b.1, b.2]
      have := far_from_half_of_int (-1200) n (1 / 250) (by norm_num)
      norm_num at this ⊢
      exact this)
  rw [a.1, a.2] at ha
  rw [b.1, b.2] at hb
  refine ⟨ha.1.trans ?_, hb.1.trans ?_⟩
  · norm_num [cRound, clamp]
  · norm_num [cRound, clamp]

end ChordKey

namespace ChordKey

/-! ## Transposition -/

/-- C5. For every non-OFF position (octave in 0..9, semitone in 0..11) and
`d = +1` or `d = -1`, `applyDelta` by `d` followed by `applyDelta` by `-d`
restores the octave/semitone pair, except at the clamp boundaries (`d = +1` at
octave 9 semitone 11, `d = -1` at octave 0 semitone 0) where the final pair
differs from the original. -/
theorem applyDelta_roundTrip (m : ChordKey) (index cni d : Int)
    (ho1 : 0 ≤ m.octs index cni) (ho2 : m.octs index cni ≤ 9)
    (hk1 : 0 ≤ m.keys index cni) (hk2 : m.keys index cni ≤ 11)
    (hd : d = 1 ∨ d = -1) :
    (((d = 1 ∧ m.octs index cni = 9 ∧ m.keys index cni = 11) ∨
        (d = -1 ∧ m.octs index cni = 0 ∧ m.keys index cni = 0)) →
      ¬ (((m.applyDelta index cni d).applyDelta index cni (-d)).octs index cni
            = m.octs index cni ∧
          ((m.applyDelta index cni d).applyDelta index cni (-d)).keys index cni
            = m.keys index cni)) ∧
      (¬ ((d = 1 ∧ m.octs index cni = 9 ∧ m.keys index cni = 11) ∨
          (d = -1 ∧ m.octs index cni = 0 ∧ m.keys index cni = 0)) →
        ((m.applyDelta index cni d).applyDelta index cni (-d)).octs index cni
            = m.octs index cni ∧
          ((m.applyDelta index cni d).applyDelta index cni (-d)).keys index cni
            = m.keys index cni) := by
  simp only [applyDelta_octs, applyDelta_keys, clamp]
  generalize m.octs index cni = o at *
  generalize m.keys index cni = k at *
  rcases hd with rfl | rfl
  · constructor
    · intro hb
      omega
    · intro hb
      omega
  · constructor
    · intro hb
      omega
    · intro hb
      omega

end ChordKey

namespace ChordKey

/-- Witness of C5 on the constructed module: position 0 of chord 0 (octave 4,
semitone 0, not a clamp boundary) transposed up then down. -/
theorem applyDelta_roundTrip_witness :
    (0 ≤ (init false).octs 0 0 ∧ (init false).octs 0 0 ≤ 9 ∧
      0 ≤ (init false).keys 0 0 ∧ (init false).keys 0 0 ≤ 11 ∧
      ((1 : Int) = 1 ∨ (1 : Int) = -1)) ∧
    ((((1 : Int) = 1 ∧ (init false).octs 0 0 = 9 ∧ (init false).keys 0 0 = 11) ∨
        ((1 : Int) = -1 ∧ (init false).octs 0 0 = 0 ∧ (init false).keys 0 0 = 0)) →
      ¬ ((((init false).applyDelta 0 0 1).applyDelta 0 0 (-1)).octs 0 0
            = (init false).octs 0 0 ∧
          (((init false).applyDelta 0 0 1).applyDelta 0 0 (-1)).keys 0 0
            = (init false).keys 0 0)) ∧
    (¬ (((1 : Int) = 1 ∧ (init false).octs 0 0 = 9 ∧ (init false).keys 0 0 = 11) ∨
        ((1 : Int) = -1 ∧ (init false).octs 0 0 = 0 ∧ (init false).keys 0 0 = 0)) →
      (((init false).applyDelta 0 0 1).applyDelta 0 0 (-1)).octs 0 0
          = (init false).octs 0 0 ∧
        (((init false).applyDelta 0 0 1).applyDelta 0 0 (-1)).keys 0 0
          = (init false).keys 0 0) := by
  have ho : (init false).octs 0 0 = 4 := init_octs false 0 (by decide) (by decide)
  have hk : (init false).keys 0 0 = 0 := init_keys false 0 (by decide) (by decide)
  have h1 : 0 ≤ (init false).octs 0 0 := by rw [ho]; decide
  have h2 : (init false).octs 0 0 ≤ 9 := by rw [ho]; decide
  have h3 : 0 ≤ (init false).keys 0 0 := by rw [hk]
  have h4 : (init false).keys 0 0 ≤ 11 := by rw [hk]; decide
  have h := applyDelta_roundTrip (init false) 0 0 1 h1 h2 h3 h4 (Or.inl rfl)
  exact ⟨⟨h1, h2, h3, h4, Or.inl rfl⟩, h.1, h.2⟩

end ChordKey

/-! ## The control phase -/

theorem forLoop_rel {σ : Type} (R : σ → σ → Prop) (hrefl : ∀ s, R s s)
    (htrans : ∀ a b c, R a b → R b c → R a c) (lo hi : Nat) (body : σ → Int → σ)
    (h : ∀ s i, R s (body s i)) (s : σ) : R s (forLoop lo hi body s) := by
  unfold forLoop
  generalize List.range' lo (hi - lo) = l
  induction l generalizing s with
  | nil => exact hrefl s
  | cons a l ih =>
    rw [List.foldl_cons]
    exact htrans _ _ _ (h s _) (ih _)

theorem clamp_cTrunc (x : ℚ) : clamp (cTrunc x) 0 3 = clamp ⌊x⌋ 0 3 := by
  rcases le_or_lt 0 x with hx | hx
  · simp only [cTrunc, if_pos hx]
  · have hx2 : ¬ (0 ≤ x) := not_le.mpr hx
    have h1 : 0 ≤ ⌊-x⌋ := Int.floor_nonneg.mpr (by linarith)
    have h2 : ⌊x⌋ < 0 := Int.floor_lt.mpr (by push_cast; linarith)
    simp only [cTrunc, if_neg hx2, clamp]
    omega

namespace ChordKey

theorem NotesOnly.refl (a : ChordKey) : NotesOnly a a :=
  ⟨rfl, rfl, rfl, rfl, rfl, rfl, rfl, rfl, rfl, rfl, rfl, rfl, rfl, rfl, rfl⟩

theorem NotesOnly.trans (a b c : ChordKey) (h1 : NotesOnly a b) (h2 : NotesOnly b c) :
    NotesOnly a c :=
  ⟨h2.params.trans h1.params, h2.inputs.trans h1.inputs, h2.outputs.trans h1.outputs,
    h2.lights.trans h1.lights, h2.panelTheme.trans h1.panelTheme,
    h2.mergeOutputs.trans h1.mergeOutputs, h2.keypressEmitGate.trans h1.keypressEmitGate,
    h2.autostepPaste.trans h1.autostepPaste, h2.noteLightCounter.trans h1.noteLightCounter,
    h2.octsCP.trans h1.octsCP, h2.keysCP.trans h1.keysCP, h2.offWarning.trans h1.offWarning,
    h2.keyTrigger.trans h1.keyTrigger, h2.pkInfo.trans h1.pkInfo,
    h2.offWarningChan.trans h1.offWarningChan⟩

theorem NotesOnly.forLoop (lo hi : Nat) (body : ChordKey → Int → ChordKey)
    (h : ∀ s i, NotesOnly s (body s i)) (s : ChordKey) : NotesOnly s (forLoop lo hi body s) :=
  forLoop_rel NotesOnly NotesOnly.refl NotesOnly.trans lo hi body h s

theorem setCV_notesOnly (m : ChordKey) (index cni : Int) (cv : ℚ) :
    NotesOnly m (m.setCV index cni cv) :=
  ⟨rfl, rfl, rfl, rfl, rfl, rfl, rfl, rfl, rfl, rfl, rfl, rfl, rfl, rfl, rfl⟩

theorem applyDelta_notesOnly (m : ChordKey) (index cni delta : Int) :
    NotesOnly m (m.applyDelta index cni delta) :=
  ⟨rfl, rfl, rfl, rfl, rfl, rfl, rfl, rfl, rfl, rfl, rfl, rfl, rfl, rfl, rfl⟩

theorem octIncDecStep_notesOnly (t : Refresh) (index : Int) (m : ChordKey) (cni : Int) :
    NotesOnly m (octIncDecStep t index m cni) := by
  unfold octIncDecStep
  split_ifs <;> exact ⟨rfl, rfl, rfl, rfl, rfl, rfl, rfl, rfl, rfl, rfl, rfl, rfl, rfl, rfl, rfl⟩

theorem octIncDec_notesOnly (m : ChordKey) (t : Refresh) (index : Int) :
    NotesOnly m (octIncDec m t index) :=
  NotesOnly.forLoop 0 4 _ (octIncDecStep_notesOnly t index) m

theorem transposeLoop_notesOnly (m : ChordKey) (index delta : Int) :
    NotesOnly m (forLoop 0 4
      (fun st cni => if st.octs index cni ≥ 0 then st.applyDelta index cni delta else st) m) := by
  apply NotesOnly.forLoop
  intro s i
  split_ifs
  · exact applyDelta_notesOnly s index i _
  · exact NotesOnly.refl s

theorem transposeButtons_notesOnly (m : ChordKey) (t : Refresh) (index : Int) :
    NotesOnly m (transposeButtons m t index) := by
  unfold transposeButtons
  simp only
  split_ifs <;> first | exact transposeLoop_notesOnly _ _ _ | exact NotesOnly.refl _

/-- The state in which the section "piano keys" runs differs from the state at
the start of the control phase only in the note arrays. -/
theorem beforeKeys_notesOnly (m : ChordKey) (t : Refresh) (index : Int) :
    NotesOnly m (transposeButtons (octIncDec m t index) t index) :=
  NotesOnly.trans _ _ _ (octIncDec_notesOnly m t index) (transposeButtons_notesOnly _ t index)

theorem pressedPosition_eq (m : ChordKey) :
    pressedPosition m = clamp ⌊m.pkInfo.vel * 4⌋ 0 3 :=
  clamp_cTrunc _

end ChordKey

namespace ChordKey

theorem topOutputChannels_octs (m : ChordKey) : (topOutputChannels m).octs = m.octs := by
  unfold topOutputChannels; split_ifs <;> rfl

theorem topOutputChannels_keys (m : ChordKey) : (topOutputChannels m).keys = m.keys := by
  unfold topOutputChannels; split_ifs <;> rfl

theorem topOutputChannels_offWarning (m : ChordKey) :
    (topOutputChannels m).offWarning = m.offWarning := by
  unfold topOutputChannels; split_ifs <;> rfl

theorem topOutputChannels_offWarningChan (m : ChordKey) :
    (topOutputChannels m).offWarningChan = m.offWarningChan := by
  unfold topOutputChannels; split_ifs <;> rfl

theorem beforeKeys_quiet (m : ChordKey) : beforeKeys m quietTick = m := by
  simp [beforeKeys, transposeButtons, octIncDec, forLoop_zero_four, octIncDecStep, quietTick]

theorem pressD_getIndex (vel : ℚ) : (pressD vel).getIndex = 0 := by
  have h := init_getIndex false
  simpa [getIndex, pressD] using h

/-- C6. Key press in the control phase. On a rising edge of the keyboard gate
(gate held, trigger released) the target position is
`clamp(floor(velocity*4), 0, 3)`. If that position of the active slot is non-OFF
when the section runs, its semitone becomes the pressed key (no other semitone
changes), no octave changes and the warning timer and channel keep their
values; if it is OFF, no octave and no semitone changes and the warning is
armed: `offWarningChan` is the position and `offWarning` the fixed duration
`(long)(0.7 * sampleRate / displayRefreshStepSkips)`. -/
theorem controlPhase_keyPress (m : ChordKey) (args : ProcessArgs) (t : Refresh)
    (hgate : m.pkInfo.gate = true) (hlow : m.keyTrigger = false) :
    (0 ≤ (beforeKeys m t).octs m.getIndex (clamp ⌊m.pkInfo.vel * 4⌋ 0 3) →
        (controlPhase m args t m.getIndex).keys m.getIndex (clamp ⌊m.pkInfo.vel * 4⌋ 0 3)
            = m.pkInfo.key ∧
          (controlPhase m args t m.getIndex).keys
            = set2 (beforeKeys m t).keys m.getIndex (clamp ⌊m.pkInfo.vel * 4⌋ 0 3) m.pkInfo.key ∧
          (controlPhase m args t m.getIndex).octs = (beforeKeys m t).octs ∧
          (controlPhase m args t m.getIndex).offWarning = m.offWarning ∧
          (controlPhase m args t m.getIndex).offWarningChan = m.offWarningChan) ∧
      ((beforeKeys m t).octs m.getIndex (clamp ⌊m.pkInfo.vel * 4⌋ 0 3) < 0 →
        (controlPhase m args t m.getIndex).octs = (beforeKeys m t).octs ∧
          (controlPhase m args t m.getIndex).keys = (beforeKeys m t).keys ∧
          (controlPhase m args t m.getIndex).offWarning
            = cTrunc (7 / 10 * args.sampleRate / (t.displayRefreshStepSkips : ℚ)) ∧
          (controlPhase m args t m.getIndex).offWarningChan = clamp ⌊m.pkInfo.vel * 4⌋ 0 3) := by
  have hf := beforeKeys_notesOnly m t m.getIndex
  have hpk : (beforeKeys m t).pkInfo = m.pkInfo := hf.pkInfo
  have hkt : (beforeKeys m t).keyTrigger = false := hf.keyTrigger.trans hlow
  have hg2 : (beforeKeys m t).pkInfo.gate = true := by rw [hpk]; exact hgate
  have hpos : pressedPosition { beforeKeys m t with keyTrigger := true }
      = clamp ⌊m.pkInfo.vel * 4⌋ 0 3 := by
    rw [pressedPosition_eq]
    simp only [hpk]
  have hfire : (keyTriggerProcess (beforeKeys m t) (beforeKeys m t).pkInfo.gate)
      = (true, { beforeKeys m t with keyTrigger := true }) := by
    simp [keyTriggerProcess, hg2, hkt]
  have hcp : controlPhase m args t m.getIndex
      = topOutputChannels (pianoKeys (beforeKeys m t) args t m.getIndex) := rfl
  constructor
  · intro h
    have hp : pianoKeys (beforeKeys m t) args t m.getIndex
        = { beforeKeys m t with
            keyTrigger := true
            keys := set2 (beforeKeys m t).keys m.getIndex (clamp ⌊m.pkInfo.vel * 4⌋ 0 3)
              m.pkInfo.key } := by
      unfold pianoKeys
      simp only [hfire, if_true, hpos]
      rw [if_pos h, hpk]
    rw [hcp, topOutputChannels_keys, topOutputChannels_octs, topOutputChannels_offWarning,
      topOutputChannels_offWarningChan, hp]
    exact ⟨set2_same _ _ _ _, rfl, rfl, hf.offWarning, hf.offWarningChan⟩
  · intro h
    have hp : pianoKeys (beforeKeys m t) args t m.getIndex
        = { beforeKeys m t with
            keyTrigger := true
            offWarning := warningSteps args t
            offWarningChan := clamp ⌊m.pkInfo.vel * 4⌋ 0 3 } := by
      unfold pianoKeys
      simp only [hfire, if_true, hpos]
      rw [if_neg (by simpa using h)]
    rw [hcp, topOutputChannels_keys, topOutputChannels_octs, topOutputChannels_offWarning,
      topOutputChannels_offWarningChan, hp]
    exact ⟨rfl, rfl, rfl, rfl⟩

end ChordKey

namespace ChordKey

theorem pressD_octs (vel : ℚ) : (pressD vel).octs = (init false).octs := rfl

theorem pressD_keys (vel : ℚ) : (pressD vel).keys = (init false).keys := rfl

theorem pressD_keyTrigger (vel : ℚ) : (pressD vel).keyTrigger = false := by
  have h := onReset_keyTrigger blank
  simpa [pressD, init, blank] using h

theorem pressD_offWarning (vel : ℚ) : (pressD vel).offWarning = 0 := by
  simp [pressD, init, onReset, resetNonJson]

/-- Witness of C6 on the default slot: pressing D (2) on position 3 (OFF)
changes neither its octave nor its semitone and arms the warning on channel 3
(120 refresh steps at 44.1 kHz); pressing D on position 0 sets semitone 2,
leaves octave 4 and does not arm the warning. -/
theorem controlPhase_keyPress_witness :
    ((pressD (4 / 5)).pkInfo.gate = true ∧ (pressD (4 / 5)).keyTrigger = false ∧
      (controlPhase (pressD (4 / 5)) ⟨44100⟩ quietTick 0).octs 0 3 = -1 ∧
      (controlPhase (pressD (4 / 5)) ⟨44100⟩ quietTick 0).keys 0 3 = 0 ∧
      (controlPhase (pressD (4 / 5)) ⟨44100⟩ quietTick 0).offWarning = 120 ∧
      (controlPhase (pressD (4 / 5)) ⟨44100⟩ quietTick 0).offWarningChan = 3) ∧
    ((pressD (1 / 10)).pkInfo.gate = true ∧ (pressD (1 / 10)).keyTrigger = false ∧
      (controlPhase (pressD (1 / 10)) ⟨44100⟩ quietTick 0).keys 0 0 = 2 ∧
      (controlPhase (pressD (1 / 10)) ⟨44100⟩ quietTick 0).octs 0 0 = 4 ∧
      (controlPhase (pressD (1 / 10)) ⟨44100⟩ quietTick 0).offWarning = 0) := by
  have o0 : (init false).octs 0 0 = 4 := init_octs false 0 (by decide) (by decide)
  have o3 : (init false).octs 0 3 = -1 := init_octs false 3 (by decide) (by decide)
  have k3 : (init false).keys 0 3 = 0 := init_keys false 3 (by decide) (by decide)
  have p3 : clamp ⌊(pressD (4 / 5)).pkInfo.vel * 4⌋ 0 3 = 3 := by
    norm_num [pressD, clamp]
  have p0 : clamp ⌊(pressD (1 / 10)).pkInfo.vel * 4⌋ 0 3 = 0 := by
    norm_num [pressD, clamp]
  have hw : cTrunc (7 / 10 * (44100 : ℚ) / ((quietTick.displayRefreshStepSkips : Nat) : ℚ)) = 120 := by
    norm_num [quietTick, cTrunc]
  have ha := (controlPhase_keyPress (pressD (4 / 5)) ⟨44100⟩ quietTick rfl
    (pressD_keyTrigger _)).2
  have hb := (controlPhase_keyPress (pressD (1 / 10)) ⟨44100⟩ quietTick rfl
    (pressD_keyTrigger _)).1
  rw [pressD_getIndex, beforeKeys_quiet, p3, pressD_octs, pressD_keys, hw] at ha
  rw [pressD_getIndex, beforeKeys_quiet, p0, pressD_octs, pressD_offWarning] at hb
  have ha2 := ha (by rw [o3]; decide)
  have hb2 := hb (by rw [o0]; decide)
  refine ⟨⟨rfl, pressD_keyTrigger _, ?_, ?_, ha2.2.2.1, ha2.2.2.2⟩,
    ⟨rfl, pressD_keyTrigger _, hb2.1, ?_, hb2.2.2.2.1⟩⟩
  · rw [ha2.1, o3]
  · rw [ha2.2.1, k3]
  · rw [hb2.2.2.1, o0]

end ChordKey

/-! ## The output phase -/

theorem forLoop_zero_two {σ : Type} (body : σ → Int → σ) (s : σ) :
    forLoop 0 2 body s = body (body s 0) 1 := rfl

theorem forLoop_zero_three {σ : Type} (body : σ → Int → σ) (s : σ) :
    forLoop 0 3 body s = body (body (body s 0) 1) 2 := rfl

theorem forLoop_two_four {σ : Type} (body : σ → Int → σ) (s : σ) :
    forLoop 2 4 body s = body (body s 2) 3 := rfl

theorem forLoop_one_three {σ : Type} (body : σ → Int → σ) (s : σ) :
    forLoop 1 3 body s = body (body s 1) 2 := rfl

theorem forLoop_one_four {σ : Type} (body : σ → Int → σ) (s : σ) :
    forLoop 1 4 body s = body (body (body s 1) 2) 3 := rfl

namespace ChordKey

theorem setOutVoltage_read (m : ChordKey) (port : Int) (v : ℚ) (ch p c : Int) :
    ((setOutVoltage m port v ch).outputs p).voltages c
      = if p = port ∧ c = ch then v else (m.outputs p).voltages c := by
  unfold setOutVoltage Output.setVoltage
  by_cases hp : p = port
  · subst hp
    by_cases hc : c = ch <;> simp [hc]
  · simp [hp]

theorem setOutVoltage_mergeOutputs (m : ChordKey) (port : Int) (v : ℚ) (ch : Int) :
    (setOutVoltage m port v ch).mergeOutputs = m.mergeOutputs := rfl

/-- What the four-way switch of the output phase leaves on the ports, for a
state whose `mergeOutputs` is `k` in 0..3. -/
theorem outputPhase_voltages (x : ChordKey) (index k : Int)
    (hk : x.mergeOutputs = k) (h0 : 0 ≤ k) (h3 : k ≤ 3) :
    (∀ c : Int, 0 ≤ c → c ≤ k →
        ((outputPhase x index).outputs (GATE_OUTPUTS + 0)).voltages c = gateOuts x index c ∧
        ((outputPhase x index).outputs (CV_OUTPUTS + 0)).voltages c = cvOuts x index c) ∧
      (∀ j : Int, 1 ≤ j → j ≤ k →
        ((outputPhase x index).outputs (GATE_OUTPUTS + j)).voltages 0 = 0 ∧
        ((outputPhase x index).outputs (CV_OUTPUTS + j)).voltages 0 = 0) ∧
      (∀ j : Int, k < j → j ≤ 3 →
        ((outputPhase x index).outputs (GATE_OUTPUTS + j)).voltages 0 = gateOuts x index j ∧
        ((outputPhase x index).outputs (CV_OUTPUTS + j)).voltages 0 = cvOuts x index j) := by
  have hcases : k = 0 ∨ k = 1 ∨ k = 2 ∨ k = 3 := by omega
  rcases hcases with rfl | rfl | rfl | rfl
  · refine ⟨fun c hc1 hc2 => ?_, fun j hj1 hj2 => ?_, fun j hj1 hj2 => ?_⟩
    · obtain rfl : c = 0 := by omega
      simp [outputPhase, hk, forLoop_zero_four, writeOwn, setOutVoltage_read,
        GATE_OUTPUTS, CV_OUTPUTS]
    · omega
    · have hj : j = 1 ∨ j = 2 ∨ j = 3 := by omega
      rcases hj with rfl | rfl | rfl <;>
        simp [outputPhase, hk, forLoop_zero_four, writeOwn, setOutVoltage_read,
          GATE_OUTPUTS, CV_OUTPUTS]
  · refine ⟨fun c hc1 hc2 => ?_, fun j hj1 hj2 => ?_, fun j hj1 hj2 => ?_⟩
    · have hc : c = 0 ∨ c = 1 := by omega
      rcases hc with rfl | rfl <;>
        simp [outputPhase, hk, forLoop_zero_two, forLoop_two_four, writeOwn, writeMerged,
          writeZero, setOutVoltage_read, GATE_OUTPUTS, CV_OUTPUTS]
    · obtain rfl : j = 1 := by omega
      simp [outputPhase, hk, forLoop_zero_two, forLoop_two_four, writeOwn, writeMerged,
        writeZero, setOutVoltage_read, GATE_OUTPUTS, CV_OUTPUTS]
    · have hj : j = 2 ∨ j = 3 := by omega
      rcases hj with rfl | rfl <;>
        simp [outputPhase, hk, forLoop_zero_two, forLoop_two_four, writeOwn, writeMerged,
          writeZero, setOutVoltage_read, GATE_OUTPUTS, CV_OUTPUTS]
  · refine ⟨fun c hc1 hc2 => ?_, fun j hj1 hj2 => ?_, fun j hj1 hj2 => ?_⟩
    · have hc : c = 0 ∨ c = 1 ∨ c = 2 := by omega
      rcases hc with rfl | rfl | rfl <;>
        simp [outputPhase, hk, forLoop_zero_three, forLoop_one_three, writeOwn, writeMerged,
          writeZero, setOutVoltage_read, GATE_OUTPUTS, CV_OUTPUTS]
    · have hj : j = 1 ∨ j = 2 := by omega
      rcases hj with rfl | rfl <;>
        simp [outputPhase, hk, forLoop_zero_three, forLoop_one_three, writeOwn, writeMerged,
          writeZero, setOutVoltage_read, GATE_OUTPUTS, CV_OUTPUTS]
    · obtain rfl : j = 3 := by omega
      simp [outputPhase, hk, forLoop_zero_three, forLoop_one_three, writeOwn, writeMerged,
        writeZero, setOutVoltage_read, GATE_OUTPUTS, CV_OUTPUTS]
  · refine ⟨fun c hc1 hc2 => ?_, fun j hj1 hj2 => ?_, fun j hj1 hj2 => ?_⟩
    · have hc : c = 0 ∨ c = 1 ∨ c = 2 ∨ c = 3 := by omega
      rcases hc with rfl | rfl | rfl | rfl <;>
        simp [outputPhase, hk, forLoop_zero_four, forLoop_one_four, writeOwn, writeMerged,
          writeZero, setOutVoltage_read, GATE_OUTPUTS, CV_OUTPUTS]
    · have hj : j = 1 ∨ j = 2 ∨ j = 3 := by omega
      rcases hj with rfl | rfl | rfl <;>
        simp [outputPhase, hk, forLoop_zero_four, forLoop_one_four, writeOwn, writeMerged,
          writeZero, setOutVoltage_read, GATE_OUTPUTS, CV_OUTPUTS]
    · omega

end ChordKey

namespace ChordKey

theorem gateOuts_of_gateView (a b : ChordKey) (h : gateView a = gateView b) (index cni : Int) :
    gateOuts a index cni = gateOuts b index cni ∧ a.calcCV index cni = b.calcCV index cni := by
  simp only [gateView, Prod.mk.injEq] at h
  obtain ⟨h1, h2, h3, h4, h5, h6⟩ := h
  simp only [gateOuts, extGateWithForce, forcedGate, keypressGate, calcCV, h1, h2, h3, h4, h5, h6,
    and_self]

theorem setOutVoltage_channels (m : ChordKey) (port : Int) (v : ℚ) (ch p : Int) :
    ((setOutVoltage m port v ch).outputs p).channels = (m.outputs p).channels := by
  unfold setOutVoltage Output.setVoltage
  by_cases hp : p = port
  · subst hp; simp
  · simp [hp]

theorem writeOwn_portView (g c : Int → ℚ) (s : ChordKey) (i : Int) :
    portView (writeOwn g c s i) = portView s := by
  refine Prod.ext rfl (funext fun p => ?_)
  simp only [portView, writeOwn, setOutVoltage_channels]

theorem writeMerged_portView (g c : Int → ℚ) (s : ChordKey) (i : Int) :
    portView (writeMerged g c s i) = portView s := by
  refine Prod.ext rfl (funext fun p => ?_)
  simp only [portView, writeMerged, setOutVoltage_channels]

theorem writeZero_portView (s : ChordKey) (i : Int) :
    portView (writeZero s i) = portView s := by
  refine Prod.ext rfl (funext fun p => ?_)
  simp only [portView, writeZero, setOutVoltage_channels]

theorem outputPhase_portView (x : ChordKey) (index : Int) :
    portView (outputPhase x index) = portView x := by
  unfold outputPhase
  simp only
  split_ifs
  · exact forLoop_preserves portView 0 4 _ (writeOwn_portView _ _) x
  · exact (forLoop_preserves portView 2 4 _ (writeOwn_portView _ _) _).trans
      ((forLoop_preserves portView 0 2 _ (writeMerged_portView _ _) _).trans
        (writeZero_portView x 1))
  · exact (writeOwn_portView _ _ _ 3).trans
      ((forLoop_preserves portView 0 3 _ (writeMerged_portView _ _) _).trans
        (forLoop_preserves portView 1 3 _ writeZero_portView x))
  · exact (forLoop_preserves portView 0 4 _ (writeMerged_portView _ _) _).trans
      (forLoop_preserves portView 1 4 _ writeZero_portView x)

/-- The output phase changes no channel count and nothing that the gates and
CVs read. -/
theorem outputPhase_frame (x : ChordKey) (index : Int) :
    gateView (outputPhase x index) = gateView x ∧
      ∀ p, ((outputPhase x index).outputs p).channels = (x.outputs p).channels := by
  have key := outputPhase_portView x index
  exact ⟨congrArg Prod.fst key, fun p => congrFun (congrArg Prod.snd key) p⟩

theorem lightKey_lightView (index : Int) (s : ChordKey) (ki : Int) :
    lightView (lightKey index s ki) = lightView s :=
  forLoop_preserves lightView 0 4 (lightNote index ki) (fun _ _ => rfl) s

/-- The lights phase changes no output port and nothing that the gates and CVs
read. -/
theorem lightsPhase_frame (x : ChordKey) (index : Int) :
    gateView (lightsPhase x index) = gateView x ∧ (lightsPhase x index).outputs = x.outputs := by
  have h := forLoop_preserves lightView 0 12 (lightKey index) (lightKey_lightView index) x
  have key : lightView (lightsPhase x index) = lightView x := by
    have e : ∀ s : ChordKey, lightView
        (if s.offWarning > 0 then { s with offWarning := s.offWarning - 1 } else s)
          = lightView s := by
      intro s
      split_ifs <;> rfl
    exact (e (forLoop 0 12 (lightKey index) x)).trans h
  exact ⟨congrArg Prod.fst key, congrArg Prod.snd key⟩

end ChordKey

namespace ChordKey

theorem pianoKeys_mergeOutputs (m : ChordKey) (args : ProcessArgs) (t : Refresh) (index : Int) :
    (pianoKeys m args t index).mergeOutputs = m.mergeOutputs := by
  unfold pianoKeys keyTriggerProcess
  simp only
  split_ifs <;> rfl

theorem pianoKeys_outputs (m : ChordKey) (args : ProcessArgs) (t : Refresh) (index : Int) :
    (pianoKeys m args t index).outputs = m.outputs := by
  unfold pianoKeys keyTriggerProcess
  simp only
  split_ifs <;> rfl

theorem topOutputChannels_gateView (m : ChordKey) :
    gateView (topOutputChannels m) = gateView m := by
  unfold topOutputChannels; split_ifs <;> rfl

theorem topOutputChannels_mergeOutputs (m : ChordKey) :
    (topOutputChannels m).mergeOutputs = m.mergeOutputs := by
  unfold topOutputChannels; split_ifs <;> rfl

/-- The section "Top output channels": pair 0 gets `mergeOutputs + 1` channels,
no other port is touched. -/
theorem topOutputChannels_channels (m : ChordKey) (k : Int)
    (hk : m.mergeOutputs = k) (h0 : 0 ≤ k) (h3 : k ≤ 3) :
    ((topOutputChannels m).outputs (GATE_OUTPUTS + 0)).channels = k + 1 ∧
      ((topOutputChannels m).outputs (CV_OUTPUTS + 0)).channels = k + 1 ∧
      ∀ j : Int, 1 ≤ j → j ≤ 3 →
        (topOutputChannels m).outputs (GATE_OUTPUTS + j) = m.outputs (GATE_OUTPUTS + j) ∧
        (topOutputChannels m).outputs (CV_OUTPUTS + j) = m.outputs (CV_OUTPUTS + j) := by
  have hcases : k = 0 ∨ k = 1 ∨ k = 2 ∨ k = 3 := by omega
  rcases hcases with rfl | rfl | rfl | rfl
  all_goals
    refine ⟨?_, ?_, fun j h1 h2 => ?_⟩
    · simp [topOutputChannels, hk, setOutChannels, Output.setChannels, GATE_OUTPUTS, CV_OUTPUTS]
    · simp [topOutputChannels, hk, setOutChannels, Output.setChannels, GATE_OUTPUTS, CV_OUTPUTS]
    · have hj : j = 1 ∨ j = 2 ∨ j = 3 := by omega
      rcases hj with rfl | rfl | rfl <;>
        simp [topOutputChannels, hk, setOutChannels, GATE_OUTPUTS, CV_OUTPUTS]

theorem controlPhase_mergeOutputs (m : ChordKey) (args : ProcessArgs) (t : Refresh)
    (index : Int) : (controlPhase m args t index).mergeOutputs = m.mergeOutputs := by
  unfold controlPhase
  rw [topOutputChannels_mergeOutputs, pianoKeys_mergeOutputs]
  exact (beforeKeys_notesOnly m t index).mergeOutputs

theorem beforeTop_outputs (m : ChordKey) (args : ProcessArgs) (t : Refresh) (index : Int) :
    (pianoKeys (transposeButtons (octIncDec m t index) t index) args t index).outputs
      = m.outputs := by
  rw [pianoKeys_outputs]
  exact (beforeKeys_notesOnly m t index).outputs

theorem process_outputs (m : ChordKey) (args : ProcessArgs) (t : Refresh)
    (htick : t.processInputs = true) :
    (process m args t).outputs
        = (outputPhase (controlPhase m args t m.getIndex) m.getIndex).outputs ∧
      gateView (process m args t) = gateView (controlPhase m args t m.getIndex) := by
  unfold process
  simp only [htick, if_true]
  split_ifs
  · exact ⟨(lightsPhase_frame _ _).2,
      (lightsPhase_frame _ _).1.trans (outputPhase_frame _ _).1⟩
  · exact ⟨rfl, (outputPhase_frame _ _).1⟩

end ChordKey

namespace ChordKey

/-- C7. Merge topology. For `mergeOutputs = k` in 0..3, after a control tick and
the output phase of `process`: output pair 0 (gate and CV) has `k + 1`
channels and its channel `c` (0 ≤ c ≤ k) carries the gate and CV of position
`c`; the pairs 1..k carry 0 V; each pair `j` with `k < j ≤ 3` carries the gate
and CV of position `j` on its channel 0; the channel counts of the pairs 1..3
are not touched (a mono port stays mono). -/
theorem process_mergeTopology (m : ChordKey) (args : ProcessArgs) (t : Refresh) (k : Int)
    (htick : t.processInputs = true) (hk : m.mergeOutputs = k) (h0 : 0 ≤ k) (h3 : k ≤ 3) :
    ((process m args t).outputs (GATE_OUTPUTS + 0)).channels = k + 1 ∧
      ((process m args t).outputs (CV_OUTPUTS + 0)).channels = k + 1 ∧
      (∀ c : Int, 0 ≤ c → c ≤ k →
        ((process m args t).outputs (GATE_OUTPUTS + 0)).voltages c
            = gateOuts (process m args t) m.getIndex c ∧
          ((process m args t).outputs (CV_OUTPUTS + 0)).voltages c
            = (process m args t).calcCV m.getIndex c) ∧
      (∀ j : Int, 1 ≤ j → j ≤ k →
        ((process m args t).outputs (GATE_OUTPUTS + j)).voltages 0 = 0 ∧
          ((process m args t).outputs (CV_OUTPUTS + j)).voltages 0 = 0) ∧
      (∀ j : Int, k < j → j ≤ 3 →
        ((process m args t).outputs (GATE_OUTPUTS + j)).voltages 0
            = gateOuts (process m args t) m.getIndex j ∧
          ((process m args t).outputs (CV_OUTPUTS + j)).voltages 0
            = (process m args t).calcCV m.getIndex j) ∧
      (∀ j : Int, 1 ≤ j → j ≤ 3 →
        ((process m args t).outputs (GATE_OUTPUTS + j)).channels
            = (m.outputs (GATE_OUTPUTS + j)).channels ∧
          ((process m args t).outputs (CV_OUTPUTS + j)).channels
            = (m.outputs (CV_OUTPUTS + j)).channels) := by
  obtain ⟨hout, hview⟩ := process_outputs m args t htick
  have hk2 : (controlPhase m args t m.getIndex).mergeOutputs = k :=
    (controlPhase_mergeOutputs m args t m.getIndex).trans hk
  obtain ⟨hv1, hv2, hv3⟩ :=
    outputPhase_voltages (controlPhase m args t m.getIndex) m.getIndex k hk2 h0 h3
  have hch := (outputPhase_frame (controlPhase m args t m.getIndex) m.getIndex).2
  have hk3 : (pianoKeys (transposeButtons (octIncDec m t m.getIndex) t m.getIndex) args t
      m.getIndex).mergeOutputs = k := by
    rw [pianoKeys_mergeOutputs]
    exact (beforeKeys_notesOnly m t m.getIndex).mergeOutputs.trans hk
  obtain ⟨ht1, ht2, ht3⟩ := topOutputChannels_channels _ k hk3 h0 h3
  have hbt := beforeTop_outputs m args t m.getIndex
  have hg : ∀ c, gateOuts (process m args t) m.getIndex c
        = gateOuts (controlPhase m args t m.getIndex) m.getIndex c ∧
      (process m args t).calcCV m.getIndex c
        = (controlPhase m args t m.getIndex).calcCV m.getIndex c :=
    fun c => gateOuts_of_gateView _ _ hview m.getIndex c
  rw [hout]
  refine ⟨?_, ?_, fun c hc1 hc2 => ?_, fun j hj1 hj2 => hv2 j hj1 hj2, fun j hj1 hj2 => ?_,
    fun j hj1 hj2 => ?_⟩
  · rw [hch]; exact ht1
  · rw [hch]; exact ht2
  · rw [(hg c).1, (hg c).2]; exact hv1 c hc1 hc2
  · rw [(hg j).1, (hg j).2]; exact hv3 j hj1 hj2
  · rw [hch, hch]
    have h := ht3 j hj1 hj2
    unfold controlPhase
    rw [h.1, h.2, hbt]
    exact ⟨rfl, rfl⟩

end ChordKey

namespace ChordKey

theorem gateOuts_forced (m : ChordKey) (index cni : Int) (hf : forcedGate m = true) :
    gateOuts m index cni = if m.octs index cni ≥ 0 then 10 else 0 := by
  simp [gateOuts, extGateWithForce, hf]

theorem controlPhase_quiet_gateView (m : ChordKey) (args : ProcessArgs)
    (hg : m.pkInfo.gate = false) :
    gateView (controlPhase m args quietTick m.getIndex) = gateView m := by
  have hb : transposeButtons (octIncDec m quietTick m.getIndex) quietTick m.getIndex = m :=
    beforeKeys_quiet m
  unfold controlPhase
  rw [topOutputChannels_gateView, hb]
  simp [pianoKeys, keyTriggerProcess, hg, gateView]

theorem forcedMerge1_getIndex : forcedMerge1.getIndex = 0 := by
  have h := init_getIndex false
  have hp : forcedMerge1.params INDEX_PARAM = (init false).params INDEX_PARAM := by
    simp [forcedMerge1, INDEX_PARAM, FORCE_PARAM]
  simpa [getIndex, hp, forcedMerge1] using h

theorem forcedMerge1_forced : forcedGate forcedMerge1 = true := by
  simp [forcedGate, forcedMerge1]
  norm_num

theorem forcedMerge1_gate : forcedMerge1.pkInfo.gate = false := by
  have h := onReset_pkInfo blank
  show (onReset blank).pkInfo.gate = false
  rw [h]
  rfl

theorem forcedMerge1_channels (p : Int) : (forcedMerge1.outputs p).channels = 1 := by
  have h := onReset_outputs blank
  show ((onReset blank).outputs p).channels = 1
  rw [h]
  rfl


theorem forcedMerge1_octs : forcedMerge1.octs = (init false).octs := rfl

theorem forcedMerge1_keys : forcedMerge1.keys = (init false).keys := rfl

/-- Witness of C7: `mergeOutputs = 1` on the default slot with the gate forced
gives CV pair 0 = [0, 4/12] V on 2 channels, gate pair 0 = [10, 10] V, pair 1 =
0 V on 1 channel, pair 2 = 10 V / 7/12 V (position 2) and pair 3 = 0 V / 0 V
(position 3 is OFF). -/
theorem process_mergeTopology_witness :
    quietTick.processInputs = true ∧ forcedMerge1.mergeOutputs = 1 ∧
      ((process forcedMerge1 ⟨44100⟩ quietTick).outputs (GATE_OUTPUTS + 0)).channels = 2 ∧
      ((process forcedMerge1 ⟨44100⟩ quietTick).outputs (CV_OUTPUTS + 0)).channels = 2 ∧
      ((process forcedMerge1 ⟨44100⟩ quietTick).outputs (CV_OUTPUTS + 0)).voltages 0 = 0 ∧
      ((process forcedMerge1 ⟨44100⟩ quietTick).outputs (CV_OUTPUTS + 0)).voltages 1 = 4 / 12 ∧
      ((process forcedMerge1 ⟨44100⟩ quietTick).outputs (GATE_OUTPUTS + 0)).voltages 0 = 10 ∧
      ((process forcedMerge1 ⟨44100⟩ quietTick).outputs (GATE_OUTPUTS + 0)).voltages 1 = 10 ∧
      ((process forcedMerge1 ⟨44100⟩ quietTick).outputs (GATE_OUTPUTS + 1)).voltages 0 = 0 ∧
      ((process forcedMerge1 ⟨44100⟩ quietTick).outputs (CV_OUTPUTS + 1)).voltages 0 = 0 ∧
      ((process forcedMerge1 ⟨44100⟩ quietTick).outputs (GATE_OUTPUTS + 1)).channels = 1 ∧
      ((process forcedMerge1 ⟨44100⟩ quietTick).outputs (CV_OUTPUTS + 1)).channels = 1 ∧
      ((process forcedMerge1 ⟨44100⟩ quietTick).outputs (GATE_OUTPUTS + 2)).voltages 0 = 10 ∧
      ((process forcedMerge1 ⟨44100⟩ quietTick).outputs (CV_OUTPUTS + 2)).voltages 0 = 7 / 12 ∧
      ((process forcedMerge1 ⟨44100⟩ quietTick).outputs (GATE_OUTPUTS + 3)).voltages 0 = 0 ∧
      ((process forcedMerge1 ⟨44100⟩ quietTick).outputs (CV_OUTPUTS + 3)).voltages 0 = 0 := by
  obtain ⟨c1, c2, v1, v2, v3, ch⟩ :=
    process_mergeTopology forcedMerge1 ⟨44100⟩ quietTick 1 rfl rfl (by decide) (by decide)
  have hview : gateView (process forcedMerge1 ⟨44100⟩ quietTick) = gateView forcedMerge1 :=
    (process_outputs forcedMerge1 ⟨44100⟩ quietTick rfl).2.trans
      (controlPhase_quiet_gateView forcedMerge1 ⟨44100⟩ forcedMerge1_gate)
  have hg : ∀ c, gateOuts (process forcedMerge1 ⟨44100⟩ quietTick) 0 c
        = (if forcedMerge1.octs 0 c ≥ 0 then 10 else 0) ∧
      (process forcedMerge1 ⟨44100⟩ quietTick).calcCV 0 c = forcedMerge1.calcCV 0 c := by
    intro c
    have h := gateOuts_of_gateView _ _ hview 0 c
    rw [h.1, h.2, gateOuts_forced _ _ _ forcedMerge1_forced]
    exact ⟨rfl, rfl⟩
  have o : ∀ c : Int, 0 ≤ c → c < 4 → forcedMerge1.octs 0 c = if c = 3 then -1 else 4 :=
    fun c h1 h2 => by rw [forcedMerge1_octs]; exact init_octs false c h1 h2
  have k : ∀ c : Int, 0 ≤ c → c < 4 → forcedMerge1.keys 0 c
      = if c = 0 then 0 else if c = 1 then 4 else if c = 2 then 7 else 0 :=
    fun c h1 h2 => by rw [forcedMerge1_keys]; exact init_keys false c h1 h2
  rw [forcedMerge1_getIndex] at v1 v3
  have a0 := v1 0 (by decide) (by decide)
  have a1 := v1 1 (by decide) (by decide)
  have b1 := v2 1 (by decide) (by decide)
  have d2 := v3 2 (by decide) (by decide)
  have d3 := v3 3 (by decide) (by decide)
  have e1 := ch 1 (by decide) (by decide)
  have cv0 : forcedMerge1.calcCV 0 0 = 0 := by
    simp only [calcCV, o 0 (by decide) (by decide), k 0 (by decide) (by decide)]
    norm_num
  have cv1 : forcedMerge1.calcCV 0 1 = 4 / 12 := by
    simp only [calcCV, o 1 (by decide) (by decide), k 1 (by decide) (by decide)]
    norm_num
  have cv2 : forcedMerge1.calcCV 0 2 = 7 / 12 := by
    simp only [calcCV, o 2 (by decide) (by decide), k 2 (by decide) (by decide)]
    norm_num
  have cv3 : forcedMerge1.calcCV 0 3 = 0 := by
    simp only [calcCV, o 3 (by decide) (by decide), k 3 (by decide) (by decide)]
    norm_num
  have g0 : (if forcedMerge1.octs 0 0 ≥ 0 then (10 : ℚ) else 0) = 10 := by
    rw [o 0 (by decide) (by decide)]; norm_num
  have g1 : (if forcedMerge1.octs 0 1 ≥ 0 then (10 : ℚ) else 0) = 10 := by
    rw [o 1 (by decide) (by decide)]; norm_num
  have g2 : (if forcedMerge1.octs 0 2 ≥ 0 then (10 : ℚ) else 0) = 10 := by
    rw [o 2 (by decide) (by decide)]; norm_num
  have g3 : (if forcedMerge1.octs 0 3 ≥ 0 then (10 : ℚ) else 0) = 0 := by
    rw [o 3 (by decide) (by decide)]; norm_num
  rw [(hg 0).1, (hg 0).2, g0, cv0] at a0
  rw [(hg 1).1, (hg 1).2, g1, cv1] at a1
  rw [(hg 2).1, (hg 2).2, g2, cv2] at d2
  rw [(hg 3).1, (hg 3).2, g3, cv3] at d3
  rw [forcedMerge1_channels, forcedMerge1_channels] at e1
  exact ⟨rfl, rfl, c1, c2, a0.2, a1.2, a0.1, a1.1, b1.1, b1.2, e1.1, e1.2, d2.1, d2.2, d3.1, d3.2⟩

end ChordKey

namespace ChordKey

/-- C8. Gate output. For every position of the active slot the computed gate is
10 V exactly when the position is non-OFF and (the force switch is at least
0.5, or the gate input is connected and its voltage on channel
`min(numGateChannels - 1, position)` is at least 1, or the keyboard gate applies
to the position); it is 0 V otherwise, so an OFF position never emits a gate. -/
theorem gateOuts_spec (m : ChordKey) (cni : Int) :
    (gateOuts m m.getIndex cni = 10 ↔
        (m.octs m.getIndex cni ≥ 0 ∧
          (m.params FORCE_PARAM ≥ 1 / 2 ∨
            ((m.inputs GATE_INPUT).connected = true ∧
              (m.inputs GATE_INPUT).voltages (min ((m.inputs GATE_INPUT).channels - 1) cni) ≥ 1) ∨
            keypressGate m m.getIndex cni = true))) ∧
      (gateOuts m m.getIndex cni = 10 ∨ gateOuts m m.getIndex cni = 0) ∧
      (m.octs m.getIndex cni < 0 → gateOuts m m.getIndex cni = 0) := by
  have hval : gateOuts m m.getIndex cni = 10 ∨ gateOuts m m.getIndex cni = 0 := by
    unfold gateOuts
    split_ifs
    · exact Or.inl rfl
    · exact Or.inr rfl
  have hiff : gateOuts m m.getIndex cni = 10 ↔
      (m.octs m.getIndex cni ≥ 0 ∧
        (m.params FORCE_PARAM ≥ 1 / 2 ∨
          ((m.inputs GATE_INPUT).connected = true ∧
            (m.inputs GATE_INPUT).voltages (min ((m.inputs GATE_INPUT).channels - 1) cni) ≥ 1) ∨
          keypressGate m m.getIndex cni = true)) := by
    unfold gateOuts extGateWithForce forcedGate
    by_cases hf : (2 : ℚ)⁻¹ ≤ m.params FORCE_PARAM
    · by_cases ho : 0 ≤ m.octs m.getIndex cni <;> simp [hf, ho]
    · have hf2 : m.params FORCE_PARAM < 2⁻¹ := not_le.mp hf
      by_cases ho : 0 ≤ m.octs m.getIndex cni <;>
        by_cases hc : (m.inputs GATE_INPUT).connected = true <;>
        by_cases hv : 1 ≤ (m.inputs GATE_INPUT).voltages
          (min ((m.inputs GATE_INPUT).channels - 1) cni) <;>
        simp [hf, hf2, ho, hc, hv]
  refine ⟨hiff, hval, fun h => ?_⟩
  rcases hval with h10 | h0
  · have := (hiff.mp h10).1
    omega
  · exact h0

/-- C9. Keyboard gate. The keyboard contributes a gate to a position exactly
when the piano-key gate is held, `keypressEmitGate` is non-zero, the pressed
position `clamp(floor(velocity*4), 0, 3)` is non-OFF and, for a right click
(play one), the position is the pressed one; so a left click (play all)
applies to every position when the pressed position is non-OFF, and no
position gets a keyboard gate when the pressed position is OFF. -/
theorem keypressGate_spec (m : ChordKey) (cni : Int) :
    (keypressGate m m.getIndex cni = true ↔
        (m.pkInfo.gate = true ∧ m.keypressEmitGate ≠ 0 ∧
          m.octs m.getIndex (clamp ⌊m.pkInfo.vel * 4⌋ 0 3) ≥ 0 ∧
          (m.pkInfo.isRightClick = true → clamp ⌊m.pkInfo.vel * 4⌋ 0 3 = cni))) ∧
      (m.octs m.getIndex (clamp ⌊m.pkInfo.vel * 4⌋ 0 3) < 0 →
        keypressGate m m.getIndex cni = false) := by
  have hiff : keypressGate m m.getIndex cni = true ↔
      (m.pkInfo.gate = true ∧ m.keypressEmitGate ≠ 0 ∧
        m.octs m.getIndex (clamp ⌊m.pkInfo.vel * 4⌋ 0 3) ≥ 0 ∧
        (m.pkInfo.isRightClick = true → clamp ⌊m.pkInfo.vel * 4⌋ 0 3 = cni)) := by
    unfold keypressGate
    simp only [clamp_cTrunc]
    by_cases hg : m.pkInfo.gate = true <;> by_cases he : m.keypressEmitGate = 0 <;>
      by_cases hr : m.pkInfo.isRightClick = true <;> simp [hg, he, hr]
  refine ⟨hiff, fun h => ?_⟩
  by_contra hne
  have ht : keypressGate m m.getIndex cni = true := by simpa using hne
  have := (hiff.mp ht).2.2.1
  omega

end ChordKey

/-! ## Interop import -/

theorem forLoop_empty {σ : Type} (n : Nat) (body : σ → Int → σ) (s : σ) :
    forLoop n n body s = s := by
  simp [forLoop]

theorem forLoop_zero_one {σ : Type} (body : σ → Int → σ) (s : σ) :
    forLoop 0 1 body s = body s 0 := rfl

theorem forLoop_three_four {σ : Type} (body : σ → Int → σ) (s : σ) :
    forLoop 3 4 body s = body s 3 := rfl

namespace ChordKey

theorem noteAt_natCast (l : List IoNote) (i : Nat) (h : i < l.length) :
    noteAt l (i : Int) = l[i] := by
  simp [noteAt, h]

theorem noteAt_take (l : List IoNote) (i : Int) (h : i.toNat < 4) :
    noteAt (l.take 4) i = noteAt l i := by
  simp [noteAt, List.getD_eq_getElem?_getD, List.getElem?_take, h]


/-- The two loops of `emptyIoNotesSeq` once the stop index `min(4, size)` is known. -/
theorem emptyIoNotesSeq_stop (m : ChordKey) (ioNotes : List IoNote) (k : Nat)
    (hk : (min (4 : Int) (ioNotes.length : Int)).toNat = k) :
    emptyIoNotesSeq m ioNotes =
      forLoop k 4 (fun st i =>
          { st with octs := set2 st.octs m.getIndex i (-1), keys := set2 st.keys m.getIndex i 0 })
        (forLoop 0 k (fun st i => st.setCV m.getIndex i (noteAt ioNotes i).pitch) m) := by
  unfold emptyIoNotesSeq
  simp only [hk]

/-- C10. Import as sequence. For every list of incoming notes,
`emptyIoNotesSeq` leaves in position `i` of the active slot, for each
`i < min(n, 4)`, what `setCV` stores for the pitch of note `i` (in the order
given), and sets every position from `min(n, 4)` to 3 to OFF (octave -1) with
semitone 0; notes beyond the fourth are ignored (the result is that of the
first four notes). -/
theorem emptyIoNotesSeq_spec (m : ChordKey) (ioNotes : List IoNote) :
    (∀ (i : Nat) (h : i < ioNotes.length), i < 4 →
        (emptyIoNotesSeq m ioNotes).octs m.getIndex i
            = (m.setCV m.getIndex i ioNotes[i].pitch).octs m.getIndex i ∧
          (emptyIoNotesSeq m ioNotes).keys m.getIndex i
            = (m.setCV m.getIndex i ioNotes[i].pitch).keys m.getIndex i) ∧
      (∀ i : Nat, ioNotes.length ≤ i → i < 4 →
        (emptyIoNotesSeq m ioNotes).octs m.getIndex i = -1 ∧
          (emptyIoNotesSeq m ioNotes).keys m.getIndex i = 0) ∧
      emptyIoNotesSeq m ioNotes = emptyIoNotesSeq m (ioNotes.take 4) := by
  have hlen : ioNotes.length = 0 ∨ ioNotes.length = 1 ∨ ioNotes.length = 2 ∨
      ioNotes.length = 3 ∨ 4 ≤ ioNotes.length := by omega
  refine ⟨fun i h hi => ?_, fun i h hi => ?_, ?_⟩
  · rcases hlen with h0 | h1 | h2 | h3 | h4
    · omega
    · rw [emptyIoNotesSeq_stop m ioNotes 1 (by omega)]
      obtain rfl : i = 0 := by omega
      simp [forLoop_zero_one, forLoop_one_four, setCV, set2, noteAt, h]
    · rw [emptyIoNotesSeq_stop m ioNotes 2 (by omega)]
      have hi2 : i = 0 ∨ i = 1 := by omega
      rcases hi2 with rfl | rfl <;>
        simp [forLoop_zero_two, forLoop_two_four, setCV, set2, noteAt, h]
    · rw [emptyIoNotesSeq_stop m ioNotes 3 (by omega)]
      have hi2 : i = 0 ∨ i = 1 ∨ i = 2 := by omega
      rcases hi2 with rfl | rfl | rfl <;>
        simp [forLoop_zero_three, forLoop_three_four, setCV, set2, noteAt, h]
    · rw [emptyIoNotesSeq_stop m ioNotes 4 (by omega)]
      have hi2 : i = 0 ∨ i = 1 ∨ i = 2 ∨ i = 3 := by omega
      rcases hi2 with rfl | rfl | rfl | rfl <;>
        simp [forLoop_zero_four, forLoop_empty, setCV, set2, noteAt, h]
  · rcases hlen with h0 | h1 | h2 | h3 | h4
    · rw [emptyIoNotesSeq_stop m ioNotes 0 (by omega)]
      have hi2 : i = 0 ∨ i = 1 ∨ i = 2 ∨ i = 3 := by omega
      rcases hi2 with rfl | rfl | rfl | rfl <;>
        simp [forLoop_zero_four, forLoop_empty, set2]
    · rw [emptyIoNotesSeq_stop m ioNotes 1 (by omega)]
      have hi2 : i = 1 ∨ i = 2 ∨ i = 3 := by omega
      rcases hi2 with rfl | rfl | rfl <;>
        simp [forLoop_zero_one, forLoop_one_four, setCV, set2]
    · rw [emptyIoNotesSeq_stop m ioNotes 2 (by omega)]
      have hi2 : i = 2 ∨ i = 3 := by omega
      rcases hi2 with rfl | rfl <;>
        simp [forLoop_zero_two, forLoop_two_four, setCV, set2]
    · rw [emptyIoNotesSeq_stop m ioNotes 3 (by omega)]
      obtain rfl : i = 3 := by omega
      simp [forLoop_zero_three, forLoop_three_four, setCV, set2]
    · omega
  · rcases Nat.lt_or_ge ioNotes.length 4 with hlt | hge
    · rw [List.take_of_length_le (by omega)]
    · have ht : (ioNotes.take 4).length = 4 := by
        rw [List.length_take]; omega
      rw [emptyIoNotesSeq_stop m ioNotes 4 (by omega),
        emptyIoNotesSeq_stop m (ioNotes.take 4) 4 (by omega)]
      simp only [forLoop_zero_four]
      rw [noteAt_take ioNotes 0 (by decide), noteAt_take ioNotes 1 (by decide),
        noteAt_take ioNotes 2 (by decide), noteAt_take ioNotes 3 (by decide)]

end ChordKey

namespace ChordKey

/-- Witness of C10 on the constructed module: five notes give the same result as
their first four (position 3 holds the fourth pitch, 1 V = octave 5 semitone
0); two notes fill positions 0 and 1 and leave positions 2 and 3 OFF with
semitone 0. -/
theorem emptyIoNotesSeq_spec_witness :
    emptyIoNotesSeq (init false) fiveNotes = emptyIoNotesSeq (init false) (fiveNotes.take 4) ∧
      (emptyIoNotesSeq (init false) fiveNotes).octs 0 3 = 5 ∧
      (emptyIoNotesSeq (init false) fiveNotes).keys 0 3 = 0 ∧
      (emptyIoNotesSeq (init false) twoNotes).octs 0 0 = 4 ∧
      (emptyIoNotesSeq (init false) twoNotes).keys 0 0 = 1 ∧
      (emptyIoNotesSeq (init false) twoNotes).octs 0 1 = 3 ∧
      (emptyIoNotesSeq (init false) twoNotes).keys 0 1 = 0 ∧
      (emptyIoNotesSeq (init false) twoNotes).octs 0 2 = -1 ∧
      (emptyIoNotesSeq (init false) twoNotes).keys 0 2 = 0 ∧
      (emptyIoNotesSeq (init false) twoNotes).octs 0 3 = -1 ∧
      (emptyIoNotesSeq (init false) twoNotes).keys 0 3 = 0 := by
  have h5 := emptyIoNotesSeq_spec (init false) fiveNotes
  have h2 := emptyIoNotesSeq_spec (init false) twoNotes
  rw [init_getIndex] at h5 h2
  have r1 : cvNote 1 = 12 := cvNote_of_int 1 12 (by norm_num) (by decide)
  have r2 : cvNote (1 / 12) = 1 := cvNote_of_int (1 / 12) 1 (by norm_num) (by decide)
  have r3 : cvNote (-1) = -12 := cvNote_of_int (-1) (-12) (by norm_num) (by decide)
  have a3 := h5.1 3 (by decide) (by decide)
  have b0 := h2.1 0 (by decide) (by decide)
  have b1 := h2.1 1 (by decide) (by decide)
  have b2 := h2.2.1 2 (by decide) (by decide)
  have b3 := h2.2.1 3 (by decide) (by decide)
  rw [setCV_octs, setCV_keys] at a3 b0 b1
  have p3 : (fiveNotes[3]).pitch = 1 := rfl
  have q0 : (twoNotes[0]).pitch = 1 / 12 := rfl
  have q1 : (twoNotes[1]).pitch = -1 := rfl
  rw [p3, r1] at a3
  rw [q0, r2] at b0
  rw [q1, r3] at b1
  exact ⟨h5.2.2, a3.1, a3.2, b0.1, b0.2, b1.1, b1.2, b2.1, b2.2, b3.1, b3.2⟩

end ChordKey

/-! ## Sample evaluations on the default slot -/

namespace ChordKey

/-- Witness of C3 on the default slot: position 1 (octave 4, semitone 4) reads
4/12 V, position 3 (OFF) reads 0 V. -/
theorem calcCV_spec_witness :
    (init false).octs 0 1 ≥ 0 ∧ (init false).calcCV 0 1 = 4 / 12 ∧
      (init false).octs 0 3 = -1 ∧ (init false).calcCV 0 3 = 0 := by
  have o1 : (init false).octs 0 1 = 4 := init_octs false 1 (by decide) (by decide)
  have k1 : (init false).keys 0 1 = 4 := init_keys false 1 (by decide) (by decide)
  have o3 : (init false).octs 0 3 = -1 := init_octs false 3 (by decide) (by decide)
  have h1 := (calcCV_spec (init false) 0 1).1 (by rw [o1]; decide)
  have h3 := (calcCV_spec (init false) 0 3).2.1 o3
  rw [o1, k1] at h1
  refine ⟨by rw [o1]; decide, ?_, o3, h3⟩
  rw [h1]
  norm_num

theorem pressD_emit (vel : ℚ) : (pressD vel).keypressEmitGate = 1 := by
  simp [pressD, init, onReset, resetNonJson]

/-- Witness of C8 on the default slot with the gate forced: position 0 emits
10 V, position 3 (OFF) emits 0 V. -/
theorem gateOuts_spec_witness :
    forcedMerge1.params FORCE_PARAM ≥ 1 / 2 ∧ forcedMerge1.octs 0 0 ≥ 0 ∧
      gateOuts forcedMerge1 0 0 = 10 ∧
      forcedMerge1.octs 0 3 < 0 ∧ gateOuts forcedMerge1 0 3 = 0 := by
  have o0 : forcedMerge1.octs 0 0 = 4 := by
    rw [forcedMerge1_octs]; exact init_octs false 0 (by decide) (by decide)
  have o3 : forcedMerge1.octs 0 3 = -1 := by
    rw [forcedMerge1_octs]; exact init_octs false 3 (by decide) (by decide)
  have hf : forcedMerge1.params FORCE_PARAM ≥ 1 / 2 := by
    simp [forcedMerge1]; norm_num
  have h0 := gateOuts_spec forcedMerge1 0
  have h3 := gateOuts_spec forcedMerge1 3
  rw [forcedMerge1_getIndex] at h0 h3
  exact ⟨hf, by rw [o0]; decide, h0.1.mpr ⟨by rw [o0]; decide, Or.inl hf⟩,
    by rw [o3]; decide, h3.2.2 (by rw [o3]; decide)⟩

/-- Witness of C9 on the default slot: a left click held on position 0 gives a
keyboard gate to position 2 as well; a left click held on position 3 (OFF)
gives none. -/
theorem keypressGate_spec_witness :
    keypressGate (pressD (1 / 10)) 0 2 = true ∧ keypressGate (pressD (4 / 5)) 0 0 = false := by
  have o0 : (pressD (1 / 10)).octs 0 0 = 4 := by
    rw [pressD_octs]; exact init_octs false 0 (by decide) (by decide)
  have o3 : (pressD (4 / 5)).octs 0 3 = -1 := by
    rw [pressD_octs]; exact init_octs false 3 (by decide) (by decide)
  have p0 : clamp ⌊(pressD (1 / 10)).pkInfo.vel * 4⌋ 0 3 = 0 := by
    norm_num [pressD, clamp]
  have p3 : clamp ⌊(pressD (4 / 5)).pkInfo.vel * 4⌋ 0 3 = 3 := by
    norm_num [pressD, clamp]
  have ha := keypressGate_spec (pressD (1 / 10)) 2
  have hb := keypressGate_spec (pressD (4 / 5)) 0
  rw [pressD_getIndex, p0] at ha
  rw [pressD_getIndex, p3] at hb
  refine ⟨ha.1.mpr ⟨rfl, ?_, by rw [o0]; decide, ?_⟩, hb.2 (by rw [o3]; decide)⟩
  · rw [pressD_emit]; decide
  · intro h; cases h

end ChordKey

/-! ## Randomize, octave steps, transposition, export and paste -/
namespace ChordKey

/-- One pass of the outer loop of `onRandomize` puts the four notes of the chord
`ci` in range and leaves the other chords alone. -/
theorem randomizeChord_spec (rnd : Nat → Nat) (st : ChordKey × Nat) (ci : Int) :
    (∀ cni : Int, 0 ≤ cni → cni < 4 →
        0 ≤ (randomizeChord rnd st ci).1.octs ci cni ∧ (randomizeChord rnd st ci).1.octs ci cni ≤ 9 ∧
        0 ≤ (randomizeChord rnd st ci).1.keys ci cni ∧
        (randomizeChord rnd st ci).1.keys ci cni ≤ 11) ∧
      (∀ a b : Int, a ≠ ci →
        (randomizeChord rnd st ci).1.octs a b = st.1.octs a b ∧
        (randomizeChord rnd st ci).1.keys a b = st.1.keys a b) := by
  unfold randomizeChord
  rw [forLoop_zero_four]
  constructor
  · intro cni h0 h4
    have hc : cni = 0 ∨ cni = 1 ∨ cni = 2 ∨ cni = 3 := by omega
    rcases hc with rfl | rfl | rfl | rfl <;>
      · simp only [randomizeNote, set2]
        simp
        omega
  · intro a b hab
    simp [randomizeNote, set2, hab]

theorem randomizeLoop_inRange (rnd : Nat → Nat) (m : ChordKey) (n : Nat) (ci cni : Int)
    (h1 : 0 ≤ ci) (h2 : ci < n) (h3 : 0 ≤ cni) (h4 : cni < 4) :
    0 ≤ (forLoop 0 n (randomizeChord rnd) (m, 0)).1.octs ci cni ∧
      (forLoop 0 n (randomizeChord rnd) (m, 0)).1.octs ci cni ≤ 9 ∧
      0 ≤ (forLoop 0 n (randomizeChord rnd) (m, 0)).1.keys ci cni ∧
      (forLoop 0 n (randomizeChord rnd) (m, 0)).1.keys ci cni ≤ 11 := by
  induction n with
  | zero => simp at h2; omega
  | succ k ih =>
    rw [forLoop_zero_succ]
    have hs := randomizeChord_spec rnd (forLoop 0 k (randomizeChord rnd) (m, 0)) (k : Int)
    by_cases hck : ci = (k : Int)
    · subst hck
      exact hs.1 cni h3 h4
    · have hu := hs.2 ci cni hck
      rw [hu.1, hu.2]
      apply ih
      push_cast at h2
      omega

/-- C20. Randomize. For every sequence of 32-bit values drawn, after
`onRandomize` every position of all 25 slots has its octave in [0, 9] and its
semitone in [0, 11]; no position is OFF. -/
theorem onRandomize_inRange (m : ChordKey) (rnd : Nat → Nat) (ci cni : Int)
    (h1 : 0 ≤ ci) (h2 : ci < 25) (h3 : 0 ≤ cni) (h4 : cni < 4) :
    0 ≤ (onRandomize m rnd).octs ci cni ∧ (onRandomize m rnd).octs ci cni ≤ 9 ∧
      0 ≤ (onRandomize m rnd).keys ci cni ∧ (onRandomize m rnd).keys ci cni ≤ 11 ∧
      (onRandomize m rnd).octs ci cni ≠ -1 := by
  have h := randomizeLoop_inRange rnd m 25 ci cni h1 (by simpa using h2) h3 h4
  unfold onRandomize
  exact ⟨h.1, h.2.1, h.2.2.1, h.2.2.2, by omega⟩

/-- Witness of C20 at the last position of the last slot, for the sequence of
draws 4294967295, 4294967294, ... -/
theorem onRandomize_inRange_witness :
    (0 : Int) ≤ 24 ∧ (24 : Int) < 25 ∧ (0 : Int) ≤ 3 ∧ (3 : Int) < 4 ∧
      0 ≤ (onRandomize (init false) (fun k => 4294967295 - k)).octs 24 3 ∧
      (onRandomize (init false) (fun k => 4294967295 - k)).octs 24 3 ≤ 9 ∧
      0 ≤ (onRandomize (init false) (fun k => 4294967295 - k)).keys 24 3 ∧
      (onRandomize (init false) (fun k => 4294967295 - k)).keys 24 3 ≤ 11 ∧
      (onRandomize (init false) (fun k => 4294967295 - k)).octs 24 3 ≠ -1 :=
  ⟨by decide, by decide, by decide, by decide,
    onRandomize_inRange (init false) (fun k => 4294967295 - k) 24 3
      (by decide) (by decide) (by decide) (by decide)⟩

end ChordKey

namespace ChordKey

theorem ite_applyDelta_octs (st : ChordKey) (index c delta a b : Int) :
    (if st.octs index c ≥ 0 then st.applyDelta index c delta else st).octs a b =
      if (a = index ∧ b = c) ∧ 0 ≤ st.octs index c then
        clamp (st.octs index c + (st.keys index c + delta) / 12) 0 9
      else st.octs a b := by
  by_cases h : 0 ≤ st.octs index c
  · by_cases hab : a = index ∧ b = c
    · obtain ⟨rfl, rfl⟩ := hab
      simp [h, applyDelta_octs]
    · simp [h, hab, applyDelta, set2]
  · simp [h]

theorem ite_applyDelta_keys (st : ChordKey) (index c delta a b : Int) :
    (if st.octs index c ≥ 0 then st.applyDelta index c delta else st).keys a b =
      if (a = index ∧ b = c) ∧ 0 ≤ st.octs index c then (st.keys index c + delta) % 12
      else st.keys a b := by
  by_cases h : 0 ≤ st.octs index c
  · by_cases hab : a = index ∧ b = c
    · obtain ⟨rfl, rfl⟩ := hab
      simp [h, applyDelta_keys]
    · simp [h, hab, applyDelta, set2]
  · simp [h]

theorem transposeNotes_spec (m : ChordKey) (index delta : Int) :
    TransposedBy m (transposeNotes m index delta) index delta := by
  obtain ⟨B, hB⟩ : ∃ B : ChordKey → Int → ChordKey, B = fun st cni =>
      if st.octs index cni ≥ 0 then st.applyDelta index cni delta else st := ⟨_, rfl⟩
  have hBo : ∀ (st : ChordKey) (c a b : Int), (B st c).octs a b =
      if (a = index ∧ b = c) ∧ 0 ≤ st.octs index c then
        clamp (st.octs index c + (st.keys index c + delta) / 12) 0 9
      else st.octs a b := by
    intro st c a b; subst hB; exact ite_applyDelta_octs st index c delta a b
  have hBk : ∀ (st : ChordKey) (c a b : Int), (B st c).keys a b =
      if (a = index ∧ b = c) ∧ 0 ≤ st.octs index c then (st.keys index c + delta) % 12
      else st.keys a b := by
    intro st c a b; subst hB; exact ite_applyDelta_keys st index c delta a b
  have hT : transposeNotes m index delta = B (B (B (B m 0) 1) 2) 3 := by
    subst hB; rfl
  rw [hT]
  refine ⟨fun p h0 h4 ho => ?_, fun p ho => ?_, fun ci cni hne => ?_⟩
  · have hc : p = 0 ∨ p = 1 ∨ p = 2 ∨ p = 3 := by omega
    have hb := clamp_bounds (m.octs index p + (m.keys index p + delta) / 12) 0 9 (by decide)
    rw [applyDelta_octs, applyDelta_keys]
    rcases hc with rfl | rfl | rfl | rfl <;>
      simp [hBo, hBk, ho, hb.1]
  · have hn : ¬ (0 ≤ m.octs index p) := by omega
    by_cases h0 : p = 0
    · subst h0; simp [hBo, hBk, hn]
    · by_cases h1 : p = 1
      · subst h1; simp [hBo, hBk, hn]
      · by_cases h2 : p = 2
        · subst h2; simp [hBo, hBk, hn]
        · by_cases h3 : p = 3
          · subst h3; simp [hBo, hBk, hn]
          · simp [hBo, hBk, h0, h1, h2, h3]
  · simp [hBo, hBk, hne]

end ChordKey

namespace ChordKey

theorem octIncDecStep_octs (t : Refresh) (index : Int) (st : ChordKey) (c a b : Int) :
    (octIncDecStep t index st c).octs a b =
      if a = index ∧ b = c then
        (if t.octDec c then
          clamp ((if t.octInc c then clamp (st.octs index c + 1) (-1) 9 else st.octs index c) - 1)
            (-1) 9
        else (if t.octInc c then clamp (st.octs index c + 1) (-1) 9 else st.octs index c))
      else st.octs a b := by
  unfold octIncDecStep
  by_cases hab : a = index ∧ b = c
  · obtain ⟨rfl, rfl⟩ := hab
    by_cases hi : t.octInc b = true <;> by_cases hd : t.octDec b = true <;> simp [hi, hd, set2]
  · by_cases hi : t.octInc c = true <;> by_cases hd : t.octDec c = true <;>
      simp [hi, hd, set2, hab]

theorem octIncDecStep_keys (t : Refresh) (index : Int) (st : ChordKey) (c : Int) :
    (octIncDecStep t index st c).keys = st.keys := by
  unfold octIncDecStep
  split_ifs <;> rfl

theorem octIncDec_keys (m : ChordKey) (t : Refresh) (index : Int) :
    (octIncDec m t index).keys = m.keys :=
  forLoop_preserves (fun s : ChordKey => s.keys) 0 4 _ (octIncDecStep_keys t index) m

/-- The octave of a chord note of the active slot after the section
"oct inc/dec". -/
theorem octIncDec_octs (m : ChordKey) (t : Refresh) (index p : Int) (h0 : 0 ≤ p) (h4 : p < 4) :
    (octIncDec m t index).octs index p =
      (if t.octDec p then
        clamp ((if t.octInc p then clamp (m.octs index p + 1) (-1) 9 else m.octs index p) - 1)
          (-1) 9
      else (if t.octInc p then clamp (m.octs index p + 1) (-1) 9 else m.octs index p)) := by
  unfold octIncDec
  rw [forLoop_zero_four]
  have hc : p = 0 ∨ p = 1 ∨ p = 2 ∨ p = 3 := by omega
  rcases hc with rfl | rfl | rfl | rfl <;> simp [octIncDecStep_octs]

theorem pianoKeys_octs (m : ChordKey) (args : ProcessArgs) (t : Refresh) (index : Int) :
    (pianoKeys m args t index).octs = m.octs := by
  unfold pianoKeys keyTriggerProcess
  simp only
  split_ifs <;> rfl

end ChordKey

namespace ChordKey

/-- C15 (as amended). Octave step. In a control tick the octave-increment edge
of position `p` is applied first and the octave-decrement edge second, each
clamping to [-1, 9]: the octave of position `p` of the active slot becomes
`clamp(octave + 1, -1, 9)` when only the increment fires, `clamp(octave - 1, -1, 9)`
when only the decrement fires, `clamp(clamp(octave + 1, -1, 9) - 1, -1, 9)`
when both fire, and is unchanged when none fires. With one edge alone,
decrementing octave 0 turns the position OFF, decrementing OFF leaves it OFF,
incrementing OFF gives octave 0 and incrementing octave 9 leaves it at 9; with
both edges octave 9 becomes 8. The section changes no semitone, and when no
transpose button fires the octaves at the end of the control phase are those the
section left. -/
theorem octIncDec_step (m : ChordKey) (args : ProcessArgs) (t : Refresh) (p : Int)
    (h0 : 0 ≤ p) (h4 : p < 4) :
    (octIncDec m t m.getIndex).octs m.getIndex p =
        (if t.octDec p then
          clamp ((if t.octInc p then clamp (m.octs m.getIndex p + 1) (-1) 9
            else m.octs m.getIndex p) - 1) (-1) 9
        else (if t.octInc p then clamp (m.octs m.getIndex p + 1) (-1) 9
          else m.octs m.getIndex p)) ∧
      (t.octInc p = true → t.octDec p = false →
        (octIncDec m t m.getIndex).octs m.getIndex p = clamp (m.octs m.getIndex p + 1) (-1) 9) ∧
      (t.octInc p = false → t.octDec p = true →
        (octIncDec m t m.getIndex).octs m.getIndex p = clamp (m.octs m.getIndex p - 1) (-1) 9) ∧
      (t.octInc p = true → t.octDec p = true →
        (octIncDec m t m.getIndex).octs m.getIndex p
          = clamp (clamp (m.octs m.getIndex p + 1) (-1) 9 - 1) (-1) 9) ∧
      (t.octInc p = false → t.octDec p = false →
        (octIncDec m t m.getIndex).octs m.getIndex p = m.octs m.getIndex p) ∧
      (t.octInc p = false → t.octDec p = true → m.octs m.getIndex p = 0 →
        (octIncDec m t m.getIndex).octs m.getIndex p = -1) ∧
      (t.octInc p = false → t.octDec p = true → m.octs m.getIndex p = -1 →
        (octIncDec m t m.getIndex).octs m.getIndex p = -1) ∧
      (t.octInc p = true → t.octDec p = false → m.octs m.getIndex p = -1 →
        (octIncDec m t m.getIndex).octs m.getIndex p = 0) ∧
      (t.octInc p = true → t.octDec p = false → m.octs m.getIndex p = 9 →
        (octIncDec m t m.getIndex).octs m.getIndex p = 9) ∧
      (t.octInc p = true → t.octDec p = true → m.octs m.getIndex p = 9 →
        (octIncDec m t m.getIndex).octs m.getIndex p = 8) ∧
      (octIncDec m t m.getIndex).keys = m.keys ∧
      (t.transposeUp = false → t.transposeDown = false →
        (controlPhase m args t m.getIndex).octs = (octIncDec m t m.getIndex).octs) := by
  have h := octIncDec_octs m t m.getIndex p h0 h4
  refine ⟨h, fun hi hd => ?_, fun hi hd => ?_, fun hi hd => ?_, fun hi hd => ?_,
    fun hi hd ho => ?_, fun hi hd ho => ?_, fun hi hd ho => ?_, fun hi hd ho => ?_,
    fun hi hd ho => ?_, octIncDec_keys m t m.getIndex, fun hu hd => ?_⟩
  · rw [h]; simp [hi, hd]
  · rw [h]; simp [hi, hd]
  · rw [h]; simp [hi, hd]
  · rw [h]; simp [hi, hd]
  · rw [h, ho]; simp [hi, hd]; decide
  · rw [h, ho]; simp [hi, hd]; decide
  · rw [h, ho]; simp [hi, hd]; decide
  · rw [h, ho]; simp [hi, hd]; decide
  · rw [h, ho]; simp [hi, hd]; decide
  · unfold controlPhase
    rw [topOutputChannels_octs, pianoKeys_octs]
    simp [transposeButtons, hu, hd]

theorem topOctave_getIndex : topOctave.getIndex = 0 := by
  have h := init_getIndex false
  simpa [getIndex, topOctave] using h

theorem topOctave_octs : topOctave.octs 0 0 = 9 := by
  simp [topOctave, set2]

/-- Counterexample to C15 as stated: when both octave buttons of position 0 fire
in the same tick, octave 4 stays 4, which is neither `clamp(4 + 1, -1, 9)` nor
`clamp(4 - 1, -1, 9)`, and octave 9 becomes 8 although the increment fired. -/
theorem octIncDec_bothEdges :
    bothTick.octInc 0 = true ∧ bothTick.octDec 0 = true ∧
      (init false).octs (init false).getIndex 0 = 4 ∧
      (octIncDec (init false) bothTick (init false).getIndex).octs (init false).getIndex 0 = 4 ∧
      (octIncDec (init false) bothTick (init false).getIndex).octs (init false).getIndex 0
        ≠ clamp ((init false).octs (init false).getIndex 0 + 1) (-1) 9 ∧
      (octIncDec (init false) bothTick (init false).getIndex).octs (init false).getIndex 0
        ≠ clamp ((init false).octs (init false).getIndex 0 - 1) (-1) 9 ∧
      topOctave.octs topOctave.getIndex 0 = 9 ∧
      (octIncDec topOctave bothTick topOctave.getIndex).octs topOctave.getIndex 0 = 8 ∧
      (controlPhase topOctave ⟨44100⟩ bothTick topOctave.getIndex).octs topOctave.getIndex 0
        = 8 := by
  have o0 : (init false).octs 0 0 = 4 := init_octs false 0 (by decide) (by decide)
  have h := octIncDec_octs topOctave bothTick 0 0 (by decide) (by decide)
  rw [topOctave_octs] at h
  have h8 : (octIncDec topOctave bothTick 0).octs 0 0 = 8 := by
    rw [h]; simp [bothTick]; decide
  have g := octIncDec_octs (init false) bothTick 0 0 (by decide) (by decide)
  rw [o0] at g
  have g4 : (octIncDec (init false) bothTick 0).octs 0 0 = 4 := by
    rw [g]; simp [bothTick]; decide
  have hc : (controlPhase topOctave ⟨44100⟩ bothTick 0).octs
      = (octIncDec topOctave bothTick 0).octs := by
    unfold controlPhase
    rw [topOutputChannels_octs, pianoKeys_octs]
    simp [transposeButtons, bothTick]
  rw [topOctave_getIndex, topOctave_octs, init_getIndex, o0]
  refine ⟨rfl, rfl, rfl, g4, ?_, ?_, rfl, h8, ?_⟩
  · rw [g4]; decide
  · rw [g4]; decide
  · rw [hc, h8]

/-- Witness of C15 (as amended) on the default slot: the octave-up button turns
position 3 (OFF) into octave 0, the octave-down button takes position 0 from
octave 4 to octave 3, and both buttons together take octave 9 to octave 8. -/
theorem octIncDec_step_witness :
    (octaveTick.octInc 3 = true ∧ octaveTick.octDec 3 = false ∧ (init false).octs 0 3 = -1 ∧
        (octIncDec (init false) octaveTick 0).octs 0 3 = 0) ∧
      (octaveTick.octInc 0 = false ∧ octaveTick.octDec 0 = true ∧ (init false).octs 0 0 = 4 ∧
        (octIncDec (init false) octaveTick 0).octs 0 0 = 3) ∧
      (bothTick.octInc 0 = true ∧ bothTick.octDec 0 = true ∧ topOctave.octs 0 0 = 9 ∧
        (octIncDec topOctave bothTick 0).octs 0 0 = 8) := by
  have o0 : (init false).octs 0 0 = 4 := init_octs false 0 (by decide) (by decide)
  have o3 : (init false).octs 0 3 = -1 := init_octs false 3 (by decide) (by decide)
  have h3 := octIncDec_step (init false) ⟨44100⟩ octaveTick 3 (by decide) (by decide)
  have h0 := octIncDec_step (init false) ⟨44100⟩ octaveTick 0 (by decide) (by decide)
  have hb := octIncDec_step topOctave ⟨44100⟩ bothTick 0 (by decide) (by decide)
  rw [init_getIndex] at h3 h0
  rw [topOctave_getIndex] at hb
  have a := h3.2.2.2.2.2.2.2.1 rfl rfl o3
  have b := h0.2.2.1 rfl rfl
  have c := hb.2.2.2.2.2.2.2.2.2.1 rfl rfl topOctave_octs
  rw [o0] at b
  exact ⟨⟨rfl, rfl, o3, a⟩, ⟨rfl, rfl, o0, b⟩, ⟨rfl, rfl, topOctave_octs, c⟩⟩

end ChordKey

namespace ChordKey

/-- C16. Transpose touches only non-OFF positions. A transpose-up or
transpose-down edge (delta +1, or -1 when the down button fires) and the menu
transpose slider (delta = the change of the rounded slider value) apply
`applyDelta` to every non-OFF position of the active slot, which stays
non-OFF, leave the octave and semitone of every OFF position unchanged, and
change no other slot; with no edge, or a slider move that rounds to the same
value, nothing changes. -/
theorem transpose_onlyNonOff (m : ChordKey) (t : Refresh) (q : TransposeQuantity) (value : ℚ) :
    ((t.transposeUp = true ∨ t.transposeDown = true) →
        TransposedBy m (transposeButtons m t m.getIndex) m.getIndex
          (if t.transposeDown then -1 else 1)) ∧
      (t.transposeUp = false → t.transposeDown = false → transposeButtons m t m.getIndex = m) ∧
      (cRound (clampF value (-60) 60) - q.valueIntLocalLast ≠ 0 →
        TransposedBy m (q.setValue m value).2 m.getIndex
          (cRound (clampF value (-60) 60) - q.valueIntLocalLast)) ∧
      (cRound (clampF value (-60) 60) - q.valueIntLocalLast = 0 → (q.setValue m value).2 = m) := by
  refine ⟨fun h => ?_, fun hu hd => ?_, fun h => ?_, fun h => ?_⟩
  · have hT : transposeButtons m t m.getIndex
        = transposeNotes m m.getIndex (if t.transposeDown then -1 else 1) := by
      by_cases hd : t.transposeDown = true
      · simp [transposeButtons, transposeNotes, hd]
      · have hu : t.transposeUp = true := by
          rcases h with h | h
          · exact h
          · exact absurd h hd
        simp [transposeButtons, transposeNotes, hd, hu]
    rw [hT]
    exact transposeNotes_spec m m.getIndex _
  · simp [transposeButtons, hu, hd]
  · have hS : (q.setValue m value).2
        = transposeNotes m m.getIndex (cRound (clampF value (-60) 60) - q.valueIntLocalLast) := by
      simp [TransposeQuantity.setValue, h]
    rw [hS]
    exact transposeNotes_spec m m.getIndex _
  · simp [TransposeQuantity.setValue, h]

/-- Witness of C16 on the default slot: transpose up takes position 1 from E4 to
F4 (semitone 5) and leaves position 3 OFF with semitone 0. -/
theorem transpose_onlyNonOff_witness :
    (transposeUpTick.transposeUp = true ∨ transposeUpTick.transposeDown = true) ∧
      (transposeButtons (init false) transposeUpTick 0).octs 0 1 = 4 ∧
      (transposeButtons (init false) transposeUpTick 0).keys 0 1 = 5 ∧
      (transposeButtons (init false) transposeUpTick 0).octs 0 3 = -1 ∧
      (transposeButtons (init false) transposeUpTick 0).keys 0 3 = 0 := by
  have o1 : (init false).octs 0 1 = 4 := init_octs false 1 (by decide) (by decide)
  have k1 : (init false).keys 0 1 = 4 := init_keys false 1 (by decide) (by decide)
  have o3 : (init false).octs 0 3 = -1 := init_octs false 3 (by decide) (by decide)
  have k3 : (init false).keys 0 3 = 0 := init_keys false 3 (by decide) (by decide)
  have h := (transpose_onlyNonOff (init false) transposeUpTick ⟨0, 0, 0⟩ 0).1 (Or.inl rfl)
  rw [init_getIndex] at h
  have a := h.1 1 (by decide) (by decide) (by rw [o1]; decide)
  have b := h.2.1 3 (by rw [o3]; decide)
  rw [applyDelta_octs, applyDelta_keys, o1, k1] at a
  rw [o3, k3] at b
  exact ⟨Or.inl rfl, a.1, a.2.1, b.1, b.2⟩

end ChordKey

namespace ChordKey

/-- C17. Export as chord. `fillIoNotes` returns exactly one note per non-OFF
position of the active slot, in increasing position order, each with start 0,
length 0.5 and pitch `calcCV(activeSlot, position)` (velocity and probability
-1); OFF positions contribute no note, so the length stored through
`seqLenPtr` is the number of non-OFF positions and is at most 4. -/
theorem fillIoNotes_spec (m : ChordKey) :
    (fillIoNotes m).1 =
        (([0, 1, 2, 3] : List Int).filter (fun i => decide (m.octs m.getIndex i ≥ 0))).map
          (fun i => { start := 0, length := 1 / 2, pitch := m.calcCV m.getIndex i,
                      vel := -1, prob := -1 }) ∧
      (fillIoNotes m).2 = ((fillIoNotes m).1.length : Int) ∧
      (fillIoNotes m).1.length
        = (([0, 1, 2, 3] : List Int).filter (fun i => decide (m.octs m.getIndex i ≥ 0))).length ∧
      (fillIoNotes m).1.length ≤ 4 := by
  unfold fillIoNotes
  rw [forLoop_zero_four]
  by_cases h0 : m.octs m.getIndex 0 ≥ 0 <;> by_cases h1 : m.octs m.getIndex 1 ≥ 0 <;>
    by_cases h2 : m.octs m.getIndex 2 ≥ 0 <;> by_cases h3 : m.octs m.getIndex 3 ≥ 0 <;>
    simp [fillNote, h0, h1, h2, h3, List.filter]

/-- Witness of C17 on the default slot: three notes, of pitches 0, 4/12 and 7/12 V. -/
theorem fillIoNotes_spec_witness :
    (fillIoNotes (init false)).2 = 3 ∧
      (fillIoNotes (init false)).1 =
        [{ start := 0, length := 1 / 2, pitch := 0, vel := -1, prob := -1 },
         { start := 0, length := 1 / 2, pitch := 4 / 12, vel := -1, prob := -1 },
         { start := 0, length := 1 / 2, pitch := 7 / 12, vel := -1, prob := -1 }] := by
  have o0 : (init false).octs 0 0 = 4 := init_octs false 0 (by decide) (by decide)
  have o1 : (init false).octs 0 1 = 4 := init_octs false 1 (by decide) (by decide)
  have o2 : (init false).octs 0 2 = 4 := init_octs false 2 (by decide) (by decide)
  have o3 : (init false).octs 0 3 = -1 := init_octs false 3 (by decide) (by decide)
  have k0 : (init false).keys 0 0 = 0 := init_keys false 0 (by decide) (by decide)
  have k1 : (init false).keys 0 1 = 4 := init_keys false 1 (by decide) (by decide)
  have k2 : (init false).keys 0 2 = 7 := init_keys false 2 (by decide) (by decide)
  have h := fillIoNotes_spec (init false)
  rw [init_getIndex] at h
  have hl : (fillIoNotes (init false)).1 =
      [{ start := 0, length := 1 / 2, pitch := 0, vel := -1, prob := -1 },
       { start := 0, length := 1 / 2, pitch := 4 / 12, vel := -1, prob := -1 },
       { start := 0, length := 1 / 2, pitch := 7 / 12, vel := -1, prob := -1 }] := by
    rw [h.1]
    simp [List.filter, o0, o1, o2, o3, calcCV, k0, k1, k2]
  refine ⟨?_, hl⟩
  rw [h.2.1, hl]
  rfl

end ChordKey

namespace ChordKey

theorem slotOnly_refl (index : Int) (a : ChordKey) : SlotOnly index a a :=
  ⟨NotesOnly.refl a, fun _ _ _ => ⟨rfl, rfl⟩⟩

theorem slotOnly_trans (index : Int) (a b c : ChordKey) (h1 : SlotOnly index a b)
    (h2 : SlotOnly index b c) : SlotOnly index a c :=
  ⟨NotesOnly.trans a b c h1.1 h2.1, fun ci cni h =>
    ⟨(h2.2 ci cni h).1.trans (h1.2 ci cni h).1, (h2.2 ci cni h).2.trans (h1.2 ci cni h).2⟩⟩

theorem setCV_slotOnly (m : ChordKey) (index cni : Int) (cv : ℚ) :
    SlotOnly index m (m.setCV index cni cv) := by
  refine ⟨setCV_notesOnly m index cni cv, fun ci c h => ?_⟩
  simp [setCV, set2, h]

theorem clearNote_slotOnly (index : Int) (m : ChordKey) (j : Int) :
    SlotOnly index m (clearNote index m j) := by
  refine ⟨⟨rfl, rfl, rfl, rfl, rfl, rfl, rfl, rfl, rfl, rfl, rfl, rfl, rfl, rfl, rfl⟩,
    fun ci c h => ?_⟩
  simp [clearNote, set2, h]

theorem emptyIoNotesSeq_slotOnly (m : ChordKey) (ioNotes : List IoNote) :
    SlotOnly m.getIndex m (emptyIoNotesSeq m ioNotes) := by
  unfold emptyIoNotesSeq
  exact slotOnly_trans _ _ _ _
    (forLoop_rel (SlotOnly m.getIndex) (slotOnly_refl _) (slotOnly_trans _) 0 _ _
      (fun s i => setCV_slotOnly s m.getIndex i _) m)
    (forLoop_rel (SlotOnly m.getIndex) (slotOnly_refl _) (slotOnly_trans _) _ 4 _
      (fun s i => clearNote_slotOnly m.getIndex s i) _)

theorem chordNote_slotOnly (ioNotes : List IoNote) (index : Int) (firstTime : ℚ)
    (st : ChordKey × Int) (i : Int) :
    SlotOnly index st.1 (chordNote ioNotes index firstTime st i).1 := by
  unfold chordNote
  split_ifs
  · exact setCV_slotOnly st.1 index st.2 _
  · exact slotOnly_refl index st.1

theorem emptyIoNotesChord_slotOnly (m : ChordKey) (ioNotes : List IoNote) :
    SlotOnly m.getIndex m (emptyIoNotesChord m ioNotes) := by
  unfold emptyIoNotesChord
  simp only
  have h1 : ∀ (k : Nat) (ft : ℚ), SlotOnly m.getIndex m
      (forLoop 0 k (chordNote ioNotes m.getIndex ft) (m, 0)).1 := by
    intro k ft
    exact forLoop_rel (fun a b : ChordKey × Int => SlotOnly m.getIndex a.1 b.1)
      (fun s => slotOnly_refl _ s.1) (fun a b c => slotOnly_trans _ a.1 b.1 c.1) 0 k _
      (fun s i => chordNote_slotOnly ioNotes m.getIndex ft s i) (m, 0)
  split_ifs
  · exact slotOnly_trans _ _ _ _ (h1 _ _)
      (forLoop_rel (SlotOnly m.getIndex) (slotOnly_refl _) (slotOnly_trans _) _ 4 _
        (fun s i => clearNote_slotOnly m.getIndex s i) _)
  · exact forLoop_rel (SlotOnly m.getIndex) (slotOnly_refl _) (slotOnly_trans _) _ 4 _
      (fun s i => clearNote_slotOnly m.getIndex s i) _

theorem autostep_spec (x : ChordKey) :
    (autostep x).params INDEX_PARAM
        = (if x.autostepPaste ≠ 0 then clampF (x.params INDEX_PARAM + 1) 0 24
            else x.params INDEX_PARAM) ∧
      (autostep x).octs = x.octs ∧ (autostep x).keys = x.keys := by
  unfold autostep
  split_ifs <;> simp [setParam]

end ChordKey

namespace ChordKey

/-- C18. Autostep after paste. After an interop paste (sequence or chord) that
delivered notes, the index-knob value is `clamp(old value + 1, 0, 24)` when
`autostepPaste` is set (at 24 it stays 24) and is unchanged otherwise; the
notes are those `emptyIoNotesSeq` / `emptyIoNotesChord` write for the state
before the advance, so only the slot that was active then is written. A paste
that delivers nothing changes nothing. -/
theorem interopPaste_autostep (m : ChordKey) (ioNotes : List IoNote) :
    ((interopPasteSeq m (some ioNotes)).params INDEX_PARAM
        = (if m.autostepPaste ≠ 0 then clampF (m.params INDEX_PARAM + 1) 0 24
            else m.params INDEX_PARAM) ∧
      (interopPasteSeq m (some ioNotes)).octs = (emptyIoNotesSeq m ioNotes).octs ∧
      (interopPasteSeq m (some ioNotes)).keys = (emptyIoNotesSeq m ioNotes).keys ∧
      SlotOnly m.getIndex m (emptyIoNotesSeq m ioNotes)) ∧
    ((interopPasteChord m (some ioNotes)).params INDEX_PARAM
        = (if m.autostepPaste ≠ 0 then clampF (m.params INDEX_PARAM + 1) 0 24
            else m.params INDEX_PARAM) ∧
      (interopPasteChord m (some ioNotes)).octs = (emptyIoNotesChord m ioNotes).octs ∧
      (interopPasteChord m (some ioNotes)).keys = (emptyIoNotesChord m ioNotes).keys ∧
      SlotOnly m.getIndex m (emptyIoNotesChord m ioNotes)) ∧
    (m.autostepPaste ≠ 0 → m.params INDEX_PARAM = 24 →
      (interopPasteSeq m (some ioNotes)).params INDEX_PARAM = 24 ∧
      (interopPasteChord m (some ioNotes)).params INDEX_PARAM = 24) ∧
    interopPasteSeq m none = m ∧ interopPasteChord m none = m := by
  have hs := emptyIoNotesSeq_slotOnly m ioNotes
  have hc := emptyIoNotesChord_slotOnly m ioNotes
  have as := autostep_spec (emptyIoNotesSeq m ioNotes)
  have ac := autostep_spec (emptyIoNotesChord m ioNotes)
  rw [hs.1.autostepPaste, hs.1.params] at as
  rw [hc.1.autostepPaste, hc.1.params] at ac
  refine ⟨⟨as.1, as.2.1, as.2.2, hs⟩, ⟨ac.1, ac.2.1, ac.2.2, hc⟩, fun ha hp => ?_, rfl, rfl⟩
  have h25 : clampF ((24 : ℚ) + 1) 0 24 = 24 := by norm_num [clampF]
  constructor
  · show (autostep (emptyIoNotesSeq m ioNotes)).params INDEX_PARAM = 24
    rw [as.1, if_pos ha, hp, h25]
  · show (autostep (emptyIoNotesChord m ioNotes)).params INDEX_PARAM = 24
    rw [ac.1, if_pos ha, hp, h25]

theorem lastSlotAutostep_getIndex : lastSlotAutostep.getIndex = 24 := by
  have hi : (init false).inputs = blank.inputs := onReset_inputs blank
  have hv : (lastSlotAutostep.inputs INDEX_INPUT).voltages 0 = 0 := by
    show ((init false).inputs INDEX_INPUT).voltages 0 = 0
    rw [hi]; rfl
  have hp : lastSlotAutostep.params INDEX_PARAM = ((24 : Int) : ℚ) := by
    simp [lastSlotAutostep]
  have h := getIndex_of_knob lastSlotAutostep 24 hv hp (by decide)
  rw [h]
  decide

/-- Witness of C18: with autostep on and the knob on the last slot, both pastes
leave the knob at 24, and the paste wrote slot 24, not slot 0. -/
theorem interopPaste_autostep_witness :
    lastSlotAutostep.autostepPaste ≠ 0 ∧ lastSlotAutostep.params INDEX_PARAM = 24 ∧
      (interopPasteSeq lastSlotAutostep (some twoNotes)).params INDEX_PARAM = 24 ∧
      (interopPasteChord lastSlotAutostep (some twoNotes)).params INDEX_PARAM = 24 ∧
      (interopPasteSeq lastSlotAutostep (some twoNotes)).octs 0 0 = lastSlotAutostep.octs 0 0 := by
  have h := interopPaste_autostep lastSlotAutostep twoNotes
  have ha : lastSlotAutostep.autostepPaste ≠ 0 := by
    show (1 : Int) ≠ 0
    decide
  have hp : lastSlotAutostep.params INDEX_PARAM = 24 := by
    simp [lastSlotAutostep]
  have h24 := h.2.2.1 ha hp
  have hslot := h.1.2.2.2.2 0 0 (by rw [lastSlotAutostep_getIndex]; decide)
  refine ⟨ha, hp, h24.1, h24.2, ?_⟩
  rw [h.1.2.1]
  exact hslot.1

end ChordKey

namespace ChordKey

theorem chordNote_eq (ioNotes : List IoNote) (index : Int) (ft : ℚ) :
    chordNote ioNotes index ft = fun st i => chordStep index ft st (noteAt ioNotes i) :=
  rfl

theorem forLoop_noteAt {σ : Type} (f : σ → IoNote → σ) (l : List IoNote) (k : Nat)
    (hk : k ≤ l.length) (s : σ) :
    forLoop 0 k (fun st i => f st (noteAt l i)) s = (l.take k).foldl f s := by
  induction k with
  | zero => simp [forLoop]
  | succ n ih =>
    have hn : n < l.length := by omega
    rw [forLoop_zero_succ, ih (by omega), noteAt_natCast l n hn, List.take_succ,
      List.foldl_append]
    simp [List.getElem?_eq_getElem hn]

/-- What folding the chord step over a list of notes leaves: the write head
advanced by the number of selected notes, the positions below the old head
untouched, the selected notes encoded from the old head on. -/
theorem chordFold_spec (index : Int) (ft : ℚ) (l : List IoNote) (st : ChordKey × Int) :
    (l.foldl (chordStep index ft) st).2
        = st.2 + ((l.filter (fun n => decide (n.start = ft))).length : Int) ∧
      (∀ q : Int, q < st.2 →
        (l.foldl (chordStep index ft) st).1.octs index q = st.1.octs index q ∧
        (l.foldl (chordStep index ft) st).1.keys index q = st.1.keys index q) ∧
      (∀ (t : Nat) (h : t < (l.filter (fun n => decide (n.start = ft))).length),
        (l.foldl (chordStep index ft) st).1.octs index (st.2 + t)
          = clamp (cvNote ((l.filter (fun n => decide (n.start = ft)))[t].pitch) / 12 + 4) 0 9 ∧
        (l.foldl (chordStep index ft) st).1.keys index (st.2 + t)
          = cvNote ((l.filter (fun n => decide (n.start = ft)))[t].pitch) % 12) := by
  induction l generalizing st with
  | nil =>
    refine ⟨by simp, fun q _ => ⟨rfl, rfl⟩, fun t h => ?_⟩
    simp at h
  | cons n rest ih =>
    by_cases hn : n.start = ft
    · have hstep : chordStep index ft st n = (st.1.setCV index st.2 n.pitch, st.2 + 1) := by
        simp [chordStep, hn]
      obtain ⟨i1, i2, i3⟩ := ih (st.1.setCV index st.2 n.pitch, st.2 + 1)
      simp only [List.foldl_cons, hstep, List.filter_cons, hn, decide_True, if_true,
        List.length_cons]
      refine ⟨?_, fun q hq => ?_, fun t h => ?_⟩
      · rw [i1]; push_cast; ring
      · have h2 := i2 q (by show q < st.2 + 1; omega)
        have hne : q ≠ st.2 := by omega
        rw [h2.1, h2.2]
        simp [setCV, set2, hne]
      · cases t with
        | zero =>
          have h2 := i2 st.2 (by show st.2 < st.2 + 1; omega)
          simp only [Nat.cast_zero, add_zero, List.getElem_cons_zero]
          rw [h2.1, h2.2]
          exact ⟨setCV_octs st.1 index st.2 n.pitch, setCV_keys st.1 index st.2 n.pitch⟩
        | succ t2 =>
          have ht : t2 < (rest.filter (fun n => decide (n.start = ft))).length := by
            simpa [List.filter_cons, hn] using h
          have h3 := i3 t2 ht
          simp only [List.getElem_cons_succ]
          have e : st.2 + ((t2 + 1 : Nat) : Int) = st.2 + 1 + (t2 : Int) := by push_cast; ring
          rw [e]
          exact h3
    · have hstep : chordStep index ft st n = st := by
        simp [chordStep, hn]
      have hd : decide (n.start = ft) = false := by simp [hn]
      simp only [List.foldl_cons, hstep, List.filter_cons, hd]
      exact ih st

end ChordKey

namespace ChordKey

/-- The loop "set rest of chord notes as unused" from the write head `j`: the
positions `j..3` are turned off with semitone 0, the positions below `j` are
untouched. -/
theorem clearLoop_spec (index : Int) (x : ChordKey) (j : Nat) (hj : j ≤ 4) :
    (∀ q : Int, (j : Int) ≤ q → q < 4 →
        (forLoop j 4 (clearNote index) x).octs index q = -1 ∧
        (forLoop j 4 (clearNote index) x).keys index q = 0) ∧
      (∀ q : Int, q < (j : Int) →
        (forLoop j 4 (clearNote index) x).octs index q = x.octs index q ∧
        (forLoop j 4 (clearNote index) x).keys index q = x.keys index q) := by
  interval_cases j
  · rw [forLoop_zero_four]
    refine ⟨fun q h1 h2 => ?_, fun q h => ?_⟩
    · have hc : q = 0 ∨ q = 1 ∨ q = 2 ∨ q = 3 := by omega
      rcases hc with rfl | rfl | rfl | rfl <;> simp [clearNote, set2]
    · have h0 : q ≠ 0 := by omega
      have h1 : q ≠ 1 := by omega
      have h2 : q ≠ 2 := by omega
      have h3 : q ≠ 3 := by omega
      simp [clearNote, set2, h0, h1, h2, h3]
  · rw [forLoop_one_four]
    refine ⟨fun q h1 h2 => ?_, fun q h => ?_⟩
    · have hc : q = 1 ∨ q = 2 ∨ q = 3 := by omega
      rcases hc with rfl | rfl | rfl <;> simp [clearNote, set2]
    · have h1 : q ≠ 1 := by omega
      have h2 : q ≠ 2 := by omega
      have h3 : q ≠ 3 := by omega
      simp [clearNote, set2, h1, h2, h3]
  · rw [forLoop_two_four]
    refine ⟨fun q h1 h2 => ?_, fun q h => ?_⟩
    · have hc : q = 2 ∨ q = 3 := by omega
      rcases hc with rfl | rfl <;> simp [clearNote, set2]
    · have h2 : q ≠ 2 := by omega
      have h3 : q ≠ 3 := by omega
      simp [clearNote, set2, h2, h3]
  · rw [forLoop_three_four]
    refine ⟨fun q h1 h2 => ?_, fun q h => ?_⟩
    · obtain rfl : q = 3 := by omega
      simp [clearNote, set2]
    · have h3 : q ≠ 3 := by omega
      simp [clearNote, set2, h3]
  · rw [forLoop_empty]
    exact ⟨fun q h1 h2 => by omega, fun q h => ⟨rfl, rfl⟩⟩

/-- What `emptyIoNotesChord` leaves in the active slot: the notes of the
simultaneity group of the first four incoming notes, encoded in order from
position 0, then OFF with semitone 0. -/
theorem emptyIoNotesChord_core (m : ChordKey) (l : List IoNote) :
    (∀ (t : Nat) (h : t < (simultaneityGroup (l.take 4)).length),
        (emptyIoNotesChord m l).octs m.getIndex t
          = clamp (cvNote ((simultaneityGroup (l.take 4))[t].pitch) / 12 + 4) 0 9 ∧
        (emptyIoNotesChord m l).keys m.getIndex t
          = cvNote ((simultaneityGroup (l.take 4))[t].pitch) % 12) ∧
      (∀ q : Int, ((simultaneityGroup (l.take 4)).length : Int) ≤ q → q < 4 →
        (emptyIoNotesChord m l).octs m.getIndex q = -1 ∧
        (emptyIoNotesChord m l).keys m.getIndex q = 0) := by
  cases l with
  | nil =>
    have hE : emptyIoNotesChord m [] = forLoop 0 4 (clearNote m.getIndex) m := by
      simp [emptyIoNotesChord]
    have hc := clearLoop_spec m.getIndex m 0 (by decide)
    rw [hE]
    refine ⟨fun t h => ?_, fun q h1 h2 => hc.1 q (by simpa [simultaneityGroup] using h1) h2⟩
    simp [simultaneityGroup] at h
  | cons a rest =>
    have hg : simultaneityGroup ((a :: rest).take 4)
        = ((a :: rest).take 4).filter (fun n => decide (n.start = a.start)) := by
      simp [simultaneityGroup, List.take]
    have hk : (min (4 : Int) ((a :: rest).length : Int)).toNat ≤ (a :: rest).length := by omega
    have htake : (a :: rest).take (min (4 : Int) ((a :: rest).length : Int)).toNat
        = (a :: rest).take 4 := by
      rcases Nat.lt_or_ge (a :: rest).length 4 with hlt | hge
      · have e : (min (4 : Int) ((a :: rest).length : Int)).toNat = (a :: rest).length := by omega
        rw [e, List.take_of_length_le (le_refl _), List.take_of_length_le (by omega)]
      · have e : (min (4 : Int) ((a :: rest).length : Int)).toNat = 4 := by omega
        rw [e]
    have hfirst : (noteAt (a :: rest) 0).start = a.start := by simp [noteAt]
    have hpos : (a :: rest).length > 0 := by simp
    have hE : emptyIoNotesChord m (a :: rest) =
        forLoop (((a :: rest).take 4).foldl (chordStep m.getIndex a.start) (m, 0)).2.toNat 4
          (clearNote m.getIndex)
          (((a :: rest).take 4).foldl (chordStep m.getIndex a.start) (m, 0)).1 := by
      unfold emptyIoNotesChord
      simp only [hpos, if_true, hfirst, chordNote_eq]
      rw [forLoop_noteAt (chordStep m.getIndex a.start) (a :: rest) _ hk (m, 0), htake]
    obtain ⟨f1, f2, f3⟩ := chordFold_spec m.getIndex a.start ((a :: rest).take 4) (m, 0)
    rw [← hg] at f1 f3
    simp only [zero_add] at f1 f3
    have hlen : (simultaneityGroup ((a :: rest).take 4)).length ≤ 4 := by
      rw [hg]
      exact le_trans (List.length_filter_le _ _) (by simp [List.length_take])
    have hj : (((a :: rest).take 4).foldl (chordStep m.getIndex a.start) (m, 0)).2.toNat
        = (simultaneityGroup ((a :: rest).take 4)).length := by
      rw [f1]; simp
    obtain ⟨c1, c2⟩ := clearLoop_spec m.getIndex
      (((a :: rest).take 4).foldl (chordStep m.getIndex a.start) (m, 0)).1
      (simultaneityGroup ((a :: rest).take 4)).length hlen
    rw [hE, hj]
    refine ⟨fun t h => ?_, fun q h1 h2 => c1 q h1 h2⟩
    have hu := c2 (t : Int) (by exact_mod_cast h)
    rw [hu.1, hu.2]
    exact f3 t h

end ChordKey

/-! ## Import as chord -/

namespace ChordKey

/-- C11 (as amended). Import as chord selects the simultaneity group among the
first four notes: for every list of incoming notes, `emptyIoNotesChord` fills
the positions 0, 1, ... of the active slot, in order, with what `setCV` stores
for the pitches of those of the first four incoming notes whose start time
equals the first note's start time (at most 4 of them). Notes after the
fourth are not examined. -/
theorem emptyIoNotesChord_firstFour (m : ChordKey) (ioNotes : List IoNote) (t : Nat)
    (h : t < (simultaneityGroup (ioNotes.take 4)).length) :
    (emptyIoNotesChord m ioNotes).octs m.getIndex t
        = (m.setCV m.getIndex t (simultaneityGroup (ioNotes.take 4))[t].pitch).octs m.getIndex t ∧
      (emptyIoNotesChord m ioNotes).keys m.getIndex t
        = (m.setCV m.getIndex t (simultaneityGroup (ioNotes.take 4))[t].pitch).keys m.getIndex t ∧
      t < 4 := by
  have hc := (emptyIoNotesChord_core m ioNotes).1 t h
  rw [setCV_octs, setCV_keys]
  refine ⟨hc.1, hc.2, ?_⟩
  have h4 : (simultaneityGroup (ioNotes.take 4)).length ≤ 4 := by
    cases hl : ioNotes.take 4 with
    | nil => simp [simultaneityGroup]
    | cons a rest =>
      have hlen : (a :: rest).length ≤ 4 := by
        rw [← hl]; simp [List.length_take]
      simp only [simultaneityGroup]
      exact le_trans (List.length_filter_le _ _) hlen
  omega

/-- Witness of C11 (as amended): with start times 0, 0, 1/2, 1/2 the second note
(1 V) is written to position 1 as octave 5, semitone 0. -/
theorem emptyIoNotesChord_firstFour_witness :
    1 < (simultaneityGroup (chordNotes.take 4)).length ∧
      (emptyIoNotesChord (init false) chordNotes).octs 0 1 = 5 ∧
      (emptyIoNotesChord (init false) chordNotes).keys 0 1 = 0 := by
  have hg : simultaneityGroup (chordNotes.take 4) =
      [{ start := 0, length := 1 / 2, pitch := 0, vel := -1, prob := -1 },
       { start := 0, length := 1 / 2, pitch := 1, vel := -1, prob := -1 }] := by
    simp [simultaneityGroup, chordNotes, List.filter]
  have hl : 1 < (simultaneityGroup (chordNotes.take 4)).length := by
    rw [hg]; decide
  have h := emptyIoNotesChord_firstFour (init false) chordNotes 1 hl
  rw [init_getIndex, setCV_octs, setCV_keys] at h
  have hp : (simultaneityGroup (chordNotes.take 4))[1].pitch = 1 := by
    simp [hg]
  have hr : cvNote 1 = 12 := cvNote_of_int 1 12 (by norm_num) (by decide)
  rw [hp, hr] at h
  exact ⟨hl, h.1, h.2.1⟩

/-- Counterexample to C11 as stated: with start times 0, 1, 1, 1, 0 two incoming
notes start with the first (pitches 0 and 1 V), so position 1 should hold what
`setCV` stores for 1 V (octave 5); the loop stops after the fourth note and
position 1 is left OFF with semitone 0. -/
theorem emptyIoNotesChord_ignores_fifth :
    unsortedNotes ≠ [] ∧
      (simultaneityGroup unsortedNotes).map (fun n => n.pitch) = [0, 1] ∧
      ((init false).setCV 0 1 1).octs 0 1 = 5 ∧
      (emptyIoNotesChord (init false) unsortedNotes).octs 0 1 = -1 ∧
      (emptyIoNotesChord (init false) unsortedNotes).keys 0 1 = 0 := by
  have hg : simultaneityGroup (unsortedNotes.take 4) =
      [{ start := 0, length := 1 / 2, pitch := 0, vel := -1, prob := -1 }] := by
    simp [simultaneityGroup, unsortedNotes, List.filter]
  have hc := (emptyIoNotesChord_core (init false) unsortedNotes).2 1 (by rw [hg]; decide)
    (by decide)
  rw [init_getIndex] at hc
  have hr : cvNote 1 = 12 := cvNote_of_int 1 12 (by norm_num) (by decide)
  refine ⟨by simp [unsortedNotes], ?_, ?_, hc.1, hc.2⟩
  · simp [simultaneityGroup, unsortedNotes, List.filter]
  · rw [setCV_octs, hr]; decide

/-- C12. Import as chord pads with OFF. For every list of at most 4 incoming
notes of which `j` share the first note's start time, after
`emptyIoNotesChord` the positions `j..3` of the active slot are OFF (octave -1)
with semitone 0 and the positions `0..j-1` are non-OFF; for the empty list all
four positions are OFF with semitone 0. -/
theorem emptyIoNotesChord_pads (m : ChordKey) (ioNotes : List IoNote)
    (hlen : ioNotes.length ≤ 4) :
    (∀ q : Int, ((simultaneityGroup ioNotes).length : Int) ≤ q → q < 4 →
        (emptyIoNotesChord m ioNotes).octs m.getIndex q = -1 ∧
        (emptyIoNotesChord m ioNotes).keys m.getIndex q = 0) ∧
      (∀ q : Int, 0 ≤ q → q < ((simultaneityGroup ioNotes).length : Int) →
        0 ≤ (emptyIoNotesChord m ioNotes).octs m.getIndex q) ∧
      (ioNotes = [] → ∀ q : Int, 0 ≤ q → q < 4 →
        (emptyIoNotesChord m ioNotes).octs m.getIndex q = -1 ∧
        (emptyIoNotesChord m ioNotes).keys m.getIndex q = 0) := by
  have ht : ioNotes.take 4 = ioNotes := List.take_of_length_le hlen
  have hc := emptyIoNotesChord_core m ioNotes
  rw [ht] at hc
  refine ⟨hc.2, fun q h0 h1 => ?_, fun he q h0 h4 => ?_⟩
  · have hq : q.toNat < (simultaneityGroup ioNotes).length := by omega
    have h := (hc.1 q.toNat hq).1
    have e : ((q.toNat : Nat) : Int) = q := Int.toNat_of_nonneg h0
    rw [e] at h
    rw [h]
    exact (clamp_bounds _ 0 9 (by decide)).1
  · apply hc.2 q _ h4
    subst he
    simpa [simultaneityGroup] using h0

/-- Witness of C12: start times 0, 0, 1/2, 1/2 populate positions 0 and 1 only
and leave positions 2 and 3 OFF with semitone 0. -/
theorem emptyIoNotesChord_pads_witness :
    chordNotes.length ≤ 4 ∧ (simultaneityGroup chordNotes).length = 2 ∧
      0 ≤ (emptyIoNotesChord (init false) chordNotes).octs 0 0 ∧
      0 ≤ (emptyIoNotesChord (init false) chordNotes).octs 0 1 ∧
      (emptyIoNotesChord (init false) chordNotes).octs 0 2 = -1 ∧
      (emptyIoNotesChord (init false) chordNotes).keys 0 2 = 0 ∧
      (emptyIoNotesChord (init false) chordNotes).octs 0 3 = -1 ∧
      (emptyIoNotesChord (init false) chordNotes).keys 0 3 = 0 := by
  have hg : (simultaneityGroup chordNotes).length = 2 := by
    simp [simultaneityGroup, chordNotes, List.filter]
  have h := emptyIoNotesChord_pads (init false) chordNotes (by decide)
  rw [init_getIndex, hg] at h
  have a0 := h.2.1 0 (by decide) (by decide)
  have a1 := h.2.1 1 (by decide) (by decide)
  have a2 := h.1 2 (by decide) (by decide)
  have a3 := h.1 3 (by decide) (by decide)
  exact ⟨by decide, hg, a0, a1, a2.1, a2.2, a3.1, a3.2⟩

end ChordKey

/-! ## Persistence -/

namespace ChordKey

theorem loadOct_octs (octJ : Json) (ci : Int) (st : ChordKey) (c a b : Int) :
    (loadOct octJ ci st c).octs a b =
      if a = ci ∧ b = c then loadedValue octJ ci c (st.octs ci c) else st.octs a b := by
  unfold loadOct loadedValue
  cases json_array_get octJ (c + ci * 4) with
  | none => by_cases h : a = ci ∧ b = c
            · obtain ⟨rfl, rfl⟩ := h; simp
            · simp [h]
  | some e => simp [set2]

theorem loadKey_keys (keyJ : Json) (ci : Int) (st : ChordKey) (c a b : Int) :
    (loadKey keyJ ci st c).keys a b =
      if a = ci ∧ b = c then loadedValue keyJ ci c (st.keys ci c) else st.keys a b := by
  unfold loadKey loadedValue
  cases json_array_get keyJ (c + ci * 4) with
  | none => by_cases h : a = ci ∧ b = c
            · obtain ⟨rfl, rfl⟩ := h; simp
            · simp [h]
  | some e => simp [set2]

theorem loadOctChord_octs (octJ : Json) (st : ChordKey) (ci a b : Int) :
    (loadOctChord octJ st ci).octs a b =
      if a = ci ∧ 0 ≤ b ∧ b < 4 then loadedValue octJ ci b (st.octs ci b) else st.octs a b := by
  unfold loadOctChord
  rw [forLoop_zero_four]
  by_cases ha : a = ci
  · subst ha
    by_cases h0 : b = 0
    · subst h0; simp [loadOct_octs]
    · by_cases h1 : b = 1
      · subst h1; simp [loadOct_octs]
      · by_cases h2 : b = 2
        · subst h2; simp [loadOct_octs]
        · by_cases h3 : b = 3
          · subst h3; simp [loadOct_octs]
          · have hn : ¬ (0 ≤ b ∧ b < 4) := by omega
            simp [loadOct_octs, h0, h1, h2, h3, hn]
  · simp [loadOct_octs, ha]

theorem loadKeyChord_keys (keyJ : Json) (st : ChordKey) (ci a b : Int) :
    (loadKeyChord keyJ st ci).keys a b =
      if a = ci ∧ 0 ≤ b ∧ b < 4 then loadedValue keyJ ci b (st.keys ci b) else st.keys a b := by
  unfold loadKeyChord
  rw [forLoop_zero_four]
  by_cases ha : a = ci
  · subst ha
    by_cases h0 : b = 0
    · subst h0; simp [loadKey_keys]
    · by_cases h1 : b = 1
      · subst h1; simp [loadKey_keys]
      · by_cases h2 : b = 2
        · subst h2; simp [loadKey_keys]
        · by_cases h3 : b = 3
          · subst h3; simp [loadKey_keys]
          · have hn : ¬ (0 ≤ b ∧ b < 4) := by omega
            simp [loadKey_keys, h0, h1, h2, h3, hn]
  · simp [loadKey_keys, ha]

/-- The octaves after `n` passes of the outer loop of the section "octs". -/
theorem loadOctsLoop_octs (octJ : Json) (n : Nat) (m : ChordKey) (ci cni : Int) :
    (forLoop 0 n (loadOctChord octJ) m).octs ci cni =
      if 0 ≤ ci ∧ ci < n ∧ 0 ≤ cni ∧ cni < 4 then loadedValue octJ ci cni (m.octs ci cni)
      else m.octs ci cni := by
  induction n with
  | zero =>
    have h : ¬ (0 ≤ ci ∧ ci < ((0 : Nat) : Int) ∧ 0 ≤ cni ∧ cni < 4) := by
      intro h; have := h.2.1; simp at this; omega
    rw [if_neg h]; rfl
  | succ k ih =>
    rw [forLoop_zero_succ, loadOctChord_octs]
    by_cases hk : ci = (k : Int)
    · subst hk
      have hih : (forLoop 0 k (loadOctChord octJ) m).octs (k : Int) cni = m.octs (k : Int) cni := by
        rw [ih, if_neg (by omega)]
      by_cases hc : 0 ≤ cni ∧ cni < 4
      · rw [if_pos ⟨rfl, hc⟩, if_pos ⟨by omega, by push_cast; omega, hc.1, hc.2⟩, hih]
      · rw [if_neg (by tauto), if_neg (by tauto), hih]
    · rw [if_neg (by tauto), ih]
      by_cases hc : 0 ≤ ci ∧ ci < (k : Int) ∧ 0 ≤ cni ∧ cni < 4
      · rw [if_pos hc, if_pos ⟨hc.1, by push_cast; omega, hc.2.2.1, hc.2.2.2⟩]
      · rw [if_neg hc, if_neg (by push_cast; omega)]

theorem loadKeysLoop_keys (keyJ : Json) (n : Nat) (m : ChordKey) (ci cni : Int) :
    (forLoop 0 n (loadKeyChord keyJ) m).keys ci cni =
      if 0 ≤ ci ∧ ci < n ∧ 0 ≤ cni ∧ cni < 4 then loadedValue keyJ ci cni (m.keys ci cni)
      else m.keys ci cni := by
  induction n with
  | zero =>
    have h : ¬ (0 ≤ ci ∧ ci < ((0 : Nat) : Int) ∧ 0 ≤ cni ∧ cni < 4) := by
      intro h; have := h.2.1; simp at this; omega
    rw [if_neg h]; rfl
  | succ k ih =>
    rw [forLoop_zero_succ, loadKeyChord_keys]
    by_cases hk : ci = (k : Int)
    · subst hk
      have hih : (forLoop 0 k (loadKeyChord keyJ) m).keys (k : Int) cni = m.keys (k : Int) cni := by
        rw [ih, if_neg (by omega)]
      by_cases hc : 0 ≤ cni ∧ cni < 4
      · rw [if_pos ⟨rfl, hc⟩, if_pos ⟨by omega, by push_cast; omega, hc.1, hc.2⟩, hih]
      · rw [if_neg (by tauto), if_neg (by tauto), hih]
    · rw [if_neg (by tauto), ih]
      by_cases hc : 0 ≤ ci ∧ ci < (k : Int) ∧ 0 ≤ cni ∧ cni < 4
      · rw [if_pos hc, if_pos ⟨hc.1, by push_cast; omega, hc.2.2.1, hc.2.2.2⟩]
      · rw [if_neg hc, if_neg (by push_cast; omega)]

end ChordKey

namespace ChordKey

theorem loadOcts_eta (m : ChordKey) (rootJ : Json) :
    loadOcts m rootJ = { m with octs := (loadOcts m rootJ).octs } := by
  unfold loadOcts
  cases json_object_get rootJ "octs" with
  | none => rfl
  | some octJ =>
    have hstep : ∀ (ci : Int) (s : ChordKey) (c : Int),
        loadOct octJ ci s c = { s with octs := (loadOct octJ ci s c).octs } := by
      intro ci s c
      unfold loadOct
      cases json_array_get octJ (c + ci * 4) <;> rfl
    exact forLoop_rel (fun a b : ChordKey => b = { a with octs := b.octs }) (fun _ => rfl)
      (fun a b c h1 h2 => by rw [h2, h1]) 0 25 (loadOctChord octJ)
      (fun s ci => forLoop_rel (fun a b : ChordKey => b = { a with octs := b.octs })
        (fun _ => rfl) (fun a b c h1 h2 => by rw [h2, h1]) 0 4 (loadOct octJ ci) (hstep ci) s) m

theorem loadKeys_eta (m : ChordKey) (rootJ : Json) :
    loadKeys m rootJ = { m with keys := (loadKeys m rootJ).keys } := by
  unfold loadKeys
  cases json_object_get rootJ "keys" with
  | none => rfl
  | some keyJ =>
    have hstep : ∀ (ci : Int) (s : ChordKey) (c : Int),
        loadKey keyJ ci s c = { s with keys := (loadKey keyJ ci s c).keys } := by
      intro ci s c
      unfold loadKey
      cases json_array_get keyJ (c + ci * 4) <;> rfl
    exact forLoop_rel (fun a b : ChordKey => b = { a with keys := b.keys }) (fun _ => rfl)
      (fun a b c h1 h2 => by rw [h2, h1]) 0 25 (loadKeyChord keyJ)
      (fun s ci => forLoop_rel (fun a b : ChordKey => b = { a with keys := b.keys })
        (fun _ => rfl) (fun a b c h1 h2 => by rw [h2, h1]) 0 4 (loadKey keyJ ci) (hstep ci) s) m

end ChordKey

namespace ChordKey

theorem loadPanelTheme_eta (m : ChordKey) (rootJ : Json) :
    loadPanelTheme m rootJ = { m with panelTheme := (loadPanelTheme m rootJ).panelTheme } := by
  unfold loadPanelTheme
  cases json_object_get rootJ "panelTheme" <;> rfl

theorem loadMergeOutputs_eta (m : ChordKey) (rootJ : Json) :
    loadMergeOutputs m rootJ
      = { m with mergeOutputs := (loadMergeOutputs m rootJ).mergeOutputs } := by
  unfold loadMergeOutputs
  cases json_object_get rootJ "mergeOutputs" <;> rfl

theorem loadKeypressEmitGate_eta (m : ChordKey) (rootJ : Json) :
    loadKeypressEmitGate m rootJ
      = { m with keypressEmitGate := (loadKeypressEmitGate m rootJ).keypressEmitGate } := by
  unfold loadKeypressEmitGate
  cases json_object_get rootJ "keypressEmitGate" <;> rfl

theorem loadAutostepPaste_eta (m : ChordKey) (rootJ : Json) :
    loadAutostepPaste m rootJ
      = { m with autostepPaste := (loadAutostepPaste m rootJ).autostepPaste } := by
  unfold loadAutostepPaste
  cases json_object_get rootJ "autostepPaste" <;> rfl

/-- The octaves after `dataFromJson` are those the section "octs" leaves. -/
theorem dataFromJson_octs (m : ChordKey) (rootJ : Json) :
    (dataFromJson m rootJ).octs = (loadOcts (loadPanelTheme m rootJ) rootJ).octs := by
  unfold dataFromJson
  simp only
  show (loadAutostepPaste _ rootJ).octs = _
  rw [loadAutostepPaste_eta, loadKeypressEmitGate_eta, loadMergeOutputs_eta, loadKeys_eta]

theorem dataFromJson_keys (m : ChordKey) (rootJ : Json) :
    (dataFromJson m rootJ).keys
      = (loadKeys (loadOcts (loadPanelTheme m rootJ) rootJ) rootJ).keys := by
  unfold dataFromJson
  simp only
  show (loadAutostepPaste _ rootJ).keys = _
  rw [loadAutostepPaste_eta, loadKeypressEmitGate_eta, loadMergeOutputs_eta]

theorem dataFromJson_mergeOutputs (m : ChordKey) (rootJ : Json) :
    (dataFromJson m rootJ).mergeOutputs =
      (match json_object_get rootJ "mergeOutputs" with
        | some j => toInt32 (json_integer_value j)
        | none => m.mergeOutputs) := by
  have h1 : (loadKeys (loadOcts (loadPanelTheme m rootJ) rootJ) rootJ).mergeOutputs
      = m.mergeOutputs := by
    rw [loadKeys_eta, loadOcts_eta, loadPanelTheme_eta]
  unfold dataFromJson
  simp only
  show (loadAutostepPaste _ rootJ).mergeOutputs = _
  rw [loadAutostepPaste_eta, loadKeypressEmitGate_eta]
  show (loadMergeOutputs _ rootJ).mergeOutputs = _
  unfold loadMergeOutputs
  cases json_object_get rootJ "mergeOutputs" with
  | none => exact h1
  | some j => rfl

end ChordKey

namespace ChordKey

theorem dataFromJson_panelTheme (m : ChordKey) (rootJ : Json) :
    (dataFromJson m rootJ).panelTheme =
      (match json_object_get rootJ "panelTheme" with
        | some j => toInt32 (json_integer_value j)
        | none => m.panelTheme) := by
  unfold dataFromJson
  simp only
  show (loadAutostepPaste _ rootJ).panelTheme = _
  rw [loadAutostepPaste_eta, loadKeypressEmitGate_eta, loadMergeOutputs_eta, loadKeys_eta,
    loadOcts_eta]
  show (loadPanelTheme m rootJ).panelTheme = _
  unfold loadPanelTheme
  cases json_object_get rootJ "panelTheme" <;> rfl

theorem dataFromJson_keypressEmitGate (m : ChordKey) (rootJ : Json) :
    (dataFromJson m rootJ).keypressEmitGate =
      (match json_object_get rootJ "keypressEmitGate" with
        | some j => toInt32 (json_integer_value j)
        | none => m.keypressEmitGate) := by
  have h1 : (loadMergeOutputs (loadKeys (loadOcts (loadPanelTheme m rootJ) rootJ) rootJ)
      rootJ).keypressEmitGate = m.keypressEmitGate := by
    rw [loadMergeOutputs_eta, loadKeys_eta, loadOcts_eta, loadPanelTheme_eta]
  unfold dataFromJson
  simp only
  show (loadAutostepPaste _ rootJ).keypressEmitGate = _
  rw [loadAutostepPaste_eta]
  show (loadKeypressEmitGate _ rootJ).keypressEmitGate = _
  unfold loadKeypressEmitGate
  cases json_object_get rootJ "keypressEmitGate" with
  | none => exact h1
  | some j => rfl

theorem dataFromJson_autostepPaste (m : ChordKey) (rootJ : Json) :
    (dataFromJson m rootJ).autostepPaste =
      (match json_object_get rootJ "autostepPaste" with
        | some j => toInt32 (json_integer_value j)
        | none => m.autostepPaste) := by
  have h1 : (loadKeypressEmitGate (loadMergeOutputs (loadKeys (loadOcts (loadPanelTheme m rootJ)
      rootJ) rootJ) rootJ) rootJ).autostepPaste = m.autostepPaste := by
    rw [loadKeypressEmitGate_eta, loadMergeOutputs_eta, loadKeys_eta, loadOcts_eta,
      loadPanelTheme_eta]
  unfold dataFromJson
  simp only
  show (loadAutostepPaste _ rootJ).autostepPaste = _
  unfold loadAutostepPaste
  cases json_object_get rootJ "autostepPaste" with
  | none => exact h1
  | some j => rfl

/-- A cell of `octs` after `dataFromJson`. -/
theorem dataFromJson_octs_cell (m : ChordKey) (rootJ : Json) (ci cni : Int)
    (h1 : 0 ≤ ci) (h2 : ci < 25) (h3 : 0 ≤ cni) (h4 : cni < 4) :
    (dataFromJson m rootJ).octs ci cni =
      (match json_object_get rootJ "octs" with
        | some octJ => loadedValue octJ ci cni (m.octs ci cni)
        | none => m.octs ci cni) := by
  have hp : (loadPanelTheme m rootJ).octs = m.octs := by rw [loadPanelTheme_eta]
  rw [dataFromJson_octs]
  unfold loadOcts
  cases json_object_get rootJ "octs" with
  | none => simp only [hp]
  | some octJ =>
    simp only
    rw [loadOctsLoop_octs, if_pos ⟨h1, by push_cast; omega, h3, h4⟩, hp]

/-- A cell of `keys` after `dataFromJson`. -/
theorem dataFromJson_keys_cell (m : ChordKey) (rootJ : Json) (ci cni : Int)
    (h1 : 0 ≤ ci) (h2 : ci < 25) (h3 : 0 ≤ cni) (h4 : cni < 4) :
    (dataFromJson m rootJ).keys ci cni =
      (match json_object_get rootJ "keys" with
        | some keyJ => loadedValue keyJ ci cni (m.keys ci cni)
        | none => m.keys ci cni) := by
  have hp : (loadOcts (loadPanelTheme m rootJ) rootJ).keys = m.keys := by
    rw [loadOcts_eta, loadPanelTheme_eta]
  rw [dataFromJson_keys]
  unfold loadKeys
  cases json_object_get rootJ "keys" with
  | none => simp only [hp]
  | some keyJ =>
    simp only
    rw [loadKeysLoop_keys, if_pos ⟨h1, by push_cast; omega, h3, h4⟩, hp]

/-- The volatile state after `dataFromJson`. -/
theorem dataFromJson_volatile (m : ChordKey) (rootJ : Json) :
    (dataFromJson m rootJ).keysCP 0 = 0 ∧ (dataFromJson m rootJ).keysCP 1 = 4 ∧
      (dataFromJson m rootJ).keysCP 2 = 7 ∧ (dataFromJson m rootJ).keysCP 3 = 0 ∧
      (dataFromJson m rootJ).octsCP 0 = 4 ∧ (dataFromJson m rootJ).octsCP 1 = 4 ∧
      (dataFromJson m rootJ).octsCP 2 = 4 ∧ (dataFromJson m rootJ).octsCP 3 = -1 ∧
      (dataFromJson m rootJ).offWarning = 0 ∧ (dataFromJson m rootJ).noteLightCounter = 0 := by
  unfold dataFromJson
  simp [resetNonJson]

end ChordKey

namespace ChordKey

/-- C19. Deserialize tolerates absent fields and resets volatile state. For
every document (the load is a total function, it cannot fail), each persisted
field (panelTheme, each element of the octave and semitone arrays,
mergeOutputs, keypressEmitGate, autostepPaste) whose key or array element is
absent keeps its pre-load value, and afterwards the volatile state is
re-initialised: clipboard semitones 0, 4, 7, 0 and octaves 4, 4, 4, OFF,
warning timer 0, note-light counter 0. -/
theorem dataFromJson_absent (m : ChordKey) (rootJ : Json) :
    (json_object_get rootJ "panelTheme" = none →
        (dataFromJson m rootJ).panelTheme = m.panelTheme) ∧
      (json_object_get rootJ "mergeOutputs" = none →
        (dataFromJson m rootJ).mergeOutputs = m.mergeOutputs) ∧
      (json_object_get rootJ "keypressEmitGate" = none →
        (dataFromJson m rootJ).keypressEmitGate = m.keypressEmitGate) ∧
      (json_object_get rootJ "autostepPaste" = none →
        (dataFromJson m rootJ).autostepPaste = m.autostepPaste) ∧
      (∀ ci cni : Int, 0 ≤ ci → ci < 25 → 0 ≤ cni → cni < 4 →
        (json_object_get rootJ "octs").bind (fun a => json_array_get a (cni + ci * 4)) = none →
        (dataFromJson m rootJ).octs ci cni = m.octs ci cni) ∧
      (∀ ci cni : Int, 0 ≤ ci → ci < 25 → 0 ≤ cni → cni < 4 →
        (json_object_get rootJ "keys").bind (fun a => json_array_get a (cni + ci * 4)) = none →
        (dataFromJson m rootJ).keys ci cni = m.keys ci cni) ∧
      ((dataFromJson m rootJ).keysCP 0 = 0 ∧ (dataFromJson m rootJ).keysCP 1 = 4 ∧
        (dataFromJson m rootJ).keysCP 2 = 7 ∧ (dataFromJson m rootJ).keysCP 3 = 0 ∧
        (dataFromJson m rootJ).octsCP 0 = 4 ∧ (dataFromJson m rootJ).octsCP 1 = 4 ∧
        (dataFromJson m rootJ).octsCP 2 = 4 ∧ (dataFromJson m rootJ).octsCP 3 = -1 ∧
        (dataFromJson m rootJ).offWarning = 0 ∧ (dataFromJson m rootJ).noteLightCounter = 0) := by
  refine ⟨fun h => ?_, fun h => ?_, fun h => ?_, fun h => ?_, fun ci cni h1 h2 h3 h4 h => ?_,
    fun ci cni h1 h2 h3 h4 h => ?_, dataFromJson_volatile m rootJ⟩
  · rw [dataFromJson_panelTheme, h]
  · rw [dataFromJson_mergeOutputs, h]
  · rw [dataFromJson_keypressEmitGate, h]
  · rw [dataFromJson_autostepPaste, h]
  · rw [dataFromJson_octs_cell m rootJ ci cni h1 h2 h3 h4]
    cases hg : json_object_get rootJ "octs" with
    | none => rfl
    | some octJ =>
      rw [hg] at h
      have h2 : json_array_get octJ (cni + ci * 4) = none := by simpa using h
      simp [loadedValue, h2]
  · rw [dataFromJson_keys_cell m rootJ ci cni h1 h2 h3 h4]
    cases hg : json_object_get rootJ "keys" with
    | none => rfl
    | some keyJ =>
      rw [hg] at h
      have h2 : json_array_get keyJ (cni + ci * 4) = none := by simpa using h
      simp [loadedValue, h2]

/-- Witness of C19: a document with only a merge mode and two octaves, loaded
into the module constructed with the dark theme, keeps the theme, the third
octave and the semitones, and resets the clipboard and the warning timer. -/
theorem dataFromJson_absent_witness :
    json_object_get partialDoc "panelTheme" = none ∧
      (dataFromJson (init true) partialDoc).panelTheme = 1 ∧
      (dataFromJson (init true) partialDoc).octs 0 2 = 4 ∧
      (dataFromJson (init true) partialDoc).keys 0 1 = 4 ∧
      (dataFromJson (init true) partialDoc).octsCP 3 = -1 ∧
      (dataFromJson (init true) partialDoc).offWarning = 0 := by
  have h := dataFromJson_absent (init true) partialDoc
  have hp : json_object_get partialDoc "panelTheme" = none := by
    simp [json_object_get, partialDoc, List.lookup]
  have hk : json_object_get partialDoc "keys" = none := by
    simp [json_object_get, partialDoc, List.lookup]
  have ho : (json_object_get partialDoc "octs").bind
      (fun a => json_array_get a ((2 : Int) + 0 * 4)) = none := by
    simp [json_object_get, partialDoc, List.lookup, json_array_get]
  have a := h.1 hp
  have b := h.2.2.2.2.1 0 2 (by decide) (by decide) (by decide) (by decide) ho
  have c := h.2.2.2.2.2.1 0 1 (by decide) (by decide) (by decide) (by decide) (by rw [hk]; rfl)
  have o2 : (init true).octs 0 2 = 4 := init_octs true 2 (by decide) (by decide)
  have k1 : (init true).keys 0 1 = 4 := init_keys true 1 (by decide) (by decide)
  rw [o2] at b
  rw [k1] at c
  exact ⟨hp, a, b, c, h.2.2.2.2.2.2.2.2.2.2.2.2.2.1, h.2.2.2.2.2.2.2.2.2.2.2.2.2.2.1⟩

end ChordKey

namespace ChordKey

theorem resetNonJson_clipboard (m : ChordKey) (cni : Int) (h3 : 0 ≤ cni) (h4 : cni < 4) :
    -1 ≤ (resetNonJson m).octsCP cni ∧ (resetNonJson m).octsCP cni ≤ 9 ∧
      0 ≤ (resetNonJson m).keysCP cni ∧ (resetNonJson m).keysCP cni ≤ 11 := by
  have hc : cni = 0 ∨ cni = 1 ∨ cni = 2 ∨ cni = 3 := by omega
  rcases hc with rfl | rfl | rfl | rfl <;> simp [resetNonJson]

theorem onReset_inRange (m : ChordKey) : InRange (onReset m) := by
  constructor
  · intro ci cni h1 h2 h3 h4
    rw [onReset_octs m ci cni h1 h2 h3 h4, onReset_keys m ci cni h1 h2 h3 h4]
    have hc : cni = 0 ∨ cni = 1 ∨ cni = 2 ∨ cni = 3 := by omega
    rcases hc with rfl | rfl | rfl | rfl <;> simp
  · intro cni h3 h4
    exact resetNonJson_clipboard _ cni h3 h4

theorem init_inRange (dark : Bool) : InRange (init dark) := by
  have h := onReset_inRange blank
  exact h

end ChordKey

namespace ChordKey

/-- C14 (as amended). `dataFromJson` does not clamp: every octave and semitone
present in the document is stored as it is, converted to `int` (truncated, and
`INT_MIN` outside the range of `int`), the merge mode present in the document is
stored as it is (its low 32 bits), and absent ones keep their pre-load value.
Hence, for a state in range and a document whose octaves are in [-1, 9], whose
semitones are in [0, 11] and whose merge mode is in 0..3, after `dataFromJson`
every octave is in [-1, 9], every semitone is in [0, 11] and `mergeOutputs` is
in 0..3. -/
theorem dataFromJson_inRange (m : ChordKey) (rootJ : Json) :
    (∀ ci cni : Int, 0 ≤ ci → ci < 25 → 0 ≤ cni → cni < 4 →
        (dataFromJson m rootJ).octs ci cni =
            (match (json_object_get rootJ "octs").bind
                (fun a => json_array_get a (cni + ci * 4)) with
              | some e => cInt (json_number_value e)
              | none => m.octs ci cni) ∧
          (dataFromJson m rootJ).keys ci cni =
            (match (json_object_get rootJ "keys").bind
                (fun a => json_array_get a (cni + ci * 4)) with
              | some e => cInt (json_number_value e)
              | none => m.keys ci cni)) ∧
      (dataFromJson m rootJ).mergeOutputs =
        (match json_object_get rootJ "mergeOutputs" with
          | some j => toInt32 (json_integer_value j)
          | none => m.mergeOutputs) ∧
      (InRange m → (0 ≤ m.mergeOutputs ∧ m.mergeOutputs ≤ 3) →
        (∀ (octJ : Json) (idx : Int) (e : Json), json_object_get rootJ "octs" = some octJ →
          json_array_get octJ idx = some e →
          -1 ≤ cInt (json_number_value e) ∧ cInt (json_number_value e) ≤ 9) →
        (∀ (keyJ : Json) (idx : Int) (e : Json), json_object_get rootJ "keys" = some keyJ →
          json_array_get keyJ idx = some e →
          0 ≤ cInt (json_number_value e) ∧ cInt (json_number_value e) ≤ 11) →
        (∀ j : Json, json_object_get rootJ "mergeOutputs" = some j →
          0 ≤ toInt32 (json_integer_value j) ∧ toInt32 (json_integer_value j) ≤ 3) →
        InRange (dataFromJson m rootJ) ∧
          0 ≤ (dataFromJson m rootJ).mergeOutputs ∧ (dataFromJson m rootJ).mergeOutputs ≤ 3) := by
  have hoct : ∀ ci cni : Int, 0 ≤ ci → ci < 25 → 0 ≤ cni → cni < 4 →
      (dataFromJson m rootJ).octs ci cni =
        (match (json_object_get rootJ "octs").bind
            (fun a => json_array_get a (cni + ci * 4)) with
          | some e => cInt (json_number_value e)
          | none => m.octs ci cni) := by
    intro ci cni h1 h2 h3 h4
    rw [dataFromJson_octs_cell m rootJ ci cni h1 h2 h3 h4]
    cases hg : json_object_get rootJ "octs" with
    | none => rfl
    | some octJ =>
      simp only [Option.some_bind, loadedValue]
  have hkey : ∀ ci cni : Int, 0 ≤ ci → ci < 25 → 0 ≤ cni → cni < 4 →
      (dataFromJson m rootJ).keys ci cni =
        (match (json_object_get rootJ "keys").bind
            (fun a => json_array_get a (cni + ci * 4)) with
          | some e => cInt (json_number_value e)
          | none => m.keys ci cni) := by
    intro ci cni h1 h2 h3 h4
    rw [dataFromJson_keys_cell m rootJ ci cni h1 h2 h3 h4]
    cases hg : json_object_get rootJ "keys" with
    | none => rfl
    | some keyJ =>
      simp only [Option.some_bind, loadedValue]
  have hmerge := dataFromJson_mergeOutputs m rootJ
  refine ⟨fun ci cni h1 h2 h3 h4 => ⟨hoct ci cni h1 h2 h3 h4, hkey ci cni h1 h2 h3 h4⟩, hmerge,
    fun hm hmo ho hk hj => ⟨⟨fun ci cni h1 h2 h3 h4 => ?_, fun cni h3 h4 => ?_⟩, ?_⟩⟩
  · have hmr := hm.1 ci cni h1 h2 h3 h4
    have ho2 : -1 ≤ (dataFromJson m rootJ).octs ci cni ∧ (dataFromJson m rootJ).octs ci cni ≤ 9 := by
      rw [hoct ci cni h1 h2 h3 h4]
      cases hg : json_object_get rootJ "octs" with
      | none => exact ⟨hmr.1, hmr.2.1⟩
      | some octJ =>
        cases he : json_array_get octJ (cni + ci * 4) with
        | none =>
          simp only [Option.some_bind, he]
          exact ⟨hmr.1, hmr.2.1⟩
        | some e =>
          simp only [Option.some_bind, he]
          exact ho octJ _ e hg he
    have hk2 : 0 ≤ (dataFromJson m rootJ).keys ci cni ∧ (dataFromJson m rootJ).keys ci cni ≤ 11 := by
      rw [hkey ci cni h1 h2 h3 h4]
      cases hg : json_object_get rootJ "keys" with
      | none => exact ⟨hmr.2.2.1, hmr.2.2.2⟩
      | some keyJ =>
        cases he : json_array_get keyJ (cni + ci * 4) with
        | none =>
          simp only [Option.some_bind, he]
          exact ⟨hmr.2.2.1, hmr.2.2.2⟩
        | some e =>
          simp only [Option.some_bind, he]
          exact hk keyJ _ e hg he
    exact ⟨ho2.1, ho2.2, hk2.1, hk2.2⟩
  · exact resetNonJson_clipboard _ cni h3 h4
  · rw [hmerge]
    cases hg : json_object_get rootJ "mergeOutputs" with
    | none => exact hmo
    | some j => exact hj j hg

/-- Counterexample to C14 as stated: a document with octave 42, semitone -3 and
merge mode 7 loads as octave 42, semitone -3 and `mergeOutputs = 7`, and the
octave 1e10 loads as `INT_MIN`; nothing is clamped. -/
theorem dataFromJson_outOfRange :
    (dataFromJson (init false) outOfRangeDoc).octs 0 0 = 42 ∧
      (dataFromJson (init false) outOfRangeDoc).keys 0 0 = -3 ∧
      (dataFromJson (init false) outOfRangeDoc).mergeOutputs = 7 ∧
      (dataFromJson (init false) hugeDoc).octs 0 0 = -2147483648 := by
  have go : json_object_get outOfRangeDoc "octs" = some (Json.array [Json.integer 42]) := by
    simp [json_object_get, outOfRangeDoc, List.lookup]
  have gk : json_object_get outOfRangeDoc "keys" = some (Json.array [Json.integer (-3)]) := by
    simp [json_object_get, outOfRangeDoc, List.lookup]
  have gm : json_object_get outOfRangeDoc "mergeOutputs" = some (Json.integer 7) := by
    simp [json_object_get, outOfRangeDoc, List.lookup]
  have gh : json_object_get hugeDoc "octs" = some (Json.array [Json.real 10000000000]) := by
    simp [json_object_get, hugeDoc, List.lookup]
  refine ⟨?_, ?_, ?_, ?_⟩
  · rw [dataFromJson_octs_cell _ _ 0 0 (by decide) (by decide) (by decide) (by decide), go]
    norm_num [loadedValue, json_array_get, json_number_value, cInt, cTrunc]
  · rw [dataFromJson_keys_cell _ _ 0 0 (by decide) (by decide) (by decide) (by decide), gk]
    norm_num [loadedValue, json_array_get, json_number_value, cInt, cTrunc]
  · rw [dataFromJson_mergeOutputs, gm]
    norm_num [json_integer_value, toInt32]
  · rw [dataFromJson_octs_cell _ _ 0 0 (by decide) (by decide) (by decide) (by decide), gh]
    norm_num [loadedValue, json_array_get, json_number_value, cInt, cTrunc]

/-- Witness of C14 (as amended): a document with merge mode 2 and octaves 5 and
OFF, loaded into the constructed module, leaves the state in range with
exactly those values; the third octave and the semitones, absent from the
document, keep their values. -/
theorem dataFromJson_inRange_witness :
    InRange (init false) ∧ InRange (dataFromJson (init false) partialDoc) ∧
      (dataFromJson (init false) partialDoc).mergeOutputs = 2 ∧
      (dataFromJson (init false) partialDoc).octs 0 0 = 5 ∧
      (dataFromJson (init false) partialDoc).octs 0 1 = -1 ∧
      (dataFromJson (init false) partialDoc).octs 0 2 = 4 ∧
      (dataFromJson (init false) partialDoc).keys 0 1 = 4 := by
  have go : json_object_get partialDoc "octs"
      = some (Json.array [Json.integer 5, Json.integer (-1)]) := by
    simp [json_object_get, partialDoc, List.lookup]
  have gk : json_object_get partialDoc "keys" = none := by
    simp [json_object_get, partialDoc, List.lookup]
  have gm : json_object_get partialDoc "mergeOutputs" = some (Json.integer 2) := by
    simp [json_object_get, partialDoc, List.lookup]
  have hmo : 0 ≤ (init false).mergeOutputs ∧ (init false).mergeOutputs ≤ 3 := by
    simp [init, onReset, resetNonJson]
  have h := dataFromJson_inRange (init false) partialDoc
  have hr := h.2.2 (init_inRange false) hmo
    (by
      intro octJ idx e hg he
      rw [go] at hg
      obtain rfl := Option.some.inj hg
      by_cases hneg : idx < 0
      · simp [json_array_get, hneg] at he
      · simp only [json_array_get, hneg, if_false] at he
        match hn : idx.toNat, he with
        | 0, he =>
          obtain rfl : Json.integer 5 = e := by simpa using he
          norm_num [json_number_value, cInt, cTrunc]
        | 1, he =>
          obtain rfl : Json.integer (-1) = e := by simpa using he
          norm_num [json_number_value, cInt, cTrunc]
        | n + 2, he => simp at he)
    (by
      intro keyJ idx e hg he
      rw [gk] at hg
      cases hg)
    (by
      intro j hg
      rw [gm] at hg
      obtain rfl := Option.some.inj hg
      norm_num [json_integer_value, toInt32])
  have a0 := (h.1 0 0 (by decide) (by decide) (by decide) (by decide)).1
  have a1 := (h.1 0 1 (by decide) (by decide) (by decide) (by decide)).1
  have a2 := (h.1 0 2 (by decide) (by decide) (by decide) (by decide)).1
  have k1 := (h.1 0 1 (by decide) (by decide) (by decide) (by decide)).2
  have am := h.2.1
  rw [go] at a0 a1 a2
  rw [gk] at k1
  rw [gm] at am
  have o2 : (init false).octs 0 2 = 4 := init_octs false 2 (by decide) (by decide)
  have i1 : (init false).keys 0 1 = 4 := init_keys false 1 (by decide) (by decide)
  refine ⟨init_inRange false, hr.1, ?_, ?_, ?_, ?_, ?_⟩
  · rw [am]; norm_num [json_integer_value, toInt32]
  · rw [a0]; norm_num [json_array_get, json_number_value, cInt, cTrunc]
  · rw [a1]; norm_num [json_array_get, json_number_value, cInt, cTrunc]
  · rw [a2]; simp [json_array_get, o2]
  · rw [k1]; simpa using i1

end ChordKey

/-! ## The range invariant -/

namespace ChordKey

theorem rangeStep_refl (a : ChordKey) : RangeStep a a :=
  ⟨fun _ _ => Or.inl rfl, fun _ _ => Or.inl rfl, rfl, rfl⟩

theorem rangeStep_trans (a b c : ChordKey) (h1 : RangeStep a b) (h2 : RangeStep b c) :
    RangeStep a c := by
  refine ⟨fun ci cni => ?_, fun ci cni => ?_, h2.2.2.1.trans h1.2.2.1, h2.2.2.2.trans h1.2.2.2⟩
  · rcases h2.1 ci cni with h | h
    · rcases h1.1 ci cni with g | g
      · exact Or.inl (h.trans g)
      · exact Or.inr (by rw [h]; exact g)
    · exact Or.inr h
  · rcases h2.2.1 ci cni with h | h
    · rcases h1.2.1 ci cni with g | g
      · exact Or.inl (h.trans g)
      · exact Or.inr (by rw [h]; exact g)
    · exact Or.inr h

theorem rangeStep_inRange (a b : ChordKey) (h : RangeStep a b) (ha : InRange a) : InRange b := by
  refine ⟨fun ci cni h1 h2 h3 h4 => ?_, fun cni h3 h4 => ?_⟩
  · have hr := ha.1 ci cni h1 h2 h3 h4
    have ho : -1 ≤ b.octs ci cni ∧ b.octs ci cni ≤ 9 := by
      rcases h.1 ci cni with g | g
      · rw [g]; exact ⟨hr.1, hr.2.1⟩
      · exact g
    have hk : 0 ≤ b.keys ci cni ∧ b.keys ci cni ≤ 11 := by
      rcases h.2.1 ci cni with g | g
      · rw [g]; exact ⟨hr.2.2.1, hr.2.2.2⟩
      · exact g
    exact ⟨ho.1, ho.2, hk.1, hk.2⟩
  · rw [h.2.2.1, h.2.2.2]
    exact ha.2 cni h3 h4

theorem rangeStep_of_noteView (a b : ChordKey) (h : noteView b = noteView a) : RangeStep a b := by
  simp only [noteView, Prod.mk.injEq] at h
  obtain ⟨h1, h2, h3, h4⟩ := h
  exact ⟨fun ci cni => Or.inl (by rw [h1]), fun ci cni => Or.inl (by rw [h2]), h3, h4⟩

theorem rangeStep_forLoop (lo hi : Nat) (body : ChordKey → Int → ChordKey)
    (h : ∀ s i, RangeStep s (body s i)) (s : ChordKey) : RangeStep s (forLoop lo hi body s) :=
  forLoop_rel RangeStep rangeStep_refl rangeStep_trans lo hi body h s

theorem set2_range (a : Int → Int → Int) (i j v ci cni lo hi : Int) (hv : lo ≤ v ∧ v ≤ hi) :
    set2 a i j v ci cni = a ci cni ∨ (lo ≤ set2 a i j v ci cni ∧ set2 a i j v ci cni ≤ hi) := by
  unfold set2
  split_ifs
  · exact Or.inr hv
  · exact Or.inl rfl

theorem setCV_rangeStep (m : ChordKey) (index cni : Int) (cv : ℚ) :
    RangeStep m (m.setCV index cni cv) := by
  have hb := clamp_bounds (eucDiv (cInt (cRound (f32 (cv * 12)))) 12 + 4) 0 9 (by decide)
  have hm : 0 ≤ eucMod (cInt (cRound (f32 (cv * 12)))) 12 ∧ eucMod (cInt (cRound (f32 (cv * 12)))) 12 ≤ 11 := by
    rw [eucMod_twelve]; omega
  exact ⟨fun ci c => set2_range m.octs index cni
      (clamp (eucDiv (cInt (cRound (f32 (cv * 12)))) 12 + 4) 0 9) ci c (-1) 9 ⟨by omega, hb.2⟩,
    fun ci c => set2_range m.keys index cni (eucMod (cInt (cRound (f32 (cv * 12)))) 12) ci c 0 11 hm,
    rfl, rfl⟩

theorem clearNote_rangeStep (index : Int) (m : ChordKey) (j : Int) :
    RangeStep m (clearNote index m j) :=
  ⟨fun ci c => set2_range m.octs index j (-1) ci c (-1) 9 (by decide),
    fun ci c => set2_range m.keys index j 0 ci c 0 11 (by decide), rfl, rfl⟩

theorem applyDelta_rangeStep (m : ChordKey) (index cni delta : Int) :
    RangeStep m (m.applyDelta index cni delta) := by
  have hb := clamp_bounds (m.octs index cni + eucDiv (m.keys index cni + delta) 12) 0 9
    (by decide)
  have hm : 0 ≤ eucMod (m.keys index cni + delta) 12 ∧ eucMod (m.keys index cni + delta) 12 ≤ 11 := by
    rw [eucMod_twelve]; omega
  exact ⟨fun ci c => set2_range m.octs index cni
      (clamp (m.octs index cni + eucDiv (m.keys index cni + delta) 12) 0 9) ci c (-1) 9
      ⟨by omega, hb.2⟩,
    fun ci c => set2_range m.keys index cni (eucMod (m.keys index cni + delta) 12) ci c 0 11 hm,
    rfl, rfl⟩

theorem octIncDecStep_rangeStep (t : Refresh) (index : Int) (m : ChordKey) (cni : Int) :
    RangeStep m (octIncDecStep t index m cni) := by
  refine ⟨fun ci c => ?_, fun ci c => Or.inl (by rw [octIncDecStep_keys]),
    (octIncDecStep_notesOnly t index m cni).octsCP, (octIncDecStep_notesOnly t index m cni).keysCP⟩
  rw [octIncDecStep_octs]
  have b1 := clamp_bounds (m.octs index cni + 1) (-1) 9 (by decide)
  have b2 := clamp_bounds (clamp (m.octs index cni + 1) (-1) 9 - 1) (-1) 9 (by decide)
  have b3 := clamp_bounds (m.octs index cni - 1) (-1) 9 (by decide)
  by_cases hab : ci = index ∧ c = cni
  · obtain ⟨rfl, rfl⟩ := hab
    by_cases hi : t.octInc c = true <;> by_cases hd : t.octDec c = true <;>
      simp [hi, hd, b1, b2, b3]
  · rw [if_neg hab]
    exact Or.inl rfl

theorem transposeNotes_rangeStep (m : ChordKey) (index delta : Int) :
    RangeStep m (transposeNotes m index delta) := by
  unfold transposeNotes
  apply rangeStep_forLoop
  intro s i
  split_ifs
  · exact applyDelta_rangeStep s index i delta
  · exact rangeStep_refl s

theorem transposeButtons_rangeStep (m : ChordKey) (t : Refresh) (index : Int) :
    RangeStep m (transposeButtons m t index) := by
  unfold transposeButtons
  simp only
  split_ifs <;> first | exact transposeNotes_rangeStep _ _ _ | exact rangeStep_refl _

theorem pianoKeys_rangeStep (m : ChordKey) (args : ProcessArgs) (t : Refresh) (index : Int)
    (hk : 0 ≤ m.pkInfo.key ∧ m.pkInfo.key ≤ 11) : RangeStep m (pianoKeys m args t index) := by
  unfold pianoKeys keyTriggerProcess
  simp only
  split_ifs
  · exact ⟨fun ci c => Or.inl rfl,
      fun ci c => set2_range m.keys index _ m.pkInfo.key ci c 0 11 hk, rfl, rfl⟩
  · exact ⟨fun ci c => Or.inl rfl, fun ci c => Or.inl rfl, rfl, rfl⟩
  · exact ⟨fun ci c => Or.inl rfl, fun ci c => Or.inl rfl, rfl, rfl⟩

end ChordKey

namespace ChordKey

theorem topOutputChannels_noteView (m : ChordKey) :
    noteView (topOutputChannels m) = noteView m := by
  unfold topOutputChannels; split_ifs <;> rfl

theorem writeOwn_noteView (g c : Int → ℚ) (s : ChordKey) (i : Int) :
    noteView (writeOwn g c s i) = noteView s := rfl

theorem writeMerged_noteView (g c : Int → ℚ) (s : ChordKey) (i : Int) :
    noteView (writeMerged g c s i) = noteView s := rfl

theorem writeZero_noteView (s : ChordKey) (i : Int) :
    noteView (writeZero s i) = noteView s := rfl

theorem outputPhase_noteView (x : ChordKey) (index : Int) :
    noteView (outputPhase x index) = noteView x := by
  unfold outputPhase
  simp only
  split_ifs
  · exact forLoop_preserves noteView 0 4 _ (writeOwn_noteView _ _) x
  · exact (forLoop_preserves noteView 2 4 _ (writeOwn_noteView _ _) _).trans
      ((forLoop_preserves noteView 0 2 _ (writeMerged_noteView _ _) _).trans
        (writeZero_noteView x 1))
  · exact (writeOwn_noteView _ _ _ 3).trans
      ((forLoop_preserves noteView 0 3 _ (writeMerged_noteView _ _) _).trans
        (forLoop_preserves noteView 1 3 _ writeZero_noteView x))
  · exact (forLoop_preserves noteView 0 4 _ (writeMerged_noteView _ _) _).trans
      (forLoop_preserves noteView 1 4 _ writeZero_noteView x)

theorem lightKey_noteView (index : Int) (s : ChordKey) (ki : Int) :
    noteView (lightKey index s ki) = noteView s :=
  forLoop_preserves noteView 0 4 (lightNote index ki) (fun _ _ => rfl) s

theorem lightsPhase_noteView (x : ChordKey) (index : Int) :
    noteView (lightsPhase x index) = noteView x := by
  have h := forLoop_preserves noteView 0 12 (lightKey index) (lightKey_noteView index) x
  have e : ∀ s : ChordKey, noteView
      (if s.offWarning > 0 then { s with offWarning := s.offWarning - 1 } else s)
        = noteView s := by
    intro s
    split_ifs <;> rfl
  exact (e (forLoop 0 12 (lightKey index) x)).trans h

theorem octIncDec_rangeStep (m : ChordKey) (t : Refresh) (index : Int) :
    RangeStep m (octIncDec m t index) :=
  rangeStep_forLoop 0 4 _ (octIncDecStep_rangeStep t index) m

theorem controlPhase_rangeStep (m : ChordKey) (args : ProcessArgs) (t : Refresh) (index : Int)
    (hk : 0 ≤ m.pkInfo.key ∧ m.pkInfo.key ≤ 11) :
    RangeStep m (controlPhase m args t index) := by
  have hpk : (transposeButtons (octIncDec m t index) t index).pkInfo = m.pkInfo :=
    (beforeKeys_notesOnly m t index).pkInfo
  unfold controlPhase
  exact rangeStep_trans _ _ _
    (rangeStep_trans _ _ _
      (rangeStep_trans _ _ _ (octIncDec_rangeStep m t index)
        (transposeButtons_rangeStep _ t index))
      (pianoKeys_rangeStep _ args t index (by rw [hpk]; exact hk)))
    (rangeStep_of_noteView _ _ (topOutputChannels_noteView _))

theorem process_rangeStep (m : ChordKey) (args : ProcessArgs) (t : Refresh)
    (hk : 0 ≤ m.pkInfo.key ∧ m.pkInfo.key ≤ 11) : RangeStep m (process m args t) := by
  have h1 : RangeStep m (if t.processInputs then controlPhase m args t m.getIndex else m) := by
    split_ifs
    · exact controlPhase_rangeStep m args t m.getIndex hk
    · exact rangeStep_refl m
  unfold process
  simp only
  generalize (if t.processInputs then controlPhase m args t m.getIndex else m) = x at h1
  have h2 : RangeStep m (outputPhase x m.getIndex) :=
    rangeStep_trans _ _ _ h1 (rangeStep_of_noteView _ _ (outputPhase_noteView x m.getIndex))
  split_ifs
  · exact rangeStep_trans _ _ _ h2 (rangeStep_of_noteView _ _ (lightsPhase_noteView _ _))
  · exact h2

theorem emptyIoNotesSeq_rangeStep (m : ChordKey) (ioNotes : List IoNote) :
    RangeStep m (emptyIoNotesSeq m ioNotes) := by
  unfold emptyIoNotesSeq
  exact rangeStep_trans _ _ _
    (rangeStep_forLoop 0 _ _ (fun s i => setCV_rangeStep s m.getIndex i _) m)
    (rangeStep_forLoop _ 4 _ (fun s i => clearNote_rangeStep m.getIndex s i) _)

theorem chordNote_rangeStep (ioNotes : List IoNote) (index : Int) (firstTime : ℚ)
    (st : ChordKey × Int) (i : Int) :
    RangeStep st.1 (chordNote ioNotes index firstTime st i).1 := by
  unfold chordNote
  split_ifs
  · exact setCV_rangeStep st.1 index st.2 _
  · exact rangeStep_refl st.1

theorem emptyIoNotesChord_rangeStep (m : ChordKey) (ioNotes : List IoNote) :
    RangeStep m (emptyIoNotesChord m ioNotes) := by
  unfold emptyIoNotesChord
  simp only
  have h1 : ∀ (k : Nat) (ft : ℚ), RangeStep m
      (forLoop 0 k (chordNote ioNotes m.getIndex ft) (m, 0)).1 := by
    intro k ft
    exact forLoop_rel (fun a b : ChordKey × Int => RangeStep a.1 b.1)
      (fun s => rangeStep_refl s.1) (fun a b c => rangeStep_trans a.1 b.1 c.1) 0 k _
      (fun s i => chordNote_rangeStep ioNotes m.getIndex ft s i) (m, 0)
  split_ifs
  · exact rangeStep_trans _ _ _ (h1 _ _)
      (rangeStep_forLoop _ 4 _ (fun s i => clearNote_rangeStep m.getIndex s i) _)
  · exact rangeStep_forLoop _ 4 _ (fun s i => clearNote_rangeStep m.getIndex s i) _

theorem autostep_noteView (x : ChordKey) : noteView (autostep x) = noteView x := by
  unfold autostep
  split_ifs <;> rfl

end ChordKey

namespace ChordKey

theorem getIndex_bounds (m : ChordKey) : 0 ≤ m.getIndex ∧ m.getIndex ≤ 24 :=
  clamp_bounds _ 0 24 (by decide)

theorem copyChord_inRange (m : ChordKey) (hm : InRange m) : InRange (copyChord m) := by
  have hi : 0 ≤ m.getIndex ∧ m.getIndex < 25 := by
    have h := getIndex_bounds m
    omega
  have hnotes : (copyChord m).octs = m.octs ∧ (copyChord m).keys = m.keys := by
    have h := forLoop_preserves (fun s : ChordKey => (s.octs, s.keys)) 0 4
      (fun st cni =>
        { st with octsCP := set1 st.octsCP cni (st.octs m.getIndex cni),
                  keysCP := set1 st.keysCP cni (st.keys m.getIndex cni) })
      (fun _ _ => rfl) m
    exact ⟨congrArg Prod.fst h, congrArg Prod.snd h⟩
  have hclip : ∀ cni : Int, 0 ≤ cni → cni < 4 →
      (copyChord m).octsCP cni = m.octs m.getIndex cni ∧
      (copyChord m).keysCP cni = m.keys m.getIndex cni := by
    intro cni h3 h4
    unfold copyChord
    rw [forLoop_zero_four]
    have hc : cni = 0 ∨ cni = 1 ∨ cni = 2 ∨ cni = 3 := by omega
    rcases hc with rfl | rfl | rfl | rfl <;> simp [set1]
  refine ⟨fun ci cni h1 h2 h3 h4 => ?_, fun cni h3 h4 => ?_⟩
  · rw [hnotes.1, hnotes.2]
    exact hm.1 ci cni h1 h2 h3 h4
  · rw [(hclip cni h3 h4).1, (hclip cni h3 h4).2]
    exact hm.1 m.getIndex cni hi.1 hi.2 h3 h4

theorem pasteChord_inRange (m : ChordKey) (hm : InRange m) : InRange (pasteChord m) := by
  have hclip : (pasteChord m).octsCP = m.octsCP ∧ (pasteChord m).keysCP = m.keysCP := by
    have h := forLoop_preserves (fun s : ChordKey => (s.octsCP, s.keysCP)) 0 4
      (fun st cni =>
        { st with octs := set2 st.octs m.getIndex cni (st.octsCP cni),
                  keys := set2 st.keys m.getIndex cni (st.keysCP cni) })
      (fun _ _ => rfl) m
    exact ⟨congrArg Prod.fst h, congrArg Prod.snd h⟩
  have hcell : ∀ ci cni : Int, 0 ≤ cni → cni < 4 →
      ((pasteChord m).octs ci cni = m.octs ci cni ∨ (pasteChord m).octs ci cni = m.octsCP cni) ∧
      ((pasteChord m).keys ci cni = m.keys ci cni ∨ (pasteChord m).keys ci cni = m.keysCP cni) := by
    intro ci cni h3 h4
    unfold pasteChord
    rw [forLoop_zero_four]
    have hc : cni = 0 ∨ cni = 1 ∨ cni = 2 ∨ cni = 3 := by omega
    by_cases hci : ci = m.getIndex
    · rcases hc with rfl | rfl | rfl | rfl <;> simp [set2, hci]
    · rcases hc with rfl | rfl | rfl | rfl <;> simp [set2, hci]
  refine ⟨fun ci cni h1 h2 h3 h4 => ?_, fun cni h3 h4 => ?_⟩
  · have hr := hm.1 ci cni h1 h2 h3 h4
    have hcp := hm.2 cni h3 h4
    obtain ⟨ho, hk⟩ := hcell ci cni h3 h4
    have ho2 : -1 ≤ (pasteChord m).octs ci cni ∧ (pasteChord m).octs ci cni ≤ 9 := by
      rcases ho with g | g <;> rw [g]
      · exact ⟨hr.1, hr.2.1⟩
      · exact ⟨hcp.1, hcp.2.1⟩
    have hk2 : 0 ≤ (pasteChord m).keys ci cni ∧ (pasteChord m).keys ci cni ≤ 11 := by
      rcases hk with g | g <;> rw [g]
      · exact ⟨hr.2.2.1, hr.2.2.2⟩
      · exact ⟨hcp.2.2.1, hcp.2.2.2⟩
    exact ⟨ho2.1, ho2.2, hk2.1, hk2.2⟩
  · rw [hclip.1, hclip.2]
    exact hm.2 cni h3 h4

theorem onRandomize_clipboard (m : ChordKey) (rnd : Nat → Nat) :
    (onRandomize m rnd).octsCP = m.octsCP ∧ (onRandomize m rnd).keysCP = m.keysCP := by
  have hin : ∀ (ci : Int) (s : ChordKey × Nat) (c : Int),
      (fun s : ChordKey × Nat => (s.1.octsCP, s.1.keysCP)) (randomizeNote rnd ci s c)
        = (fun s : ChordKey × Nat => (s.1.octsCP, s.1.keysCP)) s := fun _ _ _ => rfl
  have h : ((forLoop 0 25 (randomizeChord rnd) (m, 0)).1.octsCP,
      (forLoop 0 25 (randomizeChord rnd) (m, 0)).1.keysCP) = (m.octsCP, m.keysCP) :=
    forLoop_preserves (fun s : ChordKey × Nat => (s.1.octsCP, s.1.keysCP)) 0 25
      (randomizeChord rnd)
      (fun s ci => forLoop_preserves (fun s : ChordKey × Nat => (s.1.octsCP, s.1.keysCP)) 0 4
        (randomizeNote rnd ci) (hin ci) s) (m, 0)
  unfold onRandomize
  simp only [Prod.mk.injEq] at h
  exact h

theorem onRandomize_inRangeAll (m : ChordKey) (rnd : Nat → Nat) (hm : InRange m) :
    InRange (onRandomize m rnd) := by
  refine ⟨fun ci cni h1 h2 h3 h4 => ?_, fun cni h3 h4 => ?_⟩
  · have h := randomizeLoop_inRange rnd m 25 ci cni h1 (by simpa using h2) h3 h4
    unfold onRandomize
    exact ⟨le_trans (by decide) h.1, h.2.1, h.2.2.1, h.2.2.2⟩
  · rw [(onRandomize_clipboard m rnd).1, (onRandomize_clipboard m rnd).2]
    exact hm.2 cni h3 h4

/-- Every valid operation keeps the range invariant. -/
theorem applyOp_inRange (m : ChordKey) (op : Op) (hv : op.Valid) (hm : InRange m) :
    InRange (applyOp m op) := by
  cases op with
  | host params inputs => exact hm
  | tick args t pk =>
    have hm2 : InRange { m with pkInfo := pk } := hm
    exact rangeStep_inRange _ _ (process_rangeStep { m with pkInfo := pk } args t hv) hm2
  | slider q value =>
    show InRange (q.setValue m value).2
    unfold TransposeQuantity.setValue
    simp only
    split_ifs
    · exact rangeStep_inRange _ _ (transposeNotes_rangeStep m m.getIndex _) hm
    · exact hm
  | transpose delta =>
    exact rangeStep_inRange _ _ (transposeNotes_rangeStep m m.getIndex delta) hm
  | pasteSeq pasted =>
    cases pasted with
    | none => exact hm
    | some ioNotes =>
      exact rangeStep_inRange _ _
        (rangeStep_trans _ _ _ (emptyIoNotesSeq_rangeStep m ioNotes)
          (rangeStep_of_noteView _ _ (autostep_noteView _))) hm
  | pasteChord pasted =>
    cases pasted with
    | none => exact hm
    | some ioNotes =>
      exact rangeStep_inRange _ _
        (rangeStep_trans _ _ _ (emptyIoNotesChord_rangeStep m ioNotes)
          (rangeStep_of_noteView _ _ (autostep_noteView _))) hm
  | copy => exact copyChord_inRange m hm
  | paste => exact pasteChord_inRange m hm
  | randomize rnd => exact onRandomize_inRangeAll m rnd hm
  | reset => exact onReset_inRange m

theorem foldl_applyOp_inRange (ops : List Op) (m : ChordKey)
    (hv : ∀ op ∈ ops, op.Valid) (hm : InRange m) : InRange (ops.foldl applyOp m) := by
  induction ops generalizing m with
  | nil => exact hm
  | cons op rest ih =>
    rw [List.foldl_cons]
    exact ih (applyOp m op) (fun o ho => hv o (List.mem_cons_of_mem _ ho))
      (applyOp_inRange m op (hv op (List.mem_cons_self _ _)) hm)

/-- C13. State-range invariant. Starting from the reset state, after any
sequence of runtime operations (calls of `process` with octave steps,
transpose edges and key presses with a key in 0..11, the menu transpose slider,
a transposition by any integer, import as sequence, import as chord, internal
copy and paste, randomize, reset, the host moving knobs and cables in
between) every octave of all 25 slots and of the clipboard is in [-1, 9] and
every semitone is in [0, 11]. -/
theorem inRange_reachable (m0 : ChordKey) (ops : List Op) (hv : ∀ op ∈ ops, op.Valid) :
    InRange (ops.foldl applyOp (onReset m0)) :=
  foldl_applyOp_inRange ops (onReset m0) hv (onReset_inRange m0)

end ChordKey

namespace ChordKey

/-- Witness of C13: a run of seven operations from the reset state, all valid,
ends in range. -/
theorem inRange_reachable_witness :
    (∀ op ∈ sampleOps, op.Valid) ∧ InRange (sampleOps.foldl applyOp (onReset blank)) := by
  have hv : ∀ op ∈ sampleOps, op.Valid := by
    intro op h
    simp only [sampleOps, List.mem_cons, List.mem_singleton, List.not_mem_nil, or_false] at h
    rcases h with rfl | rfl | rfl | rfl | rfl | rfl | rfl
    · exact ⟨by decide, by decide⟩
    all_goals trivial
  exact ⟨hv, inRange_reachable blank sampleOps hv⟩

end ChordKey

/-! ## The expander link -/

theorem clamp_cRound_half (x : ℚ) : clamp (cRound x) 0 1 = if 1 / 2 ≤ x then 1 else 0 := by
  unfold clamp cRound
  by_cases h : 1 / 2 ≤ x
  · have h1 : (0 : ℚ) ≤ x := by linarith
    have h2 : 1 ≤ ⌊x + 1 / 2⌋ := Int.le_floor.mpr (by push_cast; linarith)
    rw [if_pos h1, if_pos h]
    omega
  · rw [if_neg h]
    push_neg at h
    by_cases h1 : (0 : ℚ) ≤ x
    · rw [if_pos h1]
      have h2 : ⌊x + 1 / 2⌋ < 1 := Int.floor_lt.mpr (by push_cast; linarith)
      have h3 : 0 ≤ ⌊x + 1 / 2⌋ := Int.floor_nonneg.mpr (by linarith)
      omega
    · rw [if_neg h1]
      have h3 : 0 ≤ ⌊-x + 1 / 2⌋ := Int.floor_nonneg.mpr (by linarith)
      omega

theorem clampF_bounds (x a b : ℚ) (h : a ≤ b) : a ≤ clampF x a b ∧ clampF x a b ≤ b := by
  unfold clampF
  exact ⟨le_max_right _ _, max_le (min_le_right _ _) h⟩

namespace ClockedExpander

/-- The theme and the contrast after a refresh tick next to a recognised
mother. -/
theorem process_linked (m : ClockedExpander) (skips : Nat) (modelClocked : Int)
    (hr : refreshDue m skips = true) (hp : motherPresent m modelClocked = true) :
    (m.process skips modelClocked).panelTheme
        = clamp (cInt (f32 (m.leftMessages m.consumerMessage 0 + 1 / 2))) 0 1 ∧
      (m.process skips modelClocked).panelContrast
        = clampF (m.leftMessages m.consumerMessage 1) 0 255 := by
  have hr2 : (m.expanderRefreshCounter + 1) % 4294967296 ≥ skips := by
    simpa [refreshDue] using hr
  unfold motherPresent at hp
  cases hl : m.leftModule with
  | none => rw [hl] at hp; simp at hp
  | some mother =>
    rw [hl] at hp
    have hmod : mother.model = modelClocked := by simpa using hp
    constructor
    · unfold process
      simp only [hl]
      rw [if_pos hr2]
      simp only [if_pos hmod]
    · unfold process
      simp only [hl]
      rw [if_pos hr2]
      simp only [if_pos hmod]

/-- C21 (as amended). ExpanderLink read-back. On a refresh tick of
`ClockedExpander` with a recognised mother on its left, `panelTheme` becomes
`(int)(theme + 0.5f)` (single-precision sum) clamped to 0..1: it is 1 when
`0.5 - 2^-25 ≤ theme < 2^31 - 64.5` and 0 otherwise, which is the rounded theme
clamped to 0..1 for every theme below `2^31 - 64.5` that is not in
`[0.5 - 2^-25, 0.5)`; `panelContrast` becomes the contrast clamped to [0, 255].
On any other call (no recognised mother, or no refresh tick) `panelTheme` and
`panelContrast` keep their values and nothing is written to the mother (its
buffer and flip flag), to the message buffers of the expander or to its
ports. -/
theorem process_readBack (m : ClockedExpander) (skips : Nat) (modelClocked : Int) :
    (refreshDue m skips = true → motherPresent m modelClocked = true →
        (m.process skips modelClocked).panelTheme
            = clamp (cInt (f32 (m.leftMessages m.consumerMessage 0 + 1 / 2))) 0 1 ∧
          (m.process skips modelClocked).panelTheme
            = (if 1 / 2 - 1 / 33554432 ≤ m.leftMessages m.consumerMessage 0 ∧
                  m.leftMessages m.consumerMessage 0 < 2147483584 - 1 / 2 then 1 else 0) ∧
          ((m.process skips modelClocked).panelTheme = 0 ∨
            (m.process skips modelClocked).panelTheme = 1) ∧
          ((m.leftMessages m.consumerMessage 0 < 1 / 2 - 1 / 33554432 ∨
              1 / 2 ≤ m.leftMessages m.consumerMessage 0) →
            m.leftMessages m.consumerMessage 0 < 2147483584 - 1 / 2 →
            (m.process skips modelClocked).panelTheme
              = clamp (cRound (m.leftMessages m.consumerMessage 0)) 0 1) ∧
          (m.process skips modelClocked).panelContrast
            = clampF (m.leftMessages m.consumerMessage 1) 0 255 ∧
          0 ≤ (m.process skips modelClocked).panelContrast ∧
          (m.process skips modelClocked).panelContrast ≤ 255) ∧
      (¬ (refreshDue m skips = true ∧ motherPresent m modelClocked = true) →
        (m.process skips modelClocked).panelTheme = m.panelTheme ∧
          (m.process skips modelClocked).panelContrast = m.panelContrast ∧
          (m.process skips modelClocked).leftModule = m.leftModule ∧
          (m.process skips modelClocked).leftMessages = m.leftMessages ∧
          (m.process skips modelClocked).producerMessage = m.producerMessage ∧
          (m.process skips modelClocked).consumerMessage = m.consumerMessage ∧
          (m.process skips modelClocked).inputs = m.inputs) := by
  constructor
  · intro hr hp
    obtain ⟨hT, hC⟩ := process_linked m skips modelClocked hr hp
    have hb := clampF_bounds (m.leftMessages m.consumerMessage 1) 0 255 (by norm_num)
    have hk := clamp_cInt_f32 (m.leftMessages m.consumerMessage 0 + 1 / 2)
    have hval : (m.process skips modelClocked).panelTheme
        = (if 1 / 2 - 1 / 33554432 ≤ m.leftMessages m.consumerMessage 0 ∧
            m.leftMessages m.consumerMessage 0 < 2147483584 - 1 / 2 then 1 else 0) := by
      rw [hT, hk]
      by_cases hc : 1 / 2 - 1 / 33554432 ≤ m.leftMessages m.consumerMessage 0 ∧
          m.leftMessages m.consumerMessage 0 < 2147483584 - 1 / 2
      · rw [if_pos hc, if_pos ⟨by linarith [hc.1], by linarith [hc.2]⟩]
      · rw [if_neg hc, if_neg]
        intro hc2
        exact hc ⟨by linarith [hc2.1], by linarith [hc2.2]⟩
    refine ⟨hT, hval, ?_, fun hside hbig => ?_, hC, hC ▸ hb.1, hC ▸ hb.2⟩
    · rw [hval]
      split_ifs
      · exact Or.inr rfl
      · exact Or.inl rfl
    · rw [hval, clamp_cRound_half]
      rcases hside with hlow | hhigh
      · rw [if_neg (by intro hc; linarith [hc.1]), if_neg (by linarith)]
      · rw [if_pos ⟨by linarith, hbig⟩, if_pos hhigh]
  · intro hn
    unfold process
    by_cases hr2 : (m.expanderRefreshCounter + 1) % 4294967296 ≥ skips
    · have hr : refreshDue m skips = true := by simpa [refreshDue] using hr2
      have hp : ¬ motherPresent m modelClocked = true := fun h => hn ⟨hr, h⟩
      unfold motherPresent at hp
      simp only
      rw [if_pos hr2]
      cases hl : m.leftModule with
      | none => simp [hl]
      | some mother =>
        rw [hl] at hp
        have hmod : ¬ mother.model = modelClocked := by simpa using hp
        simp [hl, hmod]
    · simp only
      rw [if_neg hr2]
      simp

/-- Counterexample to C21 as stated: the theme 0.49999997 (the `float` just below
0.5) rounds to 0, but the single-precision sum with 0.5 is 1 and `panelTheme`
becomes 1. -/
theorem process_belowHalf :
    refreshDue (linkedTheme belowHalf) 4 = true ∧
      motherPresent (linkedTheme belowHalf) 7 = true ∧
      (linkedTheme belowHalf).leftMessages (linkedTheme belowHalf).consumerMessage 0
        = 16777215 / 33554432 ∧
      clamp (cRound (16777215 / 33554432)) 0 1 = 0 ∧
      ((linkedTheme belowHalf).process 4 7).panelTheme = 1 := by
  have hr : refreshDue (linkedTheme belowHalf) 4 = true := by decide
  have hp : motherPresent (linkedTheme belowHalf) 7 = true := by decide
  have ht : (linkedTheme belowHalf).leftMessages (linkedTheme belowHalf).consumerMessage 0
      = 16777215 / 33554432 := by
    simp [linkedTheme, linked, belowHalf]
  have h := (process_linked (linkedTheme belowHalf) 4 7 hr hp).1
  rw [ht, clamp_cInt_f32] at h
  refine ⟨hr, hp, ht, by norm_num [cRound, clamp], ?_⟩
  rw [h]
  norm_num

/-- Witness of C21 (as amended): next to a Clocked, theme 0.6 and contrast 300 are
read back as 1 and 255 on the refresh tick; next to another module the theme and
the contrast stay 0 and 220. -/
theorem process_readBack_witness :
    refreshDue linked 4 = true ∧ motherPresent linked 7 = true ∧
      (linked.process 4 7).panelTheme = 1 ∧ (linked.process 4 7).panelContrast = 255 ∧
      ¬ (refreshDue unlinked 4 = true ∧ motherPresent unlinked 7 = true) ∧
      (unlinked.process 4 7).panelTheme = 0 ∧ (unlinked.process 4 7).panelContrast = 220 := by
  have hr : refreshDue linked 4 = true := by decide
  have hp : motherPresent linked 7 = true := by decide
  have hn : ¬ (refreshDue unlinked 4 = true ∧ motherPresent unlinked 7 = true) := by decide
  have a := (process_readBack linked 4 7).1 hr hp
  have b := (process_readBack unlinked 4 7).2 hn
  have ht : linked.leftMessages linked.consumerMessage 0 = 6 / 10 := by simp [linked]
  have t : (if 1 / 2 - 1 / 33554432 ≤ linked.leftMessages linked.consumerMessage 0 ∧
      linked.leftMessages linked.consumerMessage 0 < 2147483584 - 1 / 2 then (1 : Int) else 0)
      = 1 := by
    rw [ht]; norm_num
  have c : clampF (linked.leftMessages linked.consumerMessage 1) 0 255 = 255 := by
    norm_num [linked, clampF]
  exact ⟨hr, hp, a.2.1.trans t, a.2.2.2.2.1.trans c, hn, b.1, b.2.1⟩

end ClockedExpander

/-! ## Encode undoes decode -/

namespace ChordKey

/-- The note number `setCV` computes when it is given the voltage of a chord
note in range: the products and the rounding are exact on it. -/
theorem cvNote_calcCV (m : ChordKey) (index cni : Int)
    (ho : 0 ≤ m.octs index cni) (ho9 : m.octs index cni ≤ 9)
    (hk : 0 ≤ m.keys index cni) (hk11 : m.keys index cni ≤ 11) :
    cvNote (m.calcCV index cni) = 12 * (m.octs index cni - 4) + m.keys index cni := by
  have h : m.calcCV index cni * 12
      = ((12 * (m.octs index cni - 4) + m.keys index cni : Int) : ℚ) := by
    unfold calcCV
    rw [if_pos ho]
    push_cast
    ring
  exact cvNote_of_int _ _ h (by rw [abs_lt]; constructor <;> omega)

theorem setCV_calcCV_cell (m m2 : ChordKey) (index cni index2 cni2 : Int)
    (ho : 0 ≤ m.octs index cni) (ho9 : m.octs index cni ≤ 9)
    (hk : 0 ≤ m.keys index cni) (hk11 : m.keys index cni ≤ 11) :
    (m2.setCV index2 cni2 (m.calcCV index cni)).octs index2 cni2 = m.octs index cni ∧
      (m2.setCV index2 cni2 (m.calcCV index cni)).keys index2 cni2 = m.keys index cni := by
  rw [setCV_octs, setCV_keys, cvNote_calcCV m index cni ho ho9 hk hk11]
  have h1 : (12 * (m.octs index cni - 4) + m.keys index cni) / 12 = m.octs index cni - 4 := by
    omega
  have h2 : (12 * (m.octs index cni - 4) + m.keys index cni) % 12 = m.keys index cni := by
    omega
  rw [h1, h2, sub_add_cancel]
  exact ⟨clamp_of_mem ho ho9, rfl⟩

theorem fillIoNotes_list (m : ChordKey) :
    (fillIoNotes m).1 = (nonOffPositions m).map
      (fun i => { start := 0, length := 1 / 2, pitch := m.calcCV m.getIndex i,
                  vel := -1, prob := -1 }) := by
  unfold fillIoNotes nonOffPositions
  rw [forLoop_zero_four]
  by_cases h0 : m.octs m.getIndex 0 ≥ 0 <;> by_cases h1 : m.octs m.getIndex 1 ≥ 0 <;>
    by_cases h2 : m.octs m.getIndex 2 ≥ 0 <;> by_cases h3 : m.octs m.getIndex 3 ≥ 0 <;>
    simp [fillNote, h0, h1, h2, h3, List.filter]

theorem nonOffPositions_mem (m : ChordKey) (p : Int) (h : p ∈ nonOffPositions m) :
    0 ≤ p ∧ p < 4 ∧ 0 ≤ m.octs m.getIndex p := by
  unfold nonOffPositions at h
  rw [List.mem_filter] at h
  obtain ⟨h1, h2⟩ := h
  have h3 : 0 ≤ m.octs m.getIndex p := by simpa using h2
  simp only [List.mem_cons, List.mem_singleton, List.not_mem_nil, or_false] at h1
  refine ⟨?_, ?_, h3⟩ <;> omega

theorem nonOffPositions_length (m : ChordKey) : (nonOffPositions m).length ≤ 4 := by
  unfold nonOffPositions
  exact (List.length_filter_le _ _).trans (by simp)

/-- The cells of the active slot after `emptyIoNotesSeq`. -/
theorem emptyIoNotesSeq_cells (m : ChordKey) (ioNotes : List IoNote) :
    (∀ (i : Nat) (h : i < ioNotes.length), i < 4 →
        (emptyIoNotesSeq m ioNotes).octs m.getIndex i
            = (m.setCV m.getIndex i ioNotes[i].pitch).octs m.getIndex i ∧
          (emptyIoNotesSeq m ioNotes).keys m.getIndex i
            = (m.setCV m.getIndex i ioNotes[i].pitch).keys m.getIndex i) ∧
      (∀ i : Nat, ioNotes.length ≤ i → i < 4 →
        (emptyIoNotesSeq m ioNotes).octs m.getIndex i = -1 ∧
          (emptyIoNotesSeq m ioNotes).keys m.getIndex i = 0) := by
  have hlen : ioNotes.length = 0 ∨ ioNotes.length = 1 ∨ ioNotes.length = 2 ∨
      ioNotes.length = 3 ∨ 4 ≤ ioNotes.length := by omega
  refine ⟨fun i h hi => ?_, fun i h hi => ?_⟩
  · rcases hlen with h0 | h1 | h2 | h3 | h4
    · omega
    · rw [emptyIoNotesSeq_stop m ioNotes 1 (by omega)]
      obtain rfl : i = 0 := by omega
      simp [forLoop_zero_one, forLoop_one_four, setCV, set2, noteAt, h]
    · rw [emptyIoNotesSeq_stop m ioNotes 2 (by omega)]
      have hi2 : i = 0 ∨ i = 1 := by omega
      rcases hi2 with rfl | rfl <;>
        simp [forLoop_zero_two, forLoop_two_four, setCV, set2, noteAt, h]
    · rw [emptyIoNotesSeq_stop m ioNotes 3 (by omega)]
      have hi2 : i = 0 ∨ i = 1 ∨ i = 2 := by omega
      rcases hi2 with rfl | rfl | rfl <;>
        simp [forLoop_zero_three, forLoop_three_four, setCV, set2, noteAt, h]
    · rw [emptyIoNotesSeq_stop m ioNotes 4 (by omega)]
      have hi2 : i = 0 ∨ i = 1 ∨ i = 2 ∨ i = 3 := by omega
      rcases hi2 with rfl | rfl | rfl | rfl <;>
        simp [forLoop_zero_four, forLoop_empty, setCV, set2, noteAt, h]
  · rcases hlen with h0 | h1 | h2 | h3 | h4
    · rw [emptyIoNotesSeq_stop m ioNotes 0 (by omega)]
      have hi2 : i = 0 ∨ i = 1 ∨ i = 2 ∨ i = 3 := by omega
      rcases hi2 with rfl | rfl | rfl | rfl <;>
        simp [forLoop_zero_four, forLoop_empty, set2]
    · rw [emptyIoNotesSeq_stop m ioNotes 1 (by omega)]
      have hi2 : i = 1 ∨ i = 2 ∨ i = 3 := by omega
      rcases hi2 with rfl | rfl | rfl <;>
        simp [forLoop_zero_one, forLoop_one_four, setCV, set2]
    · rw [emptyIoNotesSeq_stop m ioNotes 2 (by omega)]
      have hi2 : i = 2 ∨ i = 3 := by omega
      rcases hi2 with rfl | rfl <;>
        simp [forLoop_zero_two, forLoop_two_four, setCV, set2]
    · rw [emptyIoNotesSeq_stop m ioNotes 3 (by omega)]
      obtain rfl : i = 3 := by omega
      simp [forLoop_zero_three, forLoop_three_four, setCV, set2]
    · omega

/-- C22. Encode undoes decode. For every chord note with octave in 0..9 and
semitone in 0..11, `setCV` applied to the voltage `calcCV` computes for it
stores exactly that octave and semitone again (in any position of any module).
Hence, when the notes of the active slot that are not turned off are in range, a
chord exported with `fillIoNotes` and imported with `emptyIoNotesSeq` holds, in
the leading positions `j` of the active slot of the importing module, the octave,
semitone and voltage of the `j`-th note that is not turned off, and the
remaining positions are OFF with semitone 0. -/
theorem setCV_calcCV_exact (m m2 : ChordKey) :
    (∀ index cni index2 cni2 : Int,
        0 ≤ m.octs index cni → m.octs index cni ≤ 9 →
        0 ≤ m.keys index cni → m.keys index cni ≤ 11 →
        (m2.setCV index2 cni2 (m.calcCV index cni)).octs index2 cni2 = m.octs index cni ∧
          (m2.setCV index2 cni2 (m.calcCV index cni)).keys index2 cni2 = m.keys index cni) ∧
      ((∀ cni : Int, 0 ≤ cni → cni < 4 → 0 ≤ m.octs m.getIndex cni →
          m.octs m.getIndex cni ≤ 9 ∧ 0 ≤ m.keys m.getIndex cni ∧ m.keys m.getIndex cni ≤ 11) →
        (∀ (j : Nat) (h : j < (nonOffPositions m).length),
          (emptyIoNotesSeq m2 (fillIoNotes m).1).octs m2.getIndex j
              = m.octs m.getIndex ((nonOffPositions m)[j]) ∧
            (emptyIoNotesSeq m2 (fillIoNotes m).1).keys m2.getIndex j
              = m.keys m.getIndex ((nonOffPositions m)[j]) ∧
            (emptyIoNotesSeq m2 (fillIoNotes m).1).calcCV m2.getIndex j
              = m.calcCV m.getIndex ((nonOffPositions m)[j])) ∧
        (∀ j : Nat, (nonOffPositions m).length ≤ j → j < 4 →
          (emptyIoNotesSeq m2 (fillIoNotes m).1).octs m2.getIndex j = -1 ∧
            (emptyIoNotesSeq m2 (fillIoNotes m).1).keys m2.getIndex j = 0)) := by
  refine ⟨fun index cni index2 cni2 ho ho9 hk hk11 =>
    setCV_calcCV_cell m m2 index cni index2 cni2 ho ho9 hk hk11, fun hin => ?_⟩
  have hc := emptyIoNotesSeq_cells m2 (fillIoNotes m).1
  have hl : (fillIoNotes m).1.length = (nonOffPositions m).length := by
    rw [fillIoNotes_list, List.length_map]
  have h4 := nonOffPositions_length m
  refine ⟨fun j h => ?_, fun j h hj => ?_⟩
  · have hmem := nonOffPositions_mem m _ (List.getElem_mem h)
    have hr := hin _ hmem.1 hmem.2.1 hmem.2.2
    have hj : j < (fillIoNotes m).1.length := by omega
    have hp : ((fillIoNotes m).1[j]).pitch = m.calcCV m.getIndex ((nonOffPositions m)[j]) := by
      simp [fillIoNotes_list]
    have hcj := hc.1 j hj (by omega)
    rw [hp] at hcj
    have hcell := setCV_calcCV_cell m m2 m.getIndex ((nonOffPositions m)[j]) m2.getIndex j
      hmem.2.2 hr.1 hr.2.1 hr.2.2
    have ho := hcj.1.trans hcell.1
    have hk := hcj.2.trans hcell.2
    refine ⟨ho, hk, ?_⟩
    unfold calcCV
    rw [ho, hk]
  · exact hc.2 j (by omega) hj

end ChordKey

namespace ChordKey

theorem gappedChord_getIndex : gappedChord.getIndex = 0 := by
  have h := init_getIndex false
  simpa [getIndex, gappedChord] using h

theorem gappedChord_octs (cni : Int) (c0 : 0 ≤ cni) (c4 : cni < 4) :
    gappedChord.octs 0 cni = if cni = 1 ∨ cni = 3 then -1 else 4 := by
  have h := init_octs false cni c0 c4
  have hc : cni = 0 ∨ cni = 1 ∨ cni = 2 ∨ cni = 3 := by omega
  rcases hc with rfl | rfl | rfl | rfl <;> simp [gappedChord, set2, h]

theorem gappedChord_keys_eq : gappedChord.keys = (init false).keys := rfl

theorem gappedChord_keys (cni : Int) (c0 : 0 ≤ cni) (c4 : cni < 4) :
    gappedChord.keys 0 cni
      = if cni = 0 then 0 else if cni = 1 then 4 else if cni = 2 then 7 else 0 := by
  rw [gappedChord_keys_eq]
  exact init_keys false cni c0 c4

theorem gappedChord_nonOff : nonOffPositions gappedChord = [0, 2] := by
  unfold nonOffPositions
  rw [gappedChord_getIndex]
  simp [List.filter, gappedChord_octs]

/-- Witness of C22: octave 4 semitone 7 survives `setCV` of its voltage; the
chord with positions 1 and 3 turned off, exported and imported into slot 24 of
another module, has its note of position 2 (octave 4, semitone 7, 7/12 V) in
position 1 and position 2 OFF. -/
theorem setCV_calcCV_exact_witness :
    (lastSlotAutostep.setCV 24 3 (gappedChord.calcCV 0 2)).octs 24 3 = 4 ∧
      (lastSlotAutostep.setCV 24 3 (gappedChord.calcCV 0 2)).keys 24 3 = 7 ∧
      nonOffPositions gappedChord = [0, 2] ∧
      (emptyIoNotesSeq lastSlotAutostep (fillIoNotes gappedChord).1).octs 24 1 = 4 ∧
      (emptyIoNotesSeq lastSlotAutostep (fillIoNotes gappedChord).1).keys 24 1 = 7 ∧
      (emptyIoNotesSeq lastSlotAutostep (fillIoNotes gappedChord).1).calcCV 24 1 = 7 / 12 ∧
      (emptyIoNotesSeq lastSlotAutostep (fillIoNotes gappedChord).1).octs 24 2 = -1 ∧
      (emptyIoNotesSeq lastSlotAutostep (fillIoNotes gappedChord).1).keys 24 2 = 0 := by
  have h := setCV_calcCV_exact gappedChord lastSlotAutostep
  have o2 : gappedChord.octs 0 2 = 4 := by rw [gappedChord_octs 2 (by decide) (by decide)]; decide
  have k2 : gappedChord.keys 0 2 = 7 := by rw [gappedChord_keys 2 (by decide) (by decide)]; decide
  have a := h.1 0 2 24 3 (by rw [o2]; decide) (by rw [o2]; decide) (by rw [k2]; decide)
    (by rw [k2]; decide)
  rw [o2, k2] at a
  have hin : ∀ cni : Int, 0 ≤ cni → cni < 4 → 0 ≤ gappedChord.octs gappedChord.getIndex cni →
      gappedChord.octs gappedChord.getIndex cni ≤ 9 ∧
        0 ≤ gappedChord.keys gappedChord.getIndex cni ∧
        gappedChord.keys gappedChord.getIndex cni ≤ 11 := by
    rw [gappedChord_getIndex]
    intro cni c0 c4 _
    rw [gappedChord_octs cni c0 c4, gappedChord_keys cni c0 c4]
    have hc : cni = 0 ∨ cni = 1 ∨ cni = 2 ∨ cni = 3 := by omega
    rcases hc with rfl | rfl | rfl | rfl <;> simp
  have b := h.2 hin
  have hlen : (nonOffPositions gappedChord).length = 2 := by rw [gappedChord_nonOff]; rfl
  have b1 := b.1 1 (by rw [hlen]; decide)
  have b2 := b.2 2 (by rw [hlen]) (by decide)
  simp only [gappedChord_nonOff, List.getElem_cons_succ, List.getElem_cons_zero] at b1
  rw [lastSlotAutostep_getIndex, gappedChord_getIndex, o2, k2] at b1
  rw [lastSlotAutostep_getIndex] at b2
  have cv : gappedChord.calcCV 0 2 = 7 / 12 := by
    unfold calcCV
    rw [o2, k2]
    norm_num
  rw [cv] at b1
  exact ⟨a.1, a.2, gappedChord_nonOff, b1.1, b1.2.1, b1.2.2, b2.1, b2.2⟩

end ChordKey

/-! ## Exact transposition -/

namespace ChordKey

theorem getIndex_congr (a b : ChordKey) (hp : b.params = a.params) (hi : b.inputs = a.inputs) :
    b.getIndex = a.getIndex := by
  unfold getIndex
  rw [hp, hi]

theorem transposeNotes_notesOnly (m : ChordKey) (index delta : Int) :
    NotesOnly m (m.transposeNotes index delta) :=
  transposeLoop_notesOnly m index delta

/-- One more transposition of a shifted state. -/
theorem transposeNotes_shift (m r : ChordKey) (index d delta : Int)
    (hs : ShiftedBy m r index d) (h1 : StaysInRange m index d)
    (h2 : StaysInRange m index (d + delta)) :
    ShiftedBy m (r.transposeNotes index delta) index (d + delta) := by
  have hT := transposeNotes_spec r index delta
  have hN := transposeNotes_notesOnly r index delta
  refine ⟨fun ci cni c0 c4 => ?_, hN.params.trans hs.2.1, hN.inputs.trans hs.2.2⟩
  have hr := hs.1 ci cni c0 c4
  by_cases hci : ci = index
  · subst hci
    by_cases ho : 0 ≤ m.octs ci cni
    · have hri := hs.1 ci cni c0 c4
      rw [if_pos ⟨rfl, ho⟩, if_pos ⟨rfl, ho⟩] at hri
      have b1 := h1 cni c0 c4 ho
      have b2 := h2 cni c0 c4 ho
      have hro : 0 ≤ r.octs ci cni := by rw [hri.1]; omega
      have ht := hT.1 cni c0 c4 hro
      rw [applyDelta_octs, applyDelta_keys, hri.1, hri.2] at ht
      rw [if_pos ⟨rfl, ho⟩, if_pos ⟨rfl, ho⟩, ht.1, ht.2.1]
      generalize noteNumber m ci cni = n at b1 b2 ⊢
      have e : (n + d) / 12 + ((n + d) % 12 + delta) / 12 = (n + (d + delta)) / 12 := by omega
      rw [e]
      refine ⟨clamp_of_mem (by omega) (by omega), by omega⟩
    · have hri := hs.1 ci cni c0 c4
      rw [if_neg (by tauto), if_neg (by tauto)] at hri
      have ht := hT.2.1 cni (by rw [hri.1]; omega)
      rw [if_neg (by tauto), if_neg (by tauto), ht.1, ht.2, hri.1, hri.2]
      exact ⟨rfl, rfl⟩
  · have ht := hT.2.2 ci cni hci
    rw [if_neg (by tauto), if_neg (by tauto)] at hr ⊢
    rw [ht.1, ht.2, hr.1, hr.2]
    exact ⟨rfl, rfl⟩

theorem shiftedBy_zero (m : ChordKey) (index : Int)
    (hin : ∀ cni : Int, 0 ≤ cni → cni < 4 → 0 ≤ m.octs index cni →
      m.octs index cni ≤ 9 ∧ 0 ≤ m.keys index cni ∧ m.keys index cni ≤ 11) :
    ShiftedBy m m index 0 ∧ StaysInRange m index 0 := by
  refine ⟨⟨fun ci cni c0 c4 => ?_, rfl, rfl⟩, fun cni c0 c4 ho => ?_⟩
  · by_cases h : ci = index ∧ 0 ≤ m.octs index cni
    · obtain ⟨rfl, ho⟩ := h
      have b := hin cni c0 c4 ho
      rw [if_pos ⟨rfl, ho⟩, if_pos ⟨rfl, ho⟩]
      unfold noteNumber
      constructor <;> omega
    · rw [if_neg h, if_neg h]
      exact ⟨rfl, rfl⟩
  · have b := hin cni c0 c4 ho
    unfold noteNumber
    omega

/-- One call of the slider on a shifted state. -/
theorem setValue_shift (m r : ChordKey) (q : TransposeQuantity) (last0 : Int) (value : ℚ)
    (hs : ShiftedBy m r m.getIndex (q.valueIntLocalLast - last0))
    (h1 : StaysInRange m m.getIndex (q.valueIntLocalLast - last0))
    (h2 : StaysInRange m m.getIndex (cRound (clampF value (-60) 60) - last0)) :
    (q.setValue r value).1.valueIntLocalLast = cRound (clampF value (-60) 60) ∧
      ShiftedBy m (q.setValue r value).2 m.getIndex (cRound (clampF value (-60) 60) - last0) := by
  have hg : r.getIndex = m.getIndex := getIndex_congr m r hs.2.1 hs.2.2
  unfold TransposeQuantity.setValue
  simp only
  by_cases hd : cRound (clampF value (-60) 60) - q.valueIntLocalLast ≠ 0
  · rw [if_pos hd]
    refine ⟨rfl, ?_⟩
    simp only [hg]
    have e : cRound (clampF value (-60) 60) - last0
        = (q.valueIntLocalLast - last0) + (cRound (clampF value (-60) 60) - q.valueIntLocalLast) := by
      ring
    rw [e] at h2 ⊢
    exact transposeNotes_shift m r m.getIndex _ _ hs h1 h2
  · rw [if_neg hd]
    push_neg at hd
    have e : cRound (clampF value (-60) 60) = q.valueIntLocalLast := by omega
    simp only
    rw [e]
    exact ⟨rfl, hs⟩

/-- A run of the slider on a shifted state. -/
theorem slide_shift (m : ChordKey) (last0 : Int) (values : List ℚ) :
    ∀ (q : TransposeQuantity) (r : ChordKey),
      ShiftedBy m r m.getIndex (q.valueIntLocalLast - last0) →
      StaysInRange m m.getIndex (q.valueIntLocalLast - last0) →
      (∀ value ∈ values, StaysInRange m m.getIndex (cRound (clampF value (-60) 60) - last0)) →
      ShiftedBy m (slide q r values).2 m.getIndex
          ((slide q r values).1.valueIntLocalLast - last0) ∧
        StaysInRange m m.getIndex ((slide q r values).1.valueIntLocalLast - last0) ∧
        (slide q r values).1.valueIntLocalLast
          = q.valueIntLocalLast + (sliderDeltas q.valueIntLocalLast values).sum := by
  induction values with
  | nil =>
    intro q r hs h1 _
    exact ⟨hs, h1, by simp [slide, sliderDeltas]⟩
  | cons v vs ih =>
    intro q r hs h1 hall
    have hv := hall v (List.mem_cons_self v vs)
    have hstep := setValue_shift m r q last0 v hs h1 hv
    have hcons : slide q r (v :: vs) = slide (q.setValue r v).1 (q.setValue r v).2 vs := rfl
    have hrec := ih (q.setValue r v).1 (q.setValue r v).2
      (by rw [hstep.1]; exact hstep.2) (by rw [hstep.1]; exact hv)
      (fun value hmem => hall value (List.mem_cons_of_mem v hmem))
    rw [hcons]
    refine ⟨hrec.1, hrec.2.1, ?_⟩
    rw [hrec.2.2, hstep.1]
    simp only [sliderDeltas, List.sum_cons]
    ring

/-- C23. Transpose shifts the note number exactly. For every chord note with
octave `o` in 0..9 and semitone `k` in 0..11 and every `delta` with
`0 ≤ 12 * o + k + delta ≤ 119`, `applyDelta` yields a semitone in 0..11 and an
octave in 0..9 with `12 * o' + k' = 12 * o + k + delta`, the octave being the
unclamped `o + floorDiv(k + delta, 12)`. Hence a run of the menu slider, during
which every note of the active slot that is not turned off stays in 0..119,
leaves every note of every slot as one transposition of the initial state by
the sum of the increments the run applied. -/
theorem applyDelta_exact (m : ChordKey) :
    (∀ index cni delta : Int,
        0 ≤ m.octs index cni → m.octs index cni ≤ 9 →
        0 ≤ m.keys index cni → m.keys index cni ≤ 11 →
        0 ≤ 12 * m.octs index cni + m.keys index cni + delta →
        12 * m.octs index cni + m.keys index cni + delta ≤ 119 →
        0 ≤ (m.applyDelta index cni delta).keys index cni ∧
          (m.applyDelta index cni delta).keys index cni ≤ 11 ∧
          0 ≤ (m.applyDelta index cni delta).octs index cni ∧
          (m.applyDelta index cni delta).octs index cni ≤ 9 ∧
          12 * (m.applyDelta index cni delta).octs index cni
              + (m.applyDelta index cni delta).keys index cni
            = 12 * m.octs index cni + m.keys index cni + delta ∧
          (m.applyDelta index cni delta).octs index cni
            = m.octs index cni + (m.keys index cni + delta) / 12) ∧
      (∀ (q : TransposeQuantity) (values : List ℚ),
        (∀ cni : Int, 0 ≤ cni → cni < 4 → 0 ≤ m.octs m.getIndex cni →
          m.octs m.getIndex cni ≤ 9 ∧ 0 ≤ m.keys m.getIndex cni ∧ m.keys m.getIndex cni ≤ 11) →
        (∀ value ∈ values, ∀ cni : Int, 0 ≤ cni → cni < 4 → 0 ≤ m.octs m.getIndex cni →
          0 ≤ 12 * m.octs m.getIndex cni + m.keys m.getIndex cni
              + (cRound (clampF value (-60) 60) - q.valueIntLocalLast) ∧
            12 * m.octs m.getIndex cni + m.keys m.getIndex cni
              + (cRound (clampF value (-60) 60) - q.valueIntLocalLast) ≤ 119) →
        ∀ ci cni : Int, 0 ≤ cni → cni < 4 →
          (slide q m values).2.octs ci cni
              = (m.transposeNotes m.getIndex
                  (sliderDeltas q.valueIntLocalLast values).sum).octs ci cni ∧
            (slide q m values).2.keys ci cni
              = (m.transposeNotes m.getIndex
                  (sliderDeltas q.valueIntLocalLast values).sum).keys ci cni) := by
  constructor
  · intro index cni delta ho ho9 hk hk11 h0 h119
    rw [applyDelta_octs, applyDelta_keys]
    have hc : clamp (m.octs index cni + (m.keys index cni + delta) / 12) 0 9
        = m.octs index cni + (m.keys index cni + delta) / 12 :=
      clamp_of_mem (by omega) (by omega)
    rw [hc]
    omega
  · intro q values hin hall ci cni c0 c4
    have hz := shiftedBy_zero m m.getIndex hin
    have hz1 : ShiftedBy m m m.getIndex (q.valueIntLocalLast - q.valueIntLocalLast) := by
      rw [sub_self]; exact hz.1
    have hz2 : StaysInRange m m.getIndex (q.valueIntLocalLast - q.valueIntLocalLast) := by
      rw [sub_self]; exact hz.2
    have hrun := slide_shift m q.valueIntLocalLast values q m hz1 hz2
      (fun value hmem cni c0 c4 ho => hall value hmem cni c0 c4 ho)
    have htot : (slide q m values).1.valueIntLocalLast - q.valueIntLocalLast
        = (sliderDeltas q.valueIntLocalLast values).sum := by
      rw [hrun.2.2]; ring
    rw [htot] at hrun
    have hone := transposeNotes_shift m m m.getIndex 0
      (sliderDeltas q.valueIntLocalLast values).sum hz.1 hz.2
      (by rw [zero_add]; exact hrun.2.1)
    rw [zero_add] at hone
    have a := hrun.1.1 ci cni c0 c4
    have b := hone.1 ci cni c0 c4
    exact ⟨a.1.trans b.1.symm, a.2.trans b.2.symm⟩

end ChordKey

namespace ChordKey

theorem init_slot_inRange (dark : Bool) (cni : Int) (c0 : 0 ≤ cni) (c4 : cni < 4) :
    (init dark).octs 0 cni ≤ 9 ∧ 0 ≤ (init dark).keys 0 cni ∧ (init dark).keys 0 cni ≤ 11 ∧
      (0 ≤ (init dark).octs 0 cni →
        48 ≤ 12 * (init dark).octs 0 cni + (init dark).keys 0 cni ∧
          12 * (init dark).octs 0 cni + (init dark).keys 0 cni ≤ 55) := by
  rw [init_octs dark cni c0 c4, init_keys dark cni c0 c4]
  have hc : cni = 0 ∨ cni = 1 ∨ cni = 2 ∨ cni = 3 := by omega
  rcases hc with rfl | rfl | rfl | rfl <;> simp

theorem sliderRun_rounds (value : ℚ) (h : value ∈ sliderRun) :
    -7 ≤ cRound (clampF value (-60) 60) ∧ cRound (clampF value (-60) 60) ≤ 5 := by
  simp only [sliderRun, List.mem_cons, List.mem_singleton, List.not_mem_nil, or_false] at h
  rcases h with rfl | rfl | rfl <;> norm_num [cRound, clampF]

theorem sliderRun_sum : (sliderDeltas 0 sliderRun).sum = 5 := by
  norm_num [sliderDeltas, sliderRun, cRound, clampF]

/-- Witness of C23 on the default slot: octave 4 semitone 4 moved by -5 is octave
3 semitone 11; the slider values 1.5, -7, 5.4 apply the increments 2, -9, 12,
of sum 5, and leave position 2 (octave 4, semitone 7) at octave 5 semitone 0. -/
theorem applyDelta_exact_witness :
    ((init false).applyDelta 0 1 (-5)).octs 0 1 = 3 ∧
      ((init false).applyDelta 0 1 (-5)).keys 0 1 = 11 ∧
      (sliderDeltas 0 sliderRun).sum = 5 ∧
      (slide ⟨0, 0, 0⟩ (init false) sliderRun).2.octs 0 2 = 5 ∧
      (slide ⟨0, 0, 0⟩ (init false) sliderRun).2.keys 0 2 = 0 := by
  have h := applyDelta_exact (init false)
  have o1 : (init false).octs 0 1 = 4 := init_octs false 1 (by decide) (by decide)
  have k1 : (init false).keys 0 1 = 4 := init_keys false 1 (by decide) (by decide)
  have a := h.1 0 1 (-5) (by rw [o1]; decide) (by rw [o1]; decide) (by rw [k1]; decide)
    (by rw [k1]; decide) (by rw [o1, k1]; decide) (by rw [o1, k1]; decide)
  rw [o1, k1] at a
  have b := h.2 ⟨0, 0, 0⟩ sliderRun
    (by
      rw [init_getIndex]
      intro cni c0 c4 _
      have r := init_slot_inRange false cni c0 c4
      exact ⟨r.1, r.2.1, r.2.2.1⟩)
    (by
      rw [init_getIndex]
      intro value hmem cni c0 c4 ho
      have r := (init_slot_inRange false cni c0 c4).2.2.2 ho
      have s := sliderRun_rounds value hmem
      show 0 ≤ 12 * (init false).octs 0 cni + (init false).keys 0 cni
            + (cRound (clampF value (-60) 60) - 0) ∧
          12 * (init false).octs 0 cni + (init false).keys 0 cni
            + (cRound (clampF value (-60) 60) - 0) ≤ 119
      omega)
    0 2 (by decide) (by decide)
  rw [init_getIndex] at b
  have hs : (sliderDeltas (({ valueLocal := 0, valueIntLocal := 0, valueIntLocalLast := 0 } :
      TransposeQuantity).valueIntLocalLast) sliderRun).sum = 5 := sliderRun_sum
  rw [hs] at b
  have o2 : (init false).octs 0 2 = 4 := init_octs false 2 (by decide) (by decide)
  have k2 : (init false).keys 0 2 = 7 := init_keys false 2 (by decide) (by decide)
  have t := (transposeNotes_spec (init false) 0 5).1 2 (by decide) (by decide)
    (by rw [o2]; decide)
  rw [applyDelta_octs, applyDelta_keys, o2, k2] at t
  have t1 : ((init false).transposeNotes 0 5).octs 0 2 = 5 := t.1
  have t2 : ((init false).transposeNotes 0 5).keys 0 2 = 0 := t.2.1
  refine ⟨?_, ?_, sliderRun_sum, b.1.trans t1, b.2.trans t2⟩
  · have := a.2.2.2.2.2; omega
  · have := a.2.2.2.2.1; have := a.2.2.2.2.2; omega

end ChordKey

/-! ## Persistence round trip -/

theorem toInt32_of_isInt32 (x : Int) (h : -2147483648 ≤ x ∧ x ≤ 2147483647) : toInt32 x = x := by
  unfold toInt32
  omega

theorem json_array_insert_end (elems : List Json) (index : Int) (value : Json)
    (h : index = (elems.length : Int)) :
    json_array_insert_new (Json.array elems) index value = Json.array (elems ++ [value]) := by
  subst h
  unfold json_array_insert_new
  simp

/-- The array built by the two nested loops of a section of `dataToJson` that
writes the table `f`: after `n` chords it holds `4 * n` elements, the element
`cni + ci * 4` being the integer `f ci cni`. -/
theorem dumpLoop_spec (f : Int → Int → Int) (body : Json → Int → Json)
    (hbody : ∀ (arr : Json) (ci : Int), body arr ci = forLoop 0 4
      (fun a cni => json_array_insert_new a (cni + ci * 4) (json_integer (f ci cni))) arr)
    (n : Nat) :
    ∃ elems : List Json, forLoop 0 n body json_array = Json.array elems ∧
      elems.length = 4 * n ∧
      ∀ ci cni : Nat, ci < n → cni < 4 →
        elems[cni + ci * 4]? = some (Json.integer (f (ci : Int) (cni : Int))) := by
  induction n with
  | zero => exact ⟨[], rfl, rfl, fun ci cni h => absurd h (Nat.not_lt_zero ci)⟩
  | succ k ih =>
    obtain ⟨elems, he, hl, hg⟩ := ih
    refine ⟨elems ++ [Json.integer (f k 0), Json.integer (f k 1), Json.integer (f k 2),
      Json.integer (f k 3)], ?_, ?_, ?_⟩
    · rw [forLoop_zero_succ, he, hbody, forLoop_zero_four]
      rw [json_array_insert_end elems _ _ (by simp [hl]; ring),
        json_array_insert_end _ _ _ (by simp [hl]; ring),
        json_array_insert_end _ _ _ (by simp [hl]; ring),
        json_array_insert_end _ _ _ (by simp [hl]; ring)]
      simp [json_integer]
    · rw [List.length_append, hl]; simp; omega
    · intro ci cni hci hcni
      by_cases hk : ci < k
      · rw [List.getElem?_append_left (by omega)]
        exact hg ci cni hk hcni
      · obtain rfl : ci = k := by omega
        rw [List.getElem?_append_right (by omega)]
        have e : cni + ci * 4 - elems.length = cni := by omega
        rw [e]
        have hc : cni = 0 ∨ cni = 1 ∨ cni = 2 ∨ cni = 3 := by omega
        rcases hc with rfl | rfl | rfl | rfl <;> simp

/-- Reading back, with `loadedValue`, an element of the array a section of
`dataToJson` builds. -/
theorem loadedValue_dump (f : Int → Int → Int) (body : Json → Int → Json)
    (hbody : ∀ (arr : Json) (ci : Int), body arr ci = forLoop 0 4
      (fun a cni => json_array_insert_new a (cni + ci * 4) (json_integer (f ci cni))) arr)
    (ci cni old : Int) (h1 : 0 ≤ ci) (h2 : ci < 25) (h3 : 0 ≤ cni) (h4 : cni < 4)
    (hf : -2147483648 ≤ f ci cni ∧ f ci cni ≤ 2147483647) :
    ChordKey.loadedValue (forLoop 0 25 body json_array) ci cni old = f ci cni := by
  obtain ⟨elems, he, hl, hg⟩ := dumpLoop_spec f body hbody 25
  have hget := hg ci.toNat cni.toNat (by omega) (by omega)
  have e1 : ((ci.toNat : Nat) : Int) = ci := Int.toNat_of_nonneg h1
  have e2 : ((cni.toNat : Nat) : Int) = cni := Int.toNat_of_nonneg h3
  have e3 : (cni + ci * 4).toNat = cni.toNat + ci.toNat * 4 := by omega
  rw [e1, e2] at hget
  unfold ChordKey.loadedValue
  rw [he]
  unfold json_array_get
  simp only
  rw [if_neg (by omega), List.get?_eq_getElem?, e3, hget]
  simp only [json_number_value]
  exact cInt_intCast _ hf.1 hf.2

namespace ChordKey

theorem dataToJson_members (m : ChordKey) :
    dataToJson m = Json.object
      [("panelTheme", Json.integer m.panelTheme),
       ("octs", forLoop 0 25 (dumpOctChord m) json_array),
       ("keys", forLoop 0 25 (dumpKeyChord m) json_array),
       ("mergeOutputs", Json.integer m.mergeOutputs),
       ("keypressEmitGate", Json.integer m.keypressEmitGate),
       ("autostepPaste", Json.integer m.autostepPaste)] := by
  simp [dataToJson, json_object, json_object_set_new, json_integer]

theorem dataToJson_get (m : ChordKey) :
    json_object_get (dataToJson m) "panelTheme" = some (Json.integer m.panelTheme) ∧
      json_object_get (dataToJson m) "octs" = some (forLoop 0 25 (dumpOctChord m) json_array) ∧
      json_object_get (dataToJson m) "keys" = some (forLoop 0 25 (dumpKeyChord m) json_array) ∧
      json_object_get (dataToJson m) "mergeOutputs" = some (Json.integer m.mergeOutputs) ∧
      json_object_get (dataToJson m) "keypressEmitGate"
        = some (Json.integer m.keypressEmitGate) ∧
      json_object_get (dataToJson m) "autostepPaste" = some (Json.integer m.autostepPaste) := by
  rw [dataToJson_members]
  refine ⟨?_, ?_, ?_, ?_, ?_, ?_⟩ <;> simp [json_object_get, List.lookup]

/-- C24. Persistence round trip. For every module state (its `int` fields and
array elements being 32-bit values) and every prior state, `dataFromJson` of
the document `dataToJson` produces restores `panelTheme`, all 25 x 4 octaves,
all 25 x 4 semitones, `mergeOutputs`, `keypressEmitGate` and `autostepPaste` to
exactly the values that were serialized. -/
theorem dataFromJson_dataToJson (m prior : ChordKey)
    (hp : IsInt32 m.panelTheme) (hm : IsInt32 m.mergeOutputs)
    (hg : IsInt32 m.keypressEmitGate) (ha : IsInt32 m.autostepPaste)
    (hc : ∀ ci cni : Int, 0 ≤ ci → ci < 25 → 0 ≤ cni → cni < 4 →
      IsInt32 (m.octs ci cni) ∧ IsInt32 (m.keys ci cni)) :
    (dataFromJson prior (dataToJson m)).panelTheme = m.panelTheme ∧
      (∀ ci cni : Int, 0 ≤ ci → ci < 25 → 0 ≤ cni → cni < 4 →
        (dataFromJson prior (dataToJson m)).octs ci cni = m.octs ci cni ∧
          (dataFromJson prior (dataToJson m)).keys ci cni = m.keys ci cni) ∧
      (dataFromJson prior (dataToJson m)).mergeOutputs = m.mergeOutputs ∧
      (dataFromJson prior (dataToJson m)).keypressEmitGate = m.keypressEmitGate ∧
      (dataFromJson prior (dataToJson m)).autostepPaste = m.autostepPaste := by
  have hget := dataToJson_get m
  refine ⟨?_, fun ci cni h1 h2 h3 h4 => ⟨?_, ?_⟩, ?_, ?_, ?_⟩
  · rw [dataFromJson_panelTheme, hget.1]
    exact toInt32_of_isInt32 _ hp
  · rw [dataFromJson_octs_cell prior _ ci cni h1 h2 h3 h4, hget.2.1]
    exact loadedValue_dump m.octs (dumpOctChord m) (fun _ _ => rfl) ci cni _ h1 h2 h3 h4
      (hc ci cni h1 h2 h3 h4).1
  · rw [dataFromJson_keys_cell prior _ ci cni h1 h2 h3 h4, hget.2.2.1]
    exact loadedValue_dump m.keys (dumpKeyChord m) (fun _ _ => rfl) ci cni _ h1 h2 h3 h4
      (hc ci cni h1 h2 h3 h4).2
  · rw [dataFromJson_mergeOutputs, hget.2.2.2.1]
    exact toInt32_of_isInt32 _ hm
  · rw [dataFromJson_keypressEmitGate, hget.2.2.2.2.1]
    exact toInt32_of_isInt32 _ hg
  · rw [dataFromJson_autostepPaste, hget.2.2.2.2.2]
    exact toInt32_of_isInt32 _ ha

end ChordKey

namespace ChordKey

theorem forcedMerge1_persisted :
    forcedMerge1.panelTheme = 0 ∧ forcedMerge1.mergeOutputs = 1 ∧
      forcedMerge1.keypressEmitGate = 1 ∧ forcedMerge1.autostepPaste = 0 :=
  ⟨rfl, rfl, rfl, rfl⟩

/-- Witness of C24: the module with `mergeOutputs = 1`, saved and loaded into a
blank module, gives theme 0, position 3 of slot 0 OFF, semitone 7 in position 2,
merge mode 1, keypress gate 1 and autostep 0. -/
theorem dataFromJson_dataToJson_witness :
    IsInt32 forcedMerge1.panelTheme ∧ IsInt32 forcedMerge1.mergeOutputs ∧
      IsInt32 forcedMerge1.keypressEmitGate ∧ IsInt32 forcedMerge1.autostepPaste ∧
      (∀ ci cni : Int, 0 ≤ ci → ci < 25 → 0 ≤ cni → cni < 4 →
        IsInt32 (forcedMerge1.octs ci cni) ∧ IsInt32 (forcedMerge1.keys ci cni)) ∧
      (dataFromJson blank (dataToJson forcedMerge1)).panelTheme = 0 ∧
      (dataFromJson blank (dataToJson forcedMerge1)).octs 0 3 = -1 ∧
      (dataFromJson blank (dataToJson forcedMerge1)).keys 0 2 = 7 ∧
      (dataFromJson blank (dataToJson forcedMerge1)).mergeOutputs = 1 ∧
      (dataFromJson blank (dataToJson forcedMerge1)).keypressEmitGate = 1 ∧
      (dataFromJson blank (dataToJson forcedMerge1)).autostepPaste = 0 := by
  have e := forcedMerge1_persisted
  have hp : IsInt32 forcedMerge1.panelTheme := by rw [e.1]; unfold IsInt32; decide
  have hm : IsInt32 forcedMerge1.mergeOutputs := by rw [e.2.1]; unfold IsInt32; decide
  have hg : IsInt32 forcedMerge1.keypressEmitGate := by rw [e.2.2.1]; unfold IsInt32; decide
  have ha : IsInt32 forcedMerge1.autostepPaste := by rw [e.2.2.2]; unfold IsInt32; decide
  have hc : ∀ ci cni : Int, 0 ≤ ci → ci < 25 → 0 ≤ cni → cni < 4 →
      IsInt32 (forcedMerge1.octs ci cni) ∧ IsInt32 (forcedMerge1.keys ci cni) := by
    intro ci cni h1 h2 h3 h4
    have ho := onReset_octs blank ci cni h1 h2 h3 h4
    have hk := onReset_keys blank ci cni h1 h2 h3 h4
    have ho2 : forcedMerge1.octs ci cni = if cni = 3 then -1 else 4 := by
      rw [forcedMerge1_octs]; simpa only [init] using ho
    have hk2 : forcedMerge1.keys ci cni
        = if cni = 0 then 0 else if cni = 1 then 4 else if cni = 2 then 7 else 0 := by
      rw [forcedMerge1_keys]; simpa only [init] using hk
    rw [ho2, hk2]
    unfold IsInt32
    split_ifs <;> decide
  have h := dataFromJson_dataToJson forcedMerge1 blank hp hm hg ha hc
  have o3 : forcedMerge1.octs 0 3 = -1 := by
    rw [forcedMerge1_octs]; exact init_octs false 3 (by decide) (by decide)
  have k2 : forcedMerge1.keys 0 2 = 7 := by
    rw [forcedMerge1_keys]; exact init_keys false 2 (by decide) (by decide)
  have c3 := (h.2.1 0 3 (by decide) (by decide) (by decide) (by decide)).1
  have c2 := (h.2.1 0 2 (by decide) (by decide) (by decide) (by decide)).2
  exact ⟨hp, hm, hg, ha, hc, h.1.trans e.1, c3.trans o3, c2.trans k2, h.2.2.1.trans e.2.1,
    h.2.2.2.1.trans e.2.2.1, h.2.2.2.2.trans e.2.2.2⟩

end ChordKey
